import Mathlib

/-!
# Fork coordinator of the consensus set (`modules/consensus/fork.go`)

A shallow embedding of `backtrackToCurrentPath`, `revertToNode`,
`applyUntilNode` and `forkBlockchain`.  The consensus set is passed explicitly
as a value; loops that Go writes as `for { ... }` take a fuel argument and
report `Fault.outOfFuel` when it is exhausted; a Go `panic` (or a lookup of a
record that the store does not hold) is a `Fault`.

The committer (`commitDiffSet`), the generator (`generateAndApplyDiff`) and the
store accessors live in other files of the package; they are modelled from the
specification and marked as such.
-/

namespace consensus

/-- Block identifiers (`types.BlockID`). -/
abbrev BlockID := Nat

/-- The two directions of `commitDiffSet` (`modules.DiffApply`, `modules.DiffRevert`). -/
inductive DiffDirection where
  | DiffApply
  | DiffRevert
deriving DecidableEq, Repr

/-- A processed block: `ID` is `pb.Block.ID()`, `DiffSet` stands for the diff
fields of the record. -/
structure processedBlock (D : Type) where
  ID : BlockID
  Parent : BlockID
  Height : Nat
  DiffsGenerated : Bool
  DiffSet : D
deriving DecidableEq, Repr

/-- One invocation of the committer or of the generator, with its outcome
(`true` when it returned a nil error). -/
inductive Call where
  | commit (id : BlockID) (dir : DiffDirection) (ok : Bool)
  | generate (id : BlockID) (ok : Bool)
deriving DecidableEq, Repr

/-- The consensus set: the `BlockMap` bucket, the `PathHeight` bucket (entry
`h` of the list is the id on the current path at height `h`), the live
consensus state, and a ghost log of the committer and generator invocations. -/
structure ConsensusSet (σ D : Type) where
  blockMap : List (processedBlock D)
  path : List BlockID
  state : σ
  calls : List Call

/-- Errors returned as Go `error` values. -/
inductive Error (ε : Type) where
  | invalidBlock (reason : ε)
  | inconsistent
deriving DecidableEq, Repr

/-- Abnormal terminations: panics, lookups of absent records, and exhaustion
of the loop fuel (the Go loop would still be running). -/
inductive Fault where
  | externalRevert
  | unknownBlock
  | commitFailed
  | reapplyFailed
  | hashChanged
  | outOfFuel
deriving DecidableEq, Repr

/-- What the fork coordinator takes from the rest of the package: the build
flag `build.DEBUG`, the effect of a diff set on the live state in both
directions, the state transition run by the generator, and the digest computed
by `consensusSetHash`. -/
structure Externals (σ D ε H : Type) where
  DEBUG : Bool
  applyDiffs : D → σ → σ
  revertDiffs : D → σ → σ
  generate : ConsensusSet σ D → processedBlock D → Except ε D
  hash : σ → H

/-- The value `errExternalRevert` ("cannot revert to node outside of current
path"), with which `revertToNode` panics. -/
abbrev errExternalRevert : Fault := Fault.externalRevert

variable {σ D ε H : Type}

/-- Modelled from the spec: `getBlockMap` (§4.1 `getBlock(id)`), the record
stored under `id` in the `BlockMap` bucket, if any. -/
def getBlockMap (cs : ConsensusSet σ D) (id : BlockID) : Option (processedBlock D) :=
  cs.blockMap.find? (fun b => b.ID == id)

/-- Modelled from the spec: `getPath` (§4.1 `pathAt(h)`), the id on the current
path at height `h`, undefined above the tip. -/
def getPath (cs : ConsensusSet σ D) (h : Nat) : Option BlockID :=
  cs.path[h]?

/-- Modelled from the spec: `height` (§4.1 `tipHeight()`), the height of the
current-path tip. -/
def height (cs : ConsensusSet σ D) : Nat :=
  cs.path.length - 1

/-- Modelled from the spec: `currentBlockID`, the path entry at the tip height. -/
def currentBlockID (cs : ConsensusSet σ D) : Option BlockID :=
  getPath cs (height cs)

/-- Modelled from the spec: `currentProcessedBlock`, the stored record of the tip. -/
def currentProcessedBlock (cs : ConsensusSet σ D) : Option (processedBlock D) :=
  (currentBlockID cs).bind (getBlockMap cs)

/-- Modelled from the spec: `consensusSetHash` (§6), a digest of the state buckets. -/
def consensusSetHash (E : Externals σ D ε H) (cs : ConsensusSet σ D) : H :=
  E.hash cs.state

/-- Modelled from the spec: the store write of a processed block record
(`writeDiffSet`, `writeDiffsGenerated`): the record stored under `pb.ID` is
replaced by `pb`. -/
def setBlock (cs : ConsensusSet σ D) (pb : processedBlock D) : ConsensusSet σ D :=
  { cs with blockMap := cs.blockMap.map (fun b => if b.ID = pb.ID then pb else b) }

/-- Modelled from the spec: `commitDiffSet` (§4.2).  Apply requires that `pb`
extends the tip and has its diffs generated, installs the forward effect of the
diff set and appends `pb` to the current path; Revert requires that `pb` is the
tip, installs the inverse effect and removes the tip entry.  A violated
precondition returns `Error.inconsistent` and changes nothing. -/
def commitDiffSet (E : Externals σ D ε H) (cs : ConsensusSet σ D) (pb : processedBlock D)
    (dir : DiffDirection) : ConsensusSet σ D × Option (Error ε) :=
  match dir with
  | .DiffApply =>
    if currentBlockID cs = some pb.Parent ∧ pb.DiffsGenerated = true then
      ({ cs with state := E.applyDiffs pb.DiffSet cs.state,
                 path := cs.path ++ [pb.ID],
                 calls := cs.calls ++ [.commit pb.ID .DiffApply true] }, none)
    else
      ({ cs with calls := cs.calls ++ [.commit pb.ID .DiffApply false] }, some .inconsistent)
  | .DiffRevert =>
    if currentBlockID cs = some pb.ID then
      ({ cs with state := E.revertDiffs pb.DiffSet cs.state,
                 path := cs.path.dropLast,
                 calls := cs.calls ++ [.commit pb.ID .DiffRevert true] }, none)
    else
      ({ cs with calls := cs.calls ++ [.commit pb.ID .DiffRevert false] }, some .inconsistent)

/-- Modelled from the spec: `generateAndApplyDiff` (§4.3).  Runs the state
transition; on success stores the diff set on the record, sets
`DiffsGenerated` and invokes the committer in Apply direction; on failure
nothing is mutated and the flag stays false.  The second component is the
block as the caller sees it afterwards (Go mutates it through the pointer). -/
def generateAndApplyDiff (E : Externals σ D ε H) (cs : ConsensusSet σ D)
    (pb : processedBlock D) : ConsensusSet σ D × processedBlock D × Option (Error ε) :=
  match E.generate cs pb with
  | .error e =>
    ({ cs with calls := cs.calls ++ [.generate pb.ID false] }, pb, some (.invalidBlock e))
  | .ok d =>
    let pb' : processedBlock D := { pb with DiffsGenerated := true, DiffSet := d }
    match commitDiffSet E (setBlock cs pb') pb' .DiffApply with
    | (cs', none) =>
      ({ cs' with calls := cs.calls ++ [.generate pb.ID true, .commit pb.ID .DiffApply true] },
        pb', none)
    | (_, some err) =>
      ({ cs with calls := cs.calls ++ [.generate pb.ID false, .commit pb.ID .DiffApply false] },
        pb, some err)

/-- The test `pb.Height <= csHeight && getPath(tx, pb.Height) == pb.Block.ID()`. -/
def onCurrentPath (cs : ConsensusSet σ D) (pb : processedBlock D) : Bool :=
  decide (pb.Height ≤ height cs) && (getPath cs pb.Height == some pb.ID)

/-- The loop of `backtrackToCurrentPath`: `path` is the list built so far,
whose first element is `pb`. -/
def backtrackLoop (cs : ConsensusSet σ D) :
    Nat → processedBlock D → List (processedBlock D) → Except Fault (List (processedBlock D))
  | 0, _, _ => .error .outOfFuel
  | fuel + 1, pb, path =>
    if onCurrentPath cs pb then .ok path
    else
      match getBlockMap cs pb.Parent with
      | none => .error .unknownBlock
      | some p => backtrackLoop cs fuel p (p :: path)

/-- The function `backtrackToCurrentPath`. -/
def backtrackToCurrentPath (fuel : Nat) (cs : ConsensusSet σ D) (pb : processedBlock D) :
    Except Fault (List (processedBlock D)) :=
  backtrackLoop cs fuel pb [pb]

/-- The loop of `revertToNode`. -/
def revertLoop (E : Externals σ D ε H) (pb : processedBlock D) :
    Nat → ConsensusSet σ D → List (processedBlock D) →
      Except Fault (ConsensusSet σ D × List (processedBlock D))
  | 0, _, _ => .error .outOfFuel
  | fuel + 1, cs, revertedNodes =>
    if currentBlockID cs = some pb.ID then .ok (cs, revertedNodes)
    else
      match currentProcessedBlock cs with
      | none => .error .unknownBlock
      | some node =>
        match commitDiffSet E cs node .DiffRevert with
        | (cs', err) =>
          if E.DEBUG = true ∧ err.isSome = true then .error .commitFailed
          else revertLoop E pb fuel cs' (revertedNodes ++ [node])

/-- The function `revertToNode`. -/
def revertToNode (E : Externals σ D ε H) (fuel : Nat) (cs : ConsensusSet σ D)
    (pb : processedBlock D) : Except Fault (ConsensusSet σ D × List (processedBlock D)) :=
  if E.DEBUG = true ∧ (height cs < pb.Height ∨ getPath cs pb.Height ≠ some pb.ID) then
    .error errExternalRevert
  else revertLoop E pb fuel cs []

/-- The loop of `revertToNode` with the consensus set that it leaves behind,
also when it stops on a panic: a Go panic does not undo the commits made
before it.  The second component is the list of reverted blocks, or the fault. -/
def revertLoopRun (E : Externals σ D ε H) (pb : processedBlock D) :
    Nat → ConsensusSet σ D → List (processedBlock D) →
      ConsensusSet σ D × Except Fault (List (processedBlock D))
  | 0, cs, _ => (cs, .error .outOfFuel)
  | fuel + 1, cs, revertedNodes =>
    if currentBlockID cs = some pb.ID then (cs, .ok revertedNodes)
    else
      match currentProcessedBlock cs with
      | none => (cs, .error .unknownBlock)
      | some node =>
        match commitDiffSet E cs node .DiffRevert with
        | (cs', err) =>
          if E.DEBUG = true ∧ err.isSome = true then (cs', .error .commitFailed)
          else revertLoopRun E pb fuel cs' (revertedNodes ++ [node])

/-- The function `revertToNode` with the consensus set that it leaves behind,
also when it panics. -/
def revertToNodeRun (E : Externals σ D ε H) (fuel : Nat) (cs : ConsensusSet σ D)
    (pb : processedBlock D) : ConsensusSet σ D × Except Fault (List (processedBlock D)) :=
  if E.DEBUG = true ∧ (height cs < pb.Height ∨ getPath cs pb.Height ≠ some pb.ID) then
    (cs, .error errExternalRevert)
  else revertLoopRun E pb fuel cs []

/-- The loop of `applyUntilNode` over `newPath[1:]`. -/
def applyLoop (E : Externals σ D ε H) :
    List (processedBlock D) → ConsensusSet σ D → List (processedBlock D) →
      Except Fault (ConsensusSet σ D × List (processedBlock D) × Option (Error ε))
  | [], cs, appliedBlocks => .ok (cs, appliedBlocks, none)
  | node :: rest, cs, appliedBlocks =>
    if node.DiffsGenerated = true then
      match commitDiffSet E cs node .DiffApply with
      | (cs', err) =>
        if E.DEBUG = true ∧ err.isSome = true then .error .commitFailed
        else applyLoop E rest cs' (appliedBlocks ++ [node])
    else
      match generateAndApplyDiff E cs node with
      | (cs', _, some err) => .ok (cs', appliedBlocks, some err)
      | (cs', node', none) => applyLoop E rest cs' (appliedBlocks ++ [node'])

/-- The function `applyUntilNode`. -/
def applyUntilNode (E : Externals σ D ε H) (fuel : Nat) (cs : ConsensusSet σ D)
    (pb : processedBlock D) :
    Except Fault (ConsensusSet σ D × List (processedBlock D) × Option (Error ε)) :=
  match backtrackToCurrentPath fuel cs pb with
  | .error f => .error f
  | .ok newPath => applyLoop E newPath.tail cs []

/-- The result of `forkBlockchain`: the consensus set afterwards and the three
returned values. -/
structure ForkResult (σ D ε : Type) where
  cs : ConsensusSet σ D
  revertedNodes : List (processedBlock D)
  appliedNodes : List (processedBlock D)
  err : Option (Error ε)

/-- The function `forkBlockchain`. -/
def forkBlockchain [DecidableEq H] (E : Externals σ D ε H) (fuel : Nat)
    (cs : ConsensusSet σ D) (newNode : processedBlock D) : Except Fault (ForkResult σ D ε) :=
  let oldHash := consensusSetHash E cs
  match currentProcessedBlock cs with
  | none => .error .unknownBlock
  | some oldHead =>
    match backtrackToCurrentPath fuel cs newNode with
    | .error f => .error f
    | .ok [] => .error .unknownBlock
    | .ok (commonParent :: _) =>
      match revertToNode E fuel cs commonParent with
      | .error f => .error f
      | .ok (cs1, revertedNodes) =>
        match applyUntilNode E fuel cs1 newNode with
        | .error f => .error f
        | .ok (cs2, appliedNodes, none) => .ok ⟨cs2, revertedNodes, appliedNodes, none⟩
        | .ok (cs2, _, some err) =>
          match revertToNode E fuel cs2 commonParent with
          | .error f => .error f
          | .ok (cs3, _) =>
            match applyUntilNode E fuel cs3 oldHead with
            | .error f => .error f
            | .ok (cs4, _, errReapply) =>
              if E.DEBUG = true ∧ errReapply.isSome = true then .error .reapplyFailed
              else if E.DEBUG = true ∧ consensusSetHash E cs4 ≠ oldHash then .error .hashChanged
              else .ok ⟨cs4, [], [], some err⟩

/-! ## Specification vocabulary -/

/-- The block `pb` is the record that the block map holds under its id. -/
def Stored (cs : ConsensusSet σ D) (pb : processedBlock D) : Prop :=
  getBlockMap cs pb.ID = some pb

/-- The `k`-th ancestor of `pb`, following `Parent` through the block map
(`ancestor cs 0 pb` is `pb` itself). -/
def ancestor (cs : ConsensusSet σ D) : Nat → processedBlock D → Option (processedBlock D)
  | 0, pb => some pb
  | k + 1, pb => (getBlockMap cs pb.Parent).bind (ancestor cs k)

/-- The ancestors of `pb` are in the block map down to the current path: the
`n`-th ancestor exists and lies on the current path. -/
def ReachesPath (cs : ConsensusSet σ D) (n : Nat) (pb : processedBlock D) : Prop :=
  ∃ a, ancestor cs n pb = some a ∧ onCurrentPath cs a = true

/-- The list that `backtrackToCurrentPath` computes for `pb`: it starts at the
first block on the current path met when walking from `pb` towards genesis, and
ends with `pb`. -/
inductive Backtrack (cs : ConsensusSet σ D) : processedBlock D → List (processedBlock D) → Prop
  | here {pb : processedBlock D} : onCurrentPath cs pb = true → Backtrack cs pb [pb]
  | step {pb p : processedBlock D} {l : List (processedBlock D)} :
      onCurrentPath cs pb = false → getBlockMap cs pb.Parent = some p →
      Backtrack cs p l → Backtrack cs pb (l ++ [pb])

/-- Each block of the list has the previous one (the block `t` for the first)
as its parent. -/
def Linked : BlockID → List (processedBlock D) → Prop
  | _, [] => True
  | t, b :: rest => b.Parent = t ∧ Linked b.ID rest

/-- Heights of the list increase by one from `h`. -/
def HeightsFrom : Nat → List (processedBlock D) → Prop
  | _, [] => True
  | h, b :: rest => b.Height = h + 1 ∧ HeightsFrom (h + 1) rest

/-- The cumulative application, from `s0`, of the stored diff sets of `ids`. -/
def replay (E : Externals σ D ε H) (cs : ConsensusSet σ D) (s0 : σ) (ids : List BlockID) : σ :=
  ids.foldl (fun s id =>
    match getBlockMap cs id with
    | some b => E.applyDiffs b.DiffSet s
    | none => s) s0

/-- The cumulative reversal, from `s`, of the stored diff sets of `ids`, last
block first. -/
def unwind (E : Externals σ D ε H) (cs : ConsensusSet σ D) (ids : List BlockID) (s : σ) : σ :=
  ids.foldr (fun id s =>
    match getBlockMap cs id with
    | some b => E.revertDiffs b.DiffSet s
    | none => s) s

/-- The current path is parent-linked: the block at height `h` is stored with
`Height = h` and, above genesis, has the block at height `h - 1` as parent. -/
def PathLinked (cs : ConsensusSet σ D) : Prop :=
  ∀ h id, getPath cs h = some id →
    ∃ b, getBlockMap cs id = some b ∧ b.Height = h ∧
      (0 < h → getPath cs (h - 1) = some b.Parent)

/-- The block tree is rooted at genesis: the parent of the block at height 0
is not a stored block. -/
def GenesisRoot (cs : ConsensusSet σ D) : Prop :=
  ∀ id g, getPath cs 0 = some id → getBlockMap cs id = some g →
    getBlockMap cs g.Parent = none

/-- The invariants of the data model (spec §3) on the current path: it starts
at genesis; the block at height `h` is stored with `Height = h`, has its diffs
generated and, above genesis, has the block at height `h - 1` as parent. -/
structure PathWellFormed (cs : ConsensusSet σ D) : Prop where
  nonempty : cs.path ≠ []
  onPath : ∀ h id, getPath cs h = some id →
    ∃ b, getBlockMap cs id = some b ∧ b.Height = h ∧ b.DiffsGenerated = true ∧
      (0 < h → getPath cs (h - 1) = some b.Parent)

/-- A well-formed consensus set: the path invariants hold and the live state
is the cumulative application of the diff sets along the path (spec §3,
agreement with state). -/
structure WellFormed (E : Externals σ D ε H) (cs : ConsensusSet σ D)
    extends PathWellFormed cs : Prop where
  agrees : ∃ s0, cs.state = replay E cs s0 cs.path

/-- The invariant of the data model on heights: a stored block whose parent is
stored is one higher than its parent. -/
def HeightsLinked (cs : ConsensusSet σ D) : Prop :=
  ∀ b p, Stored cs b → getBlockMap cs b.Parent = some p → b.Height = p.Height + 1

/-- The block map of `cs'` comes from that of `cs` by generation only: the
same ids are stored, parents and heights are untouched, and a record whose
diffs were generated is unchanged. -/
def MapEvolves (cs cs' : ConsensusSet σ D) : Prop :=
  (∀ id b, getBlockMap cs id = some b →
      ∃ b', getBlockMap cs' id = some b' ∧ b'.Parent = b.Parent ∧ b'.Height = b.Height ∧
        (b.DiffsGenerated = true → b' = b)) ∧
  (∀ id, getBlockMap cs id = none → getBlockMap cs' id = none)

/-- The invocations made when one block is applied and not rejected: the
committer when its diffs are generated, else the generator, which then commits. -/
def applyCallsOf (b : processedBlock D) : List Call :=
  if b.DiffsGenerated = true then [Call.commit b.ID .DiffApply true]
  else [Call.generate b.ID true, Call.commit b.ID .DiffApply true]

/-- The invocations made when the blocks of a list are applied in order and
none is rejected. -/
def applyCalls (xs : List (processedBlock D)) : List Call :=
  xs.flatMap applyCallsOf

/-- The invocations made when the blocks with the given ids are reverted in order. -/
def revertCalls (ids : List BlockID) : List Call :=
  ids.map (fun id => Call.commit id .DiffRevert true)

/-- What holds after the blocks `xs` have all been applied on top of `cs`,
giving `cs'` and the list `appl` of applied blocks. -/
structure ApplyPost (E : Externals σ D ε H) (cs cs' : ConsensusSet σ D)
    (xs appl : List (processedBlock D)) : Prop where
  ids : appl.map (fun b => b.ID) = xs.map (fun b => b.ID)
  stored : ∀ b ∈ appl, Stored cs' b ∧ b.DiffsGenerated = true
  path : cs'.path = cs.path ++ xs.map (fun b => b.ID)
  state : cs'.state = replay E cs' cs.state (xs.map (fun b => b.ID))
  evolves : MapEvolves cs cs'
  frame : ∀ id, id ∉ xs.map (fun b => b.ID) → getBlockMap cs' id = getBlockMap cs id
  calls : cs'.calls = cs.calls ++ applyCalls xs

/-- The stored records of the given ids, in order. -/
def blocksOf (cs : ConsensusSet σ D) (ids : List BlockID) : List (processedBlock D) :=
  ids.filterMap (getBlockMap cs)

/-- The consensus set after the blocks of the current path above height `h`
have been reverted, tip first. -/
def revertedTo (E : Externals σ D ε H) (cs : ConsensusSet σ D) (h : Nat) : ConsensusSet σ D :=
  { cs with
    path := cs.path.take (h + 1)
    state := unwind E cs (cs.path.drop (h + 1)) cs.state
    calls := cs.calls ++ revertCalls (cs.path.drop (h + 1)).reverse }

/-- A sequence of `forkBlockchain` calls, each on the stored block of the given
id; a call that returns an error does not stop the sequence, a fault does. -/
def forkAll [DecidableEq H] (E : Externals σ D ε H) (fuel : Nat) :
    ConsensusSet σ D → List BlockID → Except Fault (ConsensusSet σ D)
  | cs, [] => .ok cs
  | cs, id :: rest =>
    match getBlockMap cs id with
    | none => .error .unknownBlock
    | some newNode =>
      match forkBlockchain E fuel cs newNode with
      | .error f => .error f
      | .ok r => forkAll E fuel r.cs rest

/-- The number of invocations of the generator on the block `id` in a log. -/
def generateCount (id : BlockID) (calls : List Call) : Nat :=
  (calls.filter (fun c =>
    match c with
    | .generate i _ => i == id
    | .commit _ _ _ => false)).length

/-- In the log, a successful invocation of the generator on a block is never
followed by another invocation of the generator on that block. -/
def GeneratedOnce : List Call → Prop
  | [] => True
  | c :: rest =>
    (∀ id, c = Call.generate id true → ∀ ok, Call.generate id ok ∉ rest) ∧ GeneratedOnce rest

/-- The current path is contiguous: it is defined exactly on the heights from 0
to the tip height, and above genesis the stored record of each entry has the
entry one below as its parent. -/
def Contiguous (cs : ConsensusSet σ D) : Prop :=
  (∀ h, (getPath cs h).isSome = true ↔ h ≤ height cs) ∧
  ∀ h id, 0 < h → getPath cs h = some id →
    ∃ b, getBlockMap cs id = some b ∧ getPath cs (h - 1) = some b.Parent

/-- Every block on the current path has its diffs generated. -/
def PathGenerated (cs : ConsensusSet σ D) : Prop :=
  ∀ id, id ∈ cs.path → ∃ b, getBlockMap cs id = some b ∧ b.DiffsGenerated = true

/-- The block map holds a record under the id of `pb`, with the parent of `pb`,
and generated when `pb` is. -/
def Known (cs : ConsensusSet σ D) (pb : processedBlock D) : Prop :=
  ∃ b, getBlockMap cs pb.ID = some b ∧ b.Parent = pb.Parent ∧
    (pb.DiffsGenerated = true → b.DiffsGenerated = true)

/-- Every record of the block map of `cs` is still there in `cs'`, with the same
parent, and generated when it was. -/
def MapGrows (cs cs' : ConsensusSet σ D) : Prop :=
  ∀ id b, getBlockMap cs id = some b →
    ∃ b', getBlockMap cs' id = some b' ∧ b'.Parent = b.Parent ∧
      (b.DiffsGenerated = true → b'.DiffsGenerated = true)

/-- The step from `cs` to `cs'` keeps the records of the block map and the two
invariants of the current path, contiguity and generated diffs. -/
structure Keeps (cs cs' : ConsensusSet σ D) : Prop where
  map : MapGrows cs cs'
  contiguous : Contiguous cs → Contiguous cs'
  generated : PathGenerated cs → PathGenerated cs'

/-- Whether an invocation is one of the committer in Revert direction. -/
def isRevert : Call → Bool
  | .commit _ .DiffRevert _ => true
  | _ => false

/-- In the log, every Revert precedes every Apply and every invocation of the
generator: after the leading Reverts there is no further Revert. -/
def revertsFirst (calls : List Call) : Bool :=
  (calls.dropWhile isRevert).all (fun c => !isRevert c)

/-- Replays a log of invocations on a path and checks the precondition of each
callee against the path at that moment: a block handed to the committer in
Revert direction must be the tip, a block handed to the committer in Apply
direction or to the generator must have the tip as its parent (parents are read
from the block map of `cs`).  A committer invocation that returned nil moves
the tip.  The result is the path after the log, `none` when a precondition is
violated. -/
def checkCalls (cs : ConsensusSet σ D) : List BlockID → List Call → Option (List BlockID)
  | path, [] => some path
  | path, .commit id .DiffRevert ok :: rest =>
    if path.getLast? = some id then
      checkCalls cs (if ok then path.dropLast else path) rest
    else none
  | path, .commit id .DiffApply ok :: rest =>
    match getBlockMap cs id with
    | none => none
    | some b =>
      if path.getLast? = some b.Parent then
        checkCalls cs (if ok then path ++ [id] else path) rest
      else none
  | path, .generate id _ :: rest =>
    match getBlockMap cs id with
    | none => none
    | some b =>
      if path.getLast? = some b.Parent then checkCalls cs path rest
      else none

/-- Every stored block above height 0 has its parent in the block map, one
lower. -/
def ParentsStored (cs : ConsensusSet σ D) : Prop :=
  ∀ b, Stored cs b → 0 < b.Height →
    ∃ p, getBlockMap cs b.Parent = some p ∧ p.Height + 1 = b.Height

/-- A stored block of height 0 (the genesis block) is on the current path. -/
def GenesisOnPath (cs : ConsensusSet σ D) : Prop :=
  ∀ b, Stored cs b → b.Height = 0 → onCurrentPath cs b = true

/-- Revert undoes Apply on the live state. -/
def RevertUndoesApply (E : Externals σ D ε H) : Prop :=
  ∀ d s, E.revertDiffs d (E.applyDiffs d s) = s

/-! ## A concrete instance, used to evaluate the definitions -/

/-- Example externals: the state is an integer balance, a diff set adds to it,
and the generator rejects blocks whose id is at least 100. -/
def exampleExternals (debug : Bool) : Externals Int Int Nat Int :=
  { DEBUG := debug
    applyDiffs := fun d s => s + d
    revertDiffs := fun d s => s - d
    generate := fun _ pb => if pb.ID < 100 then .ok (pb.ID : Int) else .error 7
    hash := fun s => s }

/-- Example block: its stored diff set, once generated, adds its id. -/
def exampleBlock (id parent h : Nat) (generated : Bool) : processedBlock Int :=
  { ID := id, Parent := parent, Height := h, DiffsGenerated := generated,
    DiffSet := if generated then (id : Int) else 0 }

/-- Example consensus set: path `[1, 2, 3]` from genesis 1; block 4 is a
sibling of 3, blocks 5 (valid) and 100 (invalid) are children of 4. -/
def exampleSet : ConsensusSet Int Int :=
  { blockMap := [exampleBlock 1 0 0 true, exampleBlock 2 1 1 true, exampleBlock 3 2 2 true,
      exampleBlock 4 2 2 false, exampleBlock 5 4 3 false, exampleBlock 100 4 3 false]
    path := [1, 2, 3]
    state := 6
    calls := [] }

/-! ## Store and path lemmas -/

theorem getBlockMap_id {cs : ConsensusSet σ D} {id : BlockID} {b : processedBlock D}
    (h : getBlockMap cs id = some b) : b.ID = id := by
  unfold getBlockMap at h
  have := List.find?_some h
  simpa using this

theorem getBlockMap_stored {cs : ConsensusSet σ D} {id : BlockID} {b : processedBlock D}
    (h : getBlockMap cs id = some b) : Stored cs b := by
  unfold Stored
  rw [getBlockMap_id h]; exact h

theorem find?_map_replace (l : List (processedBlock D)) (pb : processedBlock D) (id : BlockID) :
    (l.map (fun b => if b.ID = pb.ID then pb else b)).find? (fun b => b.ID == id) =
      if id = pb.ID then (l.find? (fun b => b.ID == id)).map (fun _ => pb)
      else l.find? (fun b => b.ID == id) := by
  induction l with
  | nil => simp
  | cons a l ih =>
    simp only [List.map_cons, List.find?_cons]
    by_cases ha : a.ID = pb.ID
    · by_cases hid : id = pb.ID
      · simp [ha, hid]
      · have h1 : (pb.ID == id) = false := by simpa using fun h => hid h.symm
        have h2 : (a.ID == id) = false := by rw [ha]; exact h1
        simp only [ha, if_true, h1, h2, ih, hid, if_false]
    · by_cases hid : id = pb.ID
      · subst hid
        have h2 : (a.ID == pb.ID) = false := by simpa using ha
        simp only [ha, if_false, h2, ih, if_true]
      · simp only [ha, if_false, ih, hid]

theorem getBlockMap_setBlock (cs : ConsensusSet σ D) (pb : processedBlock D) (id : BlockID) :
    getBlockMap (setBlock cs pb) id =
      if id = pb.ID then (getBlockMap cs id).map (fun _ => pb) else getBlockMap cs id := by
  unfold getBlockMap setBlock
  exact find?_map_replace cs.blockMap pb id

theorem currentBlockID_eq_getLast? (cs : ConsensusSet σ D) :
    currentBlockID cs = cs.path.getLast? := by
  unfold currentBlockID getPath height
  rw [List.getLast?_eq_getElem?]

theorem currentBlockID_append (cs : ConsensusSet σ D) (l : List BlockID) (x : BlockID)
    (h : cs.path = l ++ [x]) : currentBlockID cs = some x := by
  rw [currentBlockID_eq_getLast?, h]; simp

theorem onCurrentPath_iff (cs : ConsensusSet σ D) (pb : processedBlock D) :
    onCurrentPath cs pb = true ↔ pb.Height ≤ height cs ∧ getPath cs pb.Height = some pb.ID := by
  unfold onCurrentPath; simp

theorem onCurrentPath_iff_getPath (cs : ConsensusSet σ D) (pb : processedBlock D) :
    onCurrentPath cs pb = true ↔ getPath cs pb.Height = some pb.ID := by
  rw [onCurrentPath_iff]
  constructor
  · exact fun h => h.2
  · intro h
    refine ⟨?_, h⟩
    unfold getPath at h
    have := (List.getElem?_eq_some_iff.mp h).1
    unfold height; omega

/-! ## The backtrack list -/

theorem backtrackLoop_sound (cs : ConsensusSet σ D) :
    ∀ (fuel : Nat) (pb : processedBlock D) (t r : List (processedBlock D)),
      backtrackLoop cs fuel pb (pb :: t) = .ok r →
      ∃ l, Backtrack cs pb l ∧ l.length ≤ fuel ∧ r = l ++ t := by
  intro fuel
  induction fuel with
  | zero => intro pb t r h; simp [backtrackLoop] at h
  | succ n ih =>
    intro pb t r h
    unfold backtrackLoop at h
    by_cases hp : onCurrentPath cs pb = true
    · simp only [hp, if_true, Except.ok.injEq] at h
      exact ⟨[pb], .here hp, by simp, by simp [← h]⟩
    · simp only [hp] at h
      cases hg : getBlockMap cs pb.Parent with
      | none => simp [hg] at h
      | some p =>
        simp only [hg] at h
        obtain ⟨l, hl, hlen, hr⟩ := ih p (pb :: t) r (by simpa using h)
        refine ⟨l ++ [pb], .step (by simpa using hp) hg hl, by simp; omega, ?_⟩
        simp [hr]

theorem backtrackLoop_complete (cs : ConsensusSet σ D) {pb : processedBlock D}
    {l : List (processedBlock D)} (hl : Backtrack cs pb l) :
    ∀ (fuel : Nat) (t : List (processedBlock D)), l.length ≤ fuel →
      backtrackLoop cs fuel pb (pb :: t) = .ok (l ++ t) := by
  induction hl with
  | here hp =>
    intro fuel t hf
    cases fuel with
    | zero => simp at hf
    | succ n => simp [backtrackLoop, hp]
  | @step pb p l hp hg _ ih =>
    intro fuel t hf
    cases fuel with
    | zero => simp at hf
    | succ n =>
      simp only [backtrackLoop, hp, hg]
      simp only [List.length_append, List.length_singleton] at hf
      have := ih n (pb :: t) (by omega)
      simpa using this

theorem backtrack_sound {cs : ConsensusSet σ D} {fuel : Nat} {pb : processedBlock D}
    {l : List (processedBlock D)} (h : backtrackToCurrentPath fuel cs pb = .ok l) :
    Backtrack cs pb l ∧ l.length ≤ fuel := by
  obtain ⟨l', hl, hlen, hr⟩ := backtrackLoop_sound cs fuel pb [] l h
  simp at hr; subst hr; exact ⟨hl, hlen⟩

theorem backtrack_complete {cs : ConsensusSet σ D} {pb : processedBlock D}
    {l : List (processedBlock D)} (hl : Backtrack cs pb l) {fuel : Nat} (hf : l.length ≤ fuel) :
    backtrackToCurrentPath fuel cs pb = .ok l := by
  have := backtrackLoop_complete cs hl fuel [] hf
  simpa [backtrackToCurrentPath] using this

theorem Backtrack.ne_nil {cs : ConsensusSet σ D} {pb : processedBlock D}
    {l : List (processedBlock D)} (h : Backtrack cs pb l) : l ≠ [] := by
  cases h <;> simp

theorem Backtrack.getLast? {cs : ConsensusSet σ D} {pb : processedBlock D}
    {l : List (processedBlock D)} (h : Backtrack cs pb l) : l.getLast? = some pb := by
  cases h <;> simp

theorem Backtrack.unique {cs : ConsensusSet σ D} {pb : processedBlock D}
    {l : List (processedBlock D)} (h : Backtrack cs pb l) :
    ∀ {l' : List (processedBlock D)}, Backtrack cs pb l' → l = l' := by
  induction h with
  | here hp =>
    intro l' h'
    cases h' with
    | here _ => rfl
    | step hp' _ _ => simp [hp] at hp'
  | step hp hg _ ih =>
    intro l' h'
    cases h' with
    | here hp' => simp [hp] at hp'
    | step _ hg' hl' =>
      rw [hg] at hg'
      cases hg'
      rw [ih hl']

/-- Every block of a backtrack list has its own backtrack list, no longer than
the whole. -/
theorem Backtrack.of_mem {cs : ConsensusSet σ D} {pb : processedBlock D}
    {l : List (processedBlock D)} (h : Backtrack cs pb l) :
    ∀ x ∈ l, ∃ l', Backtrack cs x l' ∧ l'.length ≤ l.length := by
  induction h with
  | here hp =>
    intro x hx
    simp at hx; subst hx
    exact ⟨_, .here hp, le_refl _⟩
  | step hp hg hl ih =>
    intro x hx
    rcases List.mem_append.mp hx with hx | hx
    · obtain ⟨l', h1, h2⟩ := ih x hx
      exact ⟨l', h1, by simp; omega⟩
    · simp at hx; subst hx
      exact ⟨_, .step hp hg hl, le_refl _⟩

/-- All blocks of a backtrack list are stored, once the target is. -/
theorem Backtrack.stored {cs : ConsensusSet σ D} {pb : processedBlock D}
    {l : List (processedBlock D)} (h : Backtrack cs pb l) (hpb : Stored cs pb) :
    ∀ x ∈ l, Stored cs x := by
  induction h with
  | here _ => intro x hx; simp at hx; subst hx; exact hpb
  | step _ hg _ ih =>
    intro x hx
    rcases List.mem_append.mp hx with hx | hx
    · exact ih (getBlockMap_stored hg) x hx
    · simp at hx; subst hx; exact hpb

/-- The ids of a backtrack list are pairwise distinct, once the target is stored. -/
theorem Backtrack.nodup {cs : ConsensusSet σ D} {pb : processedBlock D}
    {l : List (processedBlock D)} (h : Backtrack cs pb l) (hpb : Stored cs pb) :
    (l.map (fun b => b.ID)).Nodup := by
  induction h with
  | here _ => simp
  | @step pb p l hp hg hl ih =>
    have hps := getBlockMap_stored hg
    rw [List.map_append, List.nodup_append]
    refine ⟨ih hps, by simp, ?_⟩
    intro a ha hb
    simp only [List.map_cons, List.map_nil, List.mem_singleton] at hb
    obtain ⟨x, hx, hxa⟩ := List.mem_map.mp ha
    have hxs := hl.stored hps x hx
    have hxeq : x = pb := by
      unfold Stored at hxs hpb
      have : x.ID = pb.ID := by rw [hxa, hb]
      rw [this, hpb] at hxs
      exact (Option.some.inj hxs).symm
    obtain ⟨l', h1, h2⟩ := hl.of_mem x hx
    rw [hxeq] at h1
    have := h1.unique (Backtrack.step hp hg hl)
    rw [this] at h2
    simp at h2

/-! ## Dependence on the block map only -/

theorem getBlockMap_congr {cs cs' : ConsensusSet σ D} (h : cs'.blockMap = cs.blockMap)
    (id : BlockID) : getBlockMap cs' id = getBlockMap cs id := by
  unfold getBlockMap; rw [h]

theorem replay_congr (E : Externals σ D ε H) {cs cs' : ConsensusSet σ D} (ids : List BlockID)
    (h : ∀ id ∈ ids, getBlockMap cs' id = getBlockMap cs id) (s : σ) :
    replay E cs' s ids = replay E cs s ids := by
  induction ids generalizing s with
  | nil => rfl
  | cons a l ih =>
    simp only [replay, List.foldl_cons]
    rw [h a (List.mem_cons_self _ _)]
    exact ih (fun id hid => h id (List.mem_cons_of_mem _ hid)) _

theorem unwind_congr (E : Externals σ D ε H) {cs cs' : ConsensusSet σ D} (ids : List BlockID)
    (h : ∀ id ∈ ids, getBlockMap cs' id = getBlockMap cs id) (s : σ) :
    unwind E cs' ids s = unwind E cs ids s := by
  induction ids with
  | nil => rfl
  | cons a l ih =>
    simp only [unwind, List.foldr_cons]
    rw [h a (List.mem_cons_self _ _)]
    have := ih (fun id hid => h id (List.mem_cons_of_mem _ hid))
    simp only [unwind] at this
    rw [this]

theorem replay_append (E : Externals σ D ε H) (cs : ConsensusSet σ D) (s : σ)
    (l₁ l₂ : List BlockID) :
    replay E cs s (l₁ ++ l₂) = replay E cs (replay E cs s l₁) l₂ := by
  simp [replay, List.foldl_append]

theorem unwind_append (E : Externals σ D ε H) (cs : ConsensusSet σ D) (s : σ)
    (l₁ l₂ : List BlockID) :
    unwind E cs (l₁ ++ l₂) s = unwind E cs l₁ (unwind E cs l₂ s) := by
  simp [unwind, List.foldr_append]

/-- Reverting, last block first, what was applied in order gives back the
starting state. -/
theorem unwind_replay (E : Externals σ D ε H) (hRA : RevertUndoesApply E)
    (cs : ConsensusSet σ D) (ids : List BlockID) (s : σ) :
    unwind E cs ids (replay E cs s ids) = s := by
  induction ids generalizing s with
  | nil => rfl
  | cons a l ih =>
    have h1 : replay E cs s (a :: l) = replay E cs (replay E cs s [a]) l :=
      replay_append E cs s [a] l
    have h2 : unwind E cs (a :: l) (replay E cs s (a :: l)) =
        unwind E cs [a] (unwind E cs l (replay E cs s (a :: l))) :=
      unwind_append E cs _ [a] l
    rw [h2, h1, ih]
    simp only [unwind, replay, List.foldr_cons, List.foldr_nil, List.foldl_cons, List.foldl_nil]
    cases getBlockMap cs a with
    | none => rfl
    | some b => exact hRA _ _

/-! ## Single steps of the committer and of the generator -/

theorem commitDiffSet_blockMap (E : Externals σ D ε H) (cs : ConsensusSet σ D)
    (pb : processedBlock D) (dir : DiffDirection) :
    (commitDiffSet E cs pb dir).1.blockMap = cs.blockMap := by
  unfold commitDiffSet
  cases dir <;> simp only <;> split <;> rfl

theorem commitDiffSet_revert_tip (E : Externals σ D ε H) (cs : ConsensusSet σ D)
    (pb : processedBlock D) (h : currentBlockID cs = some pb.ID) :
    commitDiffSet E cs pb .DiffRevert =
      ({ cs with state := E.revertDiffs pb.DiffSet cs.state,
                 path := cs.path.dropLast,
                 calls := cs.calls ++ [.commit pb.ID .DiffRevert true] }, none) := by
  simp [commitDiffSet, h]

theorem commitDiffSet_apply_child (E : Externals σ D ε H) (cs : ConsensusSet σ D)
    (pb : processedBlock D) (h : currentBlockID cs = some pb.Parent)
    (hg : pb.DiffsGenerated = true) :
    commitDiffSet E cs pb .DiffApply =
      ({ cs with state := E.applyDiffs pb.DiffSet cs.state,
                 path := cs.path ++ [pb.ID],
                 calls := cs.calls ++ [.commit pb.ID .DiffApply true] }, none) := by
  simp [commitDiffSet, h, hg]

theorem currentBlockID_setBlock (cs : ConsensusSet σ D) (pb : processedBlock D) :
    currentBlockID (setBlock cs pb) = currentBlockID cs := rfl

/-- A failing generator leaves the block map, the path and the state as they were. -/
theorem generateAndApplyDiff_fail {E : Externals σ D ε H} {cs cs' : ConsensusSet σ D}
    {pb pb' : processedBlock D} {e : Error ε}
    (h : generateAndApplyDiff E cs pb = (cs', pb', some e)) :
    cs'.blockMap = cs.blockMap ∧ cs'.path = cs.path ∧ cs'.state = cs.state ∧
      ∃ l, cs'.calls = cs.calls ++ Call.generate pb.ID false :: l ∧
        ∀ c ∈ l, c = Call.commit pb.ID .DiffApply false := by
  unfold generateAndApplyDiff at h
  split at h
  · simp only [Prod.mk.injEq] at h
    obtain ⟨h1, -, -⟩ := h
    subst h1
    exact ⟨rfl, rfl, rfl, [], by simp, by simp⟩
  · simp only at h
    split at h
    · simp at h
    · simp only [Prod.mk.injEq] at h
      obtain ⟨h1, -, -⟩ := h
      subst h1
      exact ⟨rfl, rfl, rfl, [Call.commit pb.ID .DiffApply false], by simp, by simp⟩

/-- A successful generator: the diff set it computed is stored on the record,
the flag is set, and the block is applied on top of its parent. -/
theorem generateAndApplyDiff_ok {E : Externals σ D ε H} {cs cs' : ConsensusSet σ D}
    {pb pb' : processedBlock D}
    (h : generateAndApplyDiff E cs pb = (cs', pb', none)) :
    ∃ d, E.generate cs pb = .ok d ∧
      pb' = { pb with DiffsGenerated := true, DiffSet := d } ∧
      currentBlockID cs = some pb.Parent ∧
      cs'.blockMap = (setBlock cs pb').blockMap ∧
      cs'.path = cs.path ++ [pb.ID] ∧
      cs'.state = E.applyDiffs d cs.state ∧
      cs'.calls = cs.calls ++ [.generate pb.ID true, .commit pb.ID .DiffApply true] := by
  unfold generateAndApplyDiff at h
  split at h
  · simp at h
  · rename_i d hd
    simp only at h
    split at h
    · rename_i cs1 hc
      simp only [Prod.mk.injEq, and_true] at h
      obtain ⟨h1, h2⟩ := h
      by_cases hpre : currentBlockID cs = some pb.Parent
      · have := commitDiffSet_apply_child E (setBlock cs { pb with DiffsGenerated := true, DiffSet := d })
          { pb with DiffsGenerated := true, DiffSet := d } hpre rfl
        rw [this] at hc
        simp only [Prod.mk.injEq, and_true] at hc
        subst hc
        subst h1
        subst h2
        exact ⟨d, hd, rfl, hpre, rfl, rfl, rfl, rfl⟩
      · have hpre' : ¬ currentBlockID
            (setBlock cs { pb with DiffsGenerated := true, DiffSet := d }) = some pb.Parent := hpre
        simp [commitDiffSet, hpre'] at hc
    · simp at h

/-! ## The revert loop -/

/-- The revert loop on a path `base ++ top` whose target is the last block of
`base`: the blocks of `top` are reverted from the top down. -/
theorem revertLoop_spec (E : Externals σ D ε H) (pb : processedBlock D) (base : List BlockID)
    (hbase : base.getLast? = some pb.ID) :
    ∀ (top : List BlockID) (fuel : Nat) (cs : ConsensusSet σ D) (acc : List (processedBlock D)),
      top.length < fuel → cs.path = base ++ top → pb.ID ∉ top →
      (∀ id ∈ top, (getBlockMap cs id).isSome = true) →
      ∃ cs', revertLoop E pb fuel cs acc =
          .ok (cs', acc ++ top.reverse.filterMap (getBlockMap cs)) ∧
        cs'.path = base ∧ cs'.blockMap = cs.blockMap ∧
        cs'.state = unwind E cs top cs.state ∧
        cs'.calls = cs.calls ++ top.reverse.map (fun id => Call.commit id .DiffRevert true) := by
  intro top
  induction top using List.reverseRecOn with
  | nil =>
    intro fuel cs acc hf hp _ _
    cases fuel with
    | zero => simp at hf
    | succ n =>
      have htip : currentBlockID cs = some pb.ID := by
        rw [currentBlockID_eq_getLast?, hp]; simpa using hbase
      exact ⟨cs, by simp [revertLoop, htip], by simpa using hp, rfl, rfl, by simp⟩
  | append_singleton l x ih =>
    intro fuel cs acc hf hp hnot hst
    cases fuel with
    | zero => simp at hf
    | succ n =>
      have htip : currentBlockID cs = some x :=
        currentBlockID_append cs (base ++ l) x (by rw [hp, List.append_assoc])
      have hx : x ≠ pb.ID := fun h => hnot (by simp [h])
      obtain ⟨node, hnode⟩ := Option.isSome_iff_exists.mp (hst x (by simp))
      have hid := getBlockMap_id hnode
      have hcur : currentProcessedBlock cs = some node := by
        simp [currentProcessedBlock, htip, hnode]
      have hcommit := commitDiffSet_revert_tip E cs node (by rw [hid]; exact htip)
      have hne : ¬ (currentBlockID cs = some pb.ID) := by
        rw [htip]; simpa using hx
      obtain ⟨cs', h1, h2, h3, h4, h5⟩ := ih n
        { cs with state := E.revertDiffs node.DiffSet cs.state,
                  path := cs.path.dropLast,
                  calls := cs.calls ++ [.commit node.ID .DiffRevert true] }
        (acc ++ [node])
        (by simp at hf; omega)
        (by simp [hp, ← List.append_assoc])
        (fun h => hnot (by simp [h]))
        (fun id hid => hst id (by simp [hid]))
      refine ⟨cs', ?_, h2, h3, ?_, ?_⟩
      · unfold revertLoop
        simp only [hne, if_false, hcur, hcommit]
        simp only [Option.isSome_none, Bool.false_eq_true, and_false, if_false]
        rw [h1]
        simp only [List.reverse_append, List.reverse_cons, List.reverse_nil, List.nil_append,
          List.singleton_append, List.filterMap_cons, hnode, List.append_assoc]
        rfl
      · rw [h4, unwind_append]
        simp only [unwind, List.foldr_cons, List.foldr_nil, hnode]
        rfl
      · rw [h5]; simp [hid]

/-! ## Evolution of the block map -/

theorem MapEvolves.refl (cs : ConsensusSet σ D) : MapEvolves cs cs :=
  ⟨fun _ b h => ⟨b, h, rfl, rfl, fun _ => rfl⟩, fun _ h => h⟩

theorem MapEvolves.of_eq {cs cs' : ConsensusSet σ D} (h : cs'.blockMap = cs.blockMap) :
    MapEvolves cs cs' := by
  refine ⟨fun id b hb => ⟨b, ?_, rfl, rfl, fun _ => rfl⟩, fun id hb => ?_⟩
  · rw [getBlockMap_congr h]; exact hb
  · rw [getBlockMap_congr h]; exact hb

theorem MapEvolves.trans {cs₁ cs₂ cs₃ : ConsensusSet σ D} (h₁ : MapEvolves cs₁ cs₂)
    (h₂ : MapEvolves cs₂ cs₃) : MapEvolves cs₁ cs₃ := by
  refine ⟨fun id b hb => ?_, fun id hb => h₂.2 id (h₁.2 id hb)⟩
  obtain ⟨b', hb', hp, hh, hd⟩ := h₁.1 id b hb
  obtain ⟨b'', hb'', hp', hh', hd'⟩ := h₂.1 id b' hb'
  refine ⟨b'', hb'', hp'.trans hp, hh'.trans hh, fun hg => ?_⟩
  have := hd hg
  subst this
  exact hd' hg

/-! ## The apply loop -/

theorem applyLoop_cons_commit (E : Externals σ D ε H) (cs : ConsensusSet σ D)
    (node : processedBlock D) (rest acc : List (processedBlock D))
    (hg : node.DiffsGenerated = true) (ht : currentBlockID cs = some node.Parent) :
    applyLoop E (node :: rest) cs acc =
      applyLoop E rest
        { cs with state := E.applyDiffs node.DiffSet cs.state,
                  path := cs.path ++ [node.ID],
                  calls := cs.calls ++ [.commit node.ID .DiffApply true] }
        (acc ++ [node]) := by
  rw [applyLoop]
  simp [hg, commitDiffSet_apply_child E cs node ht hg]

theorem applyLoop_cons_generate (E : Externals σ D ε H) (cs : ConsensusSet σ D)
    (node : processedBlock D) (rest acc : List (processedBlock D))
    (hg : node.DiffsGenerated = false) :
    applyLoop E (node :: rest) cs acc =
      match generateAndApplyDiff E cs node with
      | (cs', _, some err) => .ok (cs', acc, some err)
      | (cs', node', none) => applyLoop E rest cs' (acc ++ [node']) := by
  rcases hgen : generateAndApplyDiff E cs node with ⟨cs1, n1, _ | e⟩ <;>
    simp [applyLoop, hg, hgen]

theorem applyLoop_cons_stored (E : Externals σ D ε H) (cs : ConsensusSet σ D)
    (node : processedBlock D) (rest acc : List (processedBlock D))
    (hg : node.DiffsGenerated = true) :
    applyLoop E (node :: rest) cs acc =
      if E.DEBUG = true ∧ (commitDiffSet E cs node .DiffApply).2.isSome = true then
        .error .commitFailed
      else applyLoop E rest (commitDiffSet E cs node .DiffApply).1 (acc ++ [node]) := by
  rw [applyLoop]
  simp only [hg, if_true]

/-- A run that rejects no block continues with the blocks that follow. -/
theorem applyLoop_append (E : Externals σ D ε H) :
    ∀ (done rest : List (processedBlock D)) (cs csk : ConsensusSet σ D)
      (acc appl : List (processedBlock D)),
      applyLoop E done cs acc = .ok (csk, appl, none) →
      applyLoop E (done ++ rest) cs acc = applyLoop E rest csk appl := by
  intro done
  induction done with
  | nil =>
    intro rest cs csk acc appl h
    simp only [applyLoop, Except.ok.injEq, Prod.mk.injEq, and_true] at h
    obtain ⟨h1, h2⟩ := h
    subst h1; subst h2; rfl
  | cons node done ih =>
    intro rest cs csk acc appl h
    rw [List.cons_append]
    by_cases hg : node.DiffsGenerated = true
    · rw [applyLoop_cons_stored E cs node _ acc hg] at h ⊢
      split at h
      · simp at h
      · rename_i hd
        rw [if_neg hd]
        exact ih rest _ csk _ appl h
    · have hg' : node.DiffsGenerated = false := by simpa using hg
      rw [applyLoop_cons_generate E cs node _ acc hg'] at h ⊢
      rcases hgen : generateAndApplyDiff E cs node with ⟨cs1, n1, _ | e⟩
      · rw [hgen] at h
        simp only at h ⊢
        exact ih rest _ csk _ appl h
      · rw [hgen] at h
        simp at h

/-- A run that returns an error stopped at the first block that the generator
rejected, after a clean run over the blocks before it. -/
theorem applyLoop_error (E : Externals σ D ε H) :
    ∀ (xs : List (processedBlock D)) (cs cs' : ConsensusSet σ D)
      (acc appl : List (processedBlock D)) (e : Error ε),
      applyLoop E xs cs acc = .ok (cs', appl, some e) →
      ∃ done node rest csk n', xs = done ++ node :: rest ∧
        applyLoop E done cs acc = .ok (csk, appl, none) ∧
        node.DiffsGenerated = false ∧
        generateAndApplyDiff E csk node = (cs', n', some e) := by
  intro xs
  induction xs with
  | nil => intro cs cs' acc appl e h; simp [applyLoop] at h
  | cons node xs ih =>
    intro cs cs' acc appl e h
    by_cases hg : node.DiffsGenerated = true
    · rw [applyLoop_cons_stored E cs node _ acc hg] at h
      split at h
      · simp at h
      · rename_i hd
        obtain ⟨done, nd, rest, csk, n', h1, h2, h3, h4⟩ := ih _ cs' _ appl e h
        refine ⟨node :: done, nd, rest, csk, n', by simp [h1], ?_, h3, h4⟩
        rw [applyLoop_cons_stored E cs node _ acc hg, if_neg hd]
        exact h2
    · have hg' : node.DiffsGenerated = false := by simpa using hg
      rw [applyLoop_cons_generate E cs node xs acc hg'] at h
      rcases hgen : generateAndApplyDiff E cs node with ⟨cs1, n1, _ | e1⟩
      · rw [hgen] at h
        simp only at h
        obtain ⟨done, nd, rest, csk, n', h1, h2, h3, h4⟩ := ih _ cs' _ appl e h
        refine ⟨node :: done, nd, rest, csk, n', by simp [h1], ?_, h3, h4⟩
        rw [applyLoop_cons_generate E cs node done acc hg', hgen]
        exact h2
      · rw [hgen] at h
        simp only [Except.ok.injEq, Prod.mk.injEq, Option.some.injEq] at h
        obtain ⟨h1, h2, h3⟩ := h
        subst h1; subst h2; subst h3
        exact ⟨[], node, xs, cs, n1, rfl, rfl, hg', hgen⟩

/-- The apply loop never panics on a list linked to the tip. -/
theorem applyLoop_total (E : Externals σ D ε H) :
    ∀ (xs : List (processedBlock D)) (cs : ConsensusSet σ D) (acc : List (processedBlock D))
      (t : BlockID), currentBlockID cs = some t → Linked t xs →
      ∃ r, applyLoop E xs cs acc = .ok r := by
  intro xs
  induction xs with
  | nil => intro cs acc t _ _; exact ⟨_, rfl⟩
  | cons node xs ih =>
    intro cs acc t ht hl
    obtain ⟨hp, hl'⟩ := hl
    by_cases hg : node.DiffsGenerated = true
    · rw [applyLoop_cons_commit E cs node xs acc hg (by rw [ht, hp])]
      exact ih _ _ node.ID (currentBlockID_append _ cs.path node.ID rfl) hl'
    · have hg' : node.DiffsGenerated = false := by simpa using hg
      rw [applyLoop_cons_generate E cs node xs acc hg']
      rcases hgen : generateAndApplyDiff E cs node with ⟨cs1, n1, _ | e1⟩
      · simp only
        obtain ⟨d, -, -, -, -, hpath, -, -⟩ := generateAndApplyDiff_ok hgen
        exact ih _ _ node.ID (currentBlockID_append _ cs.path node.ID hpath) hl'
      · exact ⟨_, rfl⟩

theorem applyCalls_cons (b : processedBlock D) (xs : List (processedBlock D)) :
    applyCalls (b :: xs) = applyCallsOf b ++ applyCalls xs := by
  simp [applyCalls]

theorem MapEvolves.setBlock_of_stored {cs cs' : ConsensusSet σ D} {node n' : processedBlock D}
    (hst : Stored cs node) (hg : node.DiffsGenerated = false) (hid : n'.ID = node.ID)
    (hp : n'.Parent = node.Parent) (hh : n'.Height = node.Height)
    (hmap : cs'.blockMap = (setBlock cs n').blockMap) : MapEvolves cs cs' := by
  have key : ∀ id, getBlockMap cs' id =
      if id = node.ID then (getBlockMap cs id).map (fun _ => n') else getBlockMap cs id := by
    intro id
    rw [getBlockMap_congr hmap, getBlockMap_setBlock, hid]
  refine ⟨fun id b hb => ?_, fun id hb => ?_⟩
  · rw [key]
    by_cases h : id = node.ID
    · subst h
      unfold Stored at hst
      rw [hst] at hb
      cases hb
      refine ⟨n', by simp [hst], hp, hh, fun h => ?_⟩
      rw [hg] at h; cases h
    · exact ⟨b, by simp [h, hb], rfl, rfl, fun _ => rfl⟩
  · rw [key]; simp [hb]

/-- A clean run over stored blocks with distinct ids, linked to the tip. -/
theorem applyLoop_clean (E : Externals σ D ε H) :
    ∀ (xs : List (processedBlock D)) (cs cs' : ConsensusSet σ D)
      (acc appl : List (processedBlock D)) (t : BlockID),
      applyLoop E xs cs acc = .ok (cs', appl, none) →
      currentBlockID cs = some t → Linked t xs → (∀ b ∈ xs, Stored cs b) →
      (xs.map (fun b => b.ID)).Nodup →
      ∃ appl', appl = acc ++ appl' ∧ ApplyPost E cs cs' xs appl' := by
  intro xs
  induction xs with
  | nil =>
    intro cs cs' acc appl t h _ _ _ _
    simp only [applyLoop, Except.ok.injEq, Prod.mk.injEq, and_true] at h
    obtain ⟨h1, h2⟩ := h
    subst h1; subst h2
    exact ⟨[], by simp, ⟨rfl, by simp, by simp, rfl, MapEvolves.refl _, fun _ _ => rfl,
      by simp [applyCalls]⟩⟩
  | cons node xs ih =>
    intro cs cs' acc appl t h ht hl hst hnd
    obtain ⟨hp, hl'⟩ := hl
    have hnode : Stored cs node := hst node (List.mem_cons_self _ _)
    simp only [List.map_cons, List.nodup_cons] at hnd
    obtain ⟨hnotin, hnd'⟩ := hnd
    by_cases hg : node.DiffsGenerated = true
    · rw [applyLoop_cons_commit E cs node xs acc hg (by rw [ht, hp])] at h
      obtain ⟨appl', ha, post⟩ := ih _ cs' _ appl node.ID h
        (currentBlockID_append _ cs.path node.ID rfl) hl'
        (fun b hb => hst b (List.mem_cons_of_mem _ hb)) hnd'
      have hsame : getBlockMap cs' node.ID = some node := by
        rw [post.frame node.ID hnotin]; exact hnode
      refine ⟨node :: appl', by simp [ha], ⟨?_, ?_, ?_, ?_, ?_, ?_, ?_⟩⟩
      · simp [post.ids]
      · intro b hb
        rcases List.mem_cons.mp hb with hb | hb
        · subst hb; exact ⟨hsame, hg⟩
        · exact post.stored b hb
      · rw [post.path]; simp
      · rw [post.state]
        simp only [List.map_cons, replay, List.foldl_cons, hsame]
      · exact (MapEvolves.of_eq rfl).trans post.evolves
      · intro id hid
        simp only [List.map_cons, List.mem_cons, not_or] at hid
        rw [post.frame id hid.2]; rfl
      · rw [post.calls, applyCalls_cons]; simp [applyCallsOf, hg]
    · have hg' : node.DiffsGenerated = false := by simpa using hg
      rw [applyLoop_cons_generate E cs node xs acc hg'] at h
      rcases hgen : generateAndApplyDiff E cs node with ⟨cs1, n1, _ | e1⟩
      · rw [hgen] at h
        simp only at h
        obtain ⟨d, -, hn1, -, hmap, hpath, hstate, hcalls⟩ := generateAndApplyDiff_ok hgen
        have hn1id : n1.ID = node.ID := by rw [hn1]
        have key : ∀ id, getBlockMap cs1 id =
            if id = node.ID then (getBlockMap cs id).map (fun _ => n1)
            else getBlockMap cs id := by
          intro id
          rw [getBlockMap_congr hmap, getBlockMap_setBlock, hn1id]
        obtain ⟨appl', ha, post⟩ := ih cs1 cs' _ appl node.ID h
          (currentBlockID_append _ cs.path node.ID hpath) hl'
          (fun b hb => by
            have hne : b.ID ≠ node.ID := fun hh =>
              hnotin (List.mem_map.mpr ⟨b, hb, hh⟩)
            unfold Stored
            rw [key, if_neg hne]
            exact hst b (List.mem_cons_of_mem _ hb)) hnd'
        have hsame : getBlockMap cs' node.ID = some n1 := by
          rw [post.frame node.ID hnotin, key, if_pos rfl]
          unfold Stored at hnode
          rw [hnode]; rfl
        refine ⟨n1 :: appl', by simp [ha], ⟨?_, ?_, ?_, ?_, ?_, ?_, ?_⟩⟩
        · simp [post.ids, hn1id]
        · intro b hb
          rcases List.mem_cons.mp hb with hb | hb
          · subst hb
            refine ⟨?_, by rw [hn1]⟩
            unfold Stored; rw [hn1id]; exact hsame
          · exact post.stored b hb
        · rw [post.path, hpath]; simp
        · rw [post.state, hstate]
          simp only [List.map_cons, replay, List.foldl_cons, hsame]
          rw [hn1]
        · exact (MapEvolves.setBlock_of_stored hnode hg' hn1id (by rw [hn1]) (by rw [hn1])
            hmap).trans post.evolves
        · intro id hid
          simp only [List.map_cons, List.mem_cons, not_or] at hid
          rw [post.frame id hid.2, key, if_neg hid.1]
        · rw [post.calls, hcalls, applyCalls_cons]; simp [applyCallsOf, hg']
      · rw [hgen] at h
        simp at h

/-! ## More fuel changes nothing -/

theorem backtrackLoop_mono (cs : ConsensusSet σ D) :
    ∀ (fuel fuel' : Nat) (pb : processedBlock D) (acc r : List (processedBlock D)),
      fuel ≤ fuel' → backtrackLoop cs fuel pb acc = .ok r →
      backtrackLoop cs fuel' pb acc = .ok r := by
  intro fuel
  induction fuel with
  | zero => intro fuel' pb acc r _ h; simp [backtrackLoop] at h
  | succ n ih =>
    intro fuel' pb acc r hle h
    cases fuel' with
    | zero => omega
    | succ m =>
      unfold backtrackLoop at h ⊢
      split
      · rename_i hp; simpa [hp] using h
      · rename_i hp
        simp only [hp] at h
        cases hg : getBlockMap cs pb.Parent with
        | none => simp [hg] at h
        | some p =>
          simp only [hg] at h ⊢
          exact ih m p _ r (by omega) (by simpa using h)

theorem revertLoop_mono (E : Externals σ D ε H) (pb : processedBlock D) :
    ∀ (fuel fuel' : Nat) (cs : ConsensusSet σ D) (acc : List (processedBlock D))
      (r : ConsensusSet σ D × List (processedBlock D)),
      fuel ≤ fuel' → revertLoop E pb fuel cs acc = .ok r →
      revertLoop E pb fuel' cs acc = .ok r := by
  intro fuel
  induction fuel with
  | zero => intro fuel' cs acc r _ h; simp [revertLoop] at h
  | succ n ih =>
    intro fuel' cs acc r hle h
    cases fuel' with
    | zero => omega
    | succ m =>
      unfold revertLoop at h ⊢
      split
      · rename_i hp; simpa [hp] using h
      · rename_i hp
        simp only [hp, if_false] at h
        cases hc : currentProcessedBlock cs with
        | none => simp [hc] at h
        | some node =>
          simp only [hc] at h ⊢
          split
          · rename_i hd; simp [hd] at h
          · rename_i hd
            simp only [hd, if_false] at h
            exact ih m _ _ r (by omega) h

theorem revertToNode_mono (E : Externals σ D ε H) {fuel fuel' : Nat} {cs : ConsensusSet σ D}
    {pb : processedBlock D} {r : ConsensusSet σ D × List (processedBlock D)}
    (hle : fuel ≤ fuel') (h : revertToNode E fuel cs pb = .ok r) :
    revertToNode E fuel' cs pb = .ok r := by
  unfold revertToNode at h ⊢
  split
  · rename_i hd; simp [hd] at h
  · rename_i hd
    simp only [hd, if_false] at h
    exact revertLoop_mono E pb fuel fuel' cs [] r hle h

theorem backtrack_mono {fuel fuel' : Nat} {cs : ConsensusSet σ D} {pb : processedBlock D}
    {r : List (processedBlock D)} (hle : fuel ≤ fuel')
    (h : backtrackToCurrentPath fuel cs pb = .ok r) :
    backtrackToCurrentPath fuel' cs pb = .ok r :=
  backtrackLoop_mono cs fuel fuel' pb [pb] r hle h

theorem applyUntilNode_mono (E : Externals σ D ε H) {fuel fuel' : Nat} {cs : ConsensusSet σ D}
    {pb : processedBlock D}
    {r : ConsensusSet σ D × List (processedBlock D) × Option (Error ε)}
    (hle : fuel ≤ fuel') (h : applyUntilNode E fuel cs pb = .ok r) :
    applyUntilNode E fuel' cs pb = .ok r := by
  unfold applyUntilNode at h ⊢
  cases hb : backtrackToCurrentPath fuel cs pb with
  | error f => simp [hb] at h
  | ok l =>
    rw [backtrack_mono hle hb]
    simpa [hb] using h

/-! ## The revert loop from the tip down to a block of the path -/

theorem getLast?_take_succ {α : Type} (l : List α) (h : Nat) (x : α) (hx : l[h]? = some x) :
    (l.take (h + 1)).getLast? = some x := by
  have hlt : h < l.length := (List.getElem?_eq_some_iff.mp hx).1
  rw [List.getLast?_eq_getElem?, List.length_take, List.getElem?_take]
  have : min (h + 1) l.length - 1 = h := by omega
  rw [this]; simp [hx]

theorem revertToNode_spec (E : Externals σ D ε H) (cs : ConsensusSet σ D)
    (pb : processedBlock D) (hon : onCurrentPath cs pb = true)
    (hnot : pb.ID ∉ cs.path.drop (pb.Height + 1))
    (hst : ∀ id ∈ cs.path.drop (pb.Height + 1), (getBlockMap cs id).isSome = true)
    (fuel : Nat) (hf : cs.path.length - pb.Height ≤ fuel) :
    revertToNode E fuel cs pb =
      .ok (revertedTo E cs pb.Height, blocksOf cs (cs.path.drop (pb.Height + 1)).reverse) := by
  obtain ⟨hh, hp⟩ := (onCurrentPath_iff cs pb).mp hon
  have hlt : pb.Height < cs.path.length := (List.getElem?_eq_some_iff.mp hp).1
  have hbase := getLast?_take_succ cs.path pb.Height pb.ID hp
  obtain ⟨cs', h1, h2, h3, h4, h5⟩ := revertLoop_spec E pb (cs.path.take (pb.Height + 1)) hbase
    (cs.path.drop (pb.Height + 1)) fuel cs [] (by simp; omega)
    (List.take_append_drop _ _).symm hnot hst
  unfold revertToNode
  have hdbg : ¬ (E.DEBUG = true ∧ (height cs < pb.Height ∨ getPath cs pb.Height ≠ some pb.ID)) := by
    rintro ⟨-, h | h⟩
    · omega
    · exact h hp
  rw [if_neg hdbg, h1]
  obtain ⟨bm, p, s, c⟩ := cs'
  simp only at h2 h3 h4 h5
  subst h2; subst h3; subst h4; subst h5
  simp [revertedTo, blocksOf, revertCalls]

/-! ## Consequences of well-formedness -/

theorem PathWellFormed.linked {cs : ConsensusSet σ D}
    (hwf : PathWellFormed cs) : PathLinked cs := by
  intro h id hid
  obtain ⟨b, hb, hh, -, hp⟩ := hwf.onPath h id hid
  exact ⟨b, hb, hh, hp⟩

theorem PathLinked.getPath_inj {cs : ConsensusSet σ D}
    (hpl : PathLinked cs) {i j : Nat} {id : BlockID}
    (hi : getPath cs i = some id) (hj : getPath cs j = some id) : i = j := by
  obtain ⟨b, hb, hbh, -⟩ := hpl i id hi
  obtain ⟨b', hb', hbh', -⟩ := hpl j id hj
  rw [hb] at hb'
  cases hb'
  omega

theorem PathLinked.not_mem_drop {cs : ConsensusSet σ D}
    (hpl : PathLinked cs) {h : Nat} {id : BlockID} (hp : getPath cs h = some id) :
    id ∉ cs.path.drop (h + 1) := by
  intro hmem
  obtain ⟨k, hk⟩ := List.mem_iff_getElem?.mp hmem
  rw [List.getElem?_drop] at hk
  have := hpl.getPath_inj hp hk
  omega

theorem PathLinked.stored_drop {cs : ConsensusSet σ D}
    (hpl : PathLinked cs) (n : Nat) :
    ∀ id ∈ cs.path.drop n, (getBlockMap cs id).isSome = true := by
  intro id hmem
  obtain ⟨k, hk⟩ := List.mem_iff_getElem?.mp hmem
  rw [List.getElem?_drop] at hk
  obtain ⟨b, hb, -⟩ := hpl _ id hk
  simp [hb]

theorem PathWellFormed.path_stored {cs : ConsensusSet σ D}
    (hwf : PathWellFormed cs) (n : Nat) :
    ∀ id ∈ cs.path.drop n, (getBlockMap cs id).isSome = true :=
  hwf.linked.stored_drop n

/-- On a parent-linked path, `revertToNode` to a block of the current path
reverts exactly the blocks above it, tip first. -/
theorem revertToNode_linked (E : Externals σ D ε H) (cs : ConsensusSet σ D)
    (hpl : PathLinked cs) (pb : processedBlock D) (hon : onCurrentPath cs pb = true)
    (fuel : Nat) (hf : cs.path.length - pb.Height ≤ fuel) :
    revertToNode E fuel cs pb =
      .ok (revertedTo E cs pb.Height, blocksOf cs (cs.path.drop (pb.Height + 1)).reverse) :=
  revertToNode_spec E cs pb hon (hpl.not_mem_drop ((onCurrentPath_iff cs pb).mp hon).2)
    (hpl.stored_drop _) fuel hf

theorem revertToNode_wf (E : Externals σ D ε H) (cs : ConsensusSet σ D)
    (hwf : PathWellFormed cs) (pb : processedBlock D) (hon : onCurrentPath cs pb = true)
    (fuel : Nat) (hf : cs.path.length - pb.Height ≤ fuel) :
    revertToNode E fuel cs pb =
      .ok (revertedTo E cs pb.Height, blocksOf cs (cs.path.drop (pb.Height + 1)).reverse) :=
  revertToNode_linked E cs hwf.linked pb hon fuel hf

/-! ## The backtrack list, read from the common parent upwards -/

theorem linked_append_singleton (t : BlockID) (xs : List (processedBlock D))
    (y : processedBlock D) :
    Linked t (xs ++ [y]) ↔
      Linked t xs ∧ y.Parent = ((xs.getLast?.map (fun b => b.ID)).getD t) := by
  induction xs generalizing t with
  | nil => simp [Linked]
  | cons a l ih =>
    have hlast : (l.getLast?.map (fun b => b.ID)).getD a.ID =
        (((a :: l).getLast?).map (fun b => b.ID)).getD t := by
      cases l with
      | nil => simp
      | cons b l' =>
        cases hq : (b :: l').getLast? with
        | none => simp at hq
        | some z => simp [List.getLast?_cons_cons, hq]
    show (a.Parent = t ∧ Linked a.ID (l ++ [y])) ↔ (a.Parent = t ∧ Linked a.ID l) ∧ _
    rw [ih, hlast, and_assoc]

theorem linked_append_left (t : BlockID) (xs ys : List (processedBlock D))
    (h : Linked t (xs ++ ys)) : Linked t xs := by
  induction xs generalizing t with
  | nil => trivial
  | cons a l ih => exact ⟨h.1, ih _ h.2⟩

/-- The shape of a backtrack list: its head lies on the current path, no other
block of it does, each block is the stored parent of the next, and it ends with
the target. -/
theorem Backtrack.shape {cs : ConsensusSet σ D} {pb : processedBlock D}
    {l : List (processedBlock D)} (h : Backtrack cs pb l) :
    ∃ cp branch, l = cp :: branch ∧ onCurrentPath cs cp = true ∧
      (∀ b ∈ branch, onCurrentPath cs b = false) ∧ Linked cp.ID branch ∧
      (cp :: branch).getLast? = some pb := by
  induction h with
  | here hp => exact ⟨_, [], rfl, hp, by simp, trivial, rfl⟩
  | @step pb p l hp hg hl ih =>
    obtain ⟨cp, branch, hl', hcp, hoff, hlink, hlast⟩ := ih
    refine ⟨cp, branch ++ [pb], by simp [hl'], hcp, ?_, ?_, ?_⟩
    rotate_left 2
    · rw [← List.cons_append, List.getLast?_concat]
    · intro b hb
      rcases List.mem_append.mp hb with hb | hb
      · exact hoff b hb
      · simp at hb; subst hb; exact hp
    · rw [linked_append_singleton]
      refine ⟨hlink, ?_⟩
      have hpid := getBlockMap_id hg
      cases branch with
      | nil =>
        simp only [List.getLast?_singleton, Option.some.injEq] at hlast
        subst hlast; simp [hpid]
      | cons b l' =>
        rw [List.getLast?_cons_cons] at hlast
        simp [hlast, hpid]

/-- All blocks of a backtrack list but the target are stored, with distinct ids. -/
theorem Backtrack.dropLast {cs : ConsensusSet σ D} {pb : processedBlock D}
    {l : List (processedBlock D)} (h : Backtrack cs pb l) :
    (∀ x ∈ l.dropLast, Stored cs x) ∧ (l.dropLast.map (fun b => b.ID)).Nodup := by
  cases h with
  | here _ => simp
  | step _ hg hl =>
    rw [List.dropLast_concat]
    exact ⟨hl.stored (getBlockMap_stored hg), hl.nodup (getBlockMap_stored hg)⟩

/-! ## Backtracking after a revert -/

theorem Backtrack.congr {cs cs' : ConsensusSet σ D} {pb : processedBlock D}
    {l : List (processedBlock D)} (h : Backtrack cs pb l)
    (hmap : ∀ id, getBlockMap cs' id = getBlockMap cs id)
    (hon : ∀ b ∈ l, onCurrentPath cs' b = onCurrentPath cs b) : Backtrack cs' pb l := by
  induction h with
  | here hp => exact .here (by rw [hon _ (by simp)]; exact hp)
  | step hp hg _ ih =>
    refine .step (by rw [hon _ (by simp)]; exact hp) (by rw [hmap]; exact hg)
      (ih (fun b hb => hon b (by simp [hb])))

theorem onCurrentPath_of_take {cs cs' : ConsensusSet σ D} {n : Nat}
    (hp : cs'.path = cs.path.take n) {b : processedBlock D}
    (h : onCurrentPath cs' b = true) : onCurrentPath cs b = true := by
  rw [onCurrentPath_iff_getPath] at h ⊢
  unfold getPath at h ⊢
  rw [hp, List.getElem?_take] at h
  split at h
  · exact h
  · cases h

theorem onCurrentPath_take_of_le {cs cs' : ConsensusSet σ D} {n : Nat}
    (hp : cs'.path = cs.path.take n) {b : processedBlock D} (hlt : b.Height < n)
    (h : onCurrentPath cs b = true) : onCurrentPath cs' b = true := by
  rw [onCurrentPath_iff_getPath] at h ⊢
  unfold getPath at h ⊢
  rw [hp, List.getElem?_take, if_pos hlt]
  exact h

/-- The list recomputed after reverting to the common parent is the list
computed before. -/
theorem Backtrack.after_revert {cs cs' : ConsensusSet σ D} {pb cp : processedBlock D}
    {branch : List (processedBlock D)} (h : Backtrack cs pb (cp :: branch))
    (hmap : cs'.blockMap = cs.blockMap) (hp : cs'.path = cs.path.take (cp.Height + 1)) :
    Backtrack cs' pb (cp :: branch) := by
  obtain ⟨cp', branch', heq, hcp, hoff, -, -⟩ := h.shape
  cases heq
  refine h.congr (getBlockMap_congr hmap) ?_
  intro b hb
  rcases List.mem_cons.mp hb with hb | hb
  · subst hb
    rw [hcp]
    exact onCurrentPath_take_of_le hp (Nat.lt_succ_self _) hcp
  · rw [hoff b hb]
    cases hc : onCurrentPath cs' b with
    | false => rfl
    | true =>
      have := onCurrentPath_of_take hp hc
      rw [hoff b hb] at this
      cases this

theorem applyUntilNode_eq (E : Externals σ D ε H) {cs : ConsensusSet σ D}
    {pb cp : processedBlock D} {branch : List (processedBlock D)}
    (h : Backtrack cs pb (cp :: branch)) {fuel : Nat} (hf : branch.length < fuel) :
    applyUntilNode E fuel cs pb = applyLoop E branch cs [] := by
  unfold applyUntilNode
  rw [backtrack_complete h (by simpa using hf)]
  rfl

/-! ## Facts about the reverted consensus set -/

theorem revertedTo_blockMap (E : Externals σ D ε H) (cs : ConsensusSet σ D) (h : Nat) :
    (revertedTo E cs h).blockMap = cs.blockMap := rfl

theorem revertedTo_path (E : Externals σ D ε H) (cs : ConsensusSet σ D) (h : Nat) :
    (revertedTo E cs h).path = cs.path.take (h + 1) := rfl

theorem revertedTo_currentBlockID (E : Externals σ D ε H) (cs : ConsensusSet σ D)
    (b : processedBlock D) (hon : onCurrentPath cs b = true) :
    currentBlockID (revertedTo E cs b.Height) = some b.ID := by
  rw [currentBlockID_eq_getLast?, revertedTo_path]
  exact getLast?_take_succ _ _ _ ((onCurrentPath_iff cs b).mp hon).2

theorem PathWellFormed.tip {cs : ConsensusSet σ D}
    (hwf : PathWellFormed cs) :
    ∃ b, currentProcessedBlock cs = some b ∧ getPath cs (height cs) = some b.ID ∧
      b.Height = height cs ∧ b.DiffsGenerated = true := by
  have hne := hwf.nonempty
  have hlt : height cs < cs.path.length := by
    unfold height
    have : 0 < cs.path.length := List.length_pos.mpr hne
    omega
  obtain ⟨id, hid⟩ : ∃ id, getPath cs (height cs) = some id :=
    ⟨_, List.getElem?_eq_getElem hlt⟩
  obtain ⟨b, hb, hh, hg, -⟩ := hwf.onPath _ id hid
  refine ⟨b, ?_, ?_, hh, hg⟩
  · simp [currentProcessedBlock, currentBlockID, hid, hb]
  · rw [hid, getBlockMap_id hb]

/-- The state left by reverting a well-formed consensus set down to height `h`
is the cumulative application of the diff sets of the remaining path. -/
theorem revertedTo_state (E : Externals σ D ε H) (hRA : RevertUndoesApply E)
    (cs : ConsensusSet σ D) (h : Nat) (s0 : σ) (hs : cs.state = replay E cs s0 cs.path) :
    (revertedTo E cs h).state = replay E cs s0 (cs.path.take (h + 1)) := by
  show unwind E cs (cs.path.drop (h + 1)) cs.state = _
  have h1 : cs.state =
      replay E cs (replay E cs s0 (cs.path.take (h + 1))) (cs.path.drop (h + 1)) := by
    rw [← replay_append, List.take_append_drop]; exact hs
  rw [h1, unwind_replay E hRA]

theorem blocksOf_ids (cs : ConsensusSet σ D) (ids : List BlockID)
    (h : ∀ id ∈ ids, (getBlockMap cs id).isSome = true) :
    (blocksOf cs ids).map (fun b => b.ID) = ids := by
  induction ids with
  | nil => rfl
  | cons a l ih =>
    obtain ⟨b, hb⟩ := Option.isSome_iff_exists.mp (h a (by simp))
    simp only [blocksOf, List.filterMap_cons, hb, List.map_cons, getBlockMap_id hb]
    congr 1
    exact ih (fun id hid => h id (by simp [hid]))

theorem blocksOf_congr {cs cs' : ConsensusSet σ D} (ids : List BlockID)
    (h : ∀ id ∈ ids, getBlockMap cs' id = getBlockMap cs id) :
    blocksOf cs' ids = blocksOf cs ids := by
  induction ids with
  | nil => rfl
  | cons a l ih =>
    simp only [blocksOf, List.filterMap_cons, h a (by simp)]
    have := ih (fun id hid => h id (by simp [hid]))
    simp only [blocksOf] at this
    rw [this]

theorem mem_blocksOf {cs : ConsensusSet σ D} {ids : List BlockID} {b : processedBlock D}
    (h : b ∈ blocksOf cs ids) : b.ID ∈ ids ∧ getBlockMap cs b.ID = some b := by
  simp only [blocksOf, List.mem_filterMap] at h
  obtain ⟨id, hid, hb⟩ := h
  have := getBlockMap_id hb
  subst this
  exact ⟨hid, hb⟩

/-! ## The success branch of `forkBlockchain` -/

theorem forkBlockchain_success [DecidableEq H] (E : Externals σ D ε H) (cs : ConsensusSet σ D)
    (hwf : PathWellFormed cs) (newNode cp : processedBlock D)
    (branch : List (processedBlock D)) (hb : Backtrack cs newNode (cp :: branch))
    (fuel : Nat) (hf1 : branch.length < fuel) (hf2 : cs.path.length ≤ fuel)
    (cs2 : ConsensusSet σ D) (applied : List (processedBlock D))
    (happ : applyLoop E branch (revertedTo E cs cp.Height) [] = .ok (cs2, applied, none)) :
    forkBlockchain E fuel cs newNode =
      .ok ⟨cs2, blocksOf cs (cs.path.drop (cp.Height + 1)).reverse, applied, none⟩ := by
  obtain ⟨oldHead, hold, -⟩ := hwf.tip
  obtain ⟨cp', branch', heq, hcp, -⟩ := hb.shape
  cases heq
  have hrev := revertToNode_wf E cs hwf cp hcp fuel (by omega)
  have hb1 := hb.after_revert (revertedTo_blockMap E cs cp.Height) (revertedTo_path E cs cp.Height)
  unfold forkBlockchain
  simp only [hold, backtrack_complete hb (by simpa using hf1), hrev,
    applyUntilNode_eq E hb1 hf1, happ]

/-! ## Reapplying blocks whose diffs are generated -/

/-- On blocks whose diffs are all generated the apply loop only commits: the
block map is untouched and no error is returned. -/
theorem applyLoop_generated (E : Externals σ D ε H) :
    ∀ (xs : List (processedBlock D)) (cs cs' : ConsensusSet σ D)
      (acc appl : List (processedBlock D)) (err : Option (Error ε)),
      (∀ b ∈ xs, b.DiffsGenerated = true) →
      applyLoop E xs cs acc = .ok (cs', appl, err) →
      cs'.blockMap = cs.blockMap ∧ err = none ∧ appl = acc ++ xs := by
  intro xs
  induction xs with
  | nil =>
    intro cs cs' acc appl err _ h
    simp only [applyLoop, Except.ok.injEq, Prod.mk.injEq] at h
    obtain ⟨h1, h2, h3⟩ := h
    subst h1; subst h2; subst h3
    simp
  | cons node xs ih =>
    intro cs cs' acc appl err hg h
    rw [applyLoop_cons_stored E cs node xs acc (hg node (by simp))] at h
    split at h
    · cases h
    · obtain ⟨h1, h2, h3⟩ := ih _ cs' _ appl err (fun b hb => hg b (by simp [hb])) h
      exact ⟨by rw [h1, commitDiffSet_blockMap], h2, by simp [h3]⟩

/-! ## Walking back from the old tip after the recovery revert -/

theorem drop_take_succ {α : Type} (l : List α) (h : Nat) (x : α) (hx : l[h]? = some x) :
    (l.take (h + 1)).drop h = [x] := by
  have hlt : h < l.length := (List.getElem?_eq_some_iff.mp hx).1
  rw [List.take_succ, hx]
  exact List.drop_left' (by simp; omega)

theorem MapEvolves.generated {cs cs' : ConsensusSet σ D} (h : MapEvolves cs cs')
    {id : BlockID} {b : processedBlock D} (hb : getBlockMap cs id = some b)
    (hg : b.DiffsGenerated = true) : getBlockMap cs' id = some b := by
  obtain ⟨b', hb', -, -, heq⟩ := h.1 id b hb
  rw [hb', heq hg]

theorem PathWellFormed.getBlockMap_eq {cs cs' : ConsensusSet σ D}
    (hwf : PathWellFormed cs) (hev : MapEvolves cs cs') {id : BlockID} (hid : id ∈ cs.path) :
    getBlockMap cs' id = getBlockMap cs id := by
  obtain ⟨k, hk⟩ := List.mem_iff_getElem?.mp hid
  obtain ⟨b, hb, -, hg, -⟩ := hwf.onPath k id hk
  rw [hb]; exact hev.generated hb hg

/-- In a consensus set whose path is the well-formed path cut at height `h0`
(and whose block map evolved from the original one), the backtrack list of the
block at height `j` is the stretch of the original path from `h0` to `j`. -/
theorem PathWellFormed.backtrack_path {cs cs3 : ConsensusSet σ D}
    (hwf : PathWellFormed cs) (hev : MapEvolves cs cs3) (h0 : Nat)
    (hp3 : cs3.path = cs.path.take (h0 + 1)) :
    ∀ j, h0 ≤ j → j < cs.path.length →
      ∃ b, getBlockMap cs3 b.ID = some b ∧ getPath cs j = some b.ID ∧
        Backtrack cs3 b (blocksOf cs ((cs.path.take (j + 1)).drop h0)) := by
  intro j hj
  induction j, hj using Nat.le_induction with
  | base =>
    intro hlt
    have hid : getPath cs h0 = some cs.path[h0] := List.getElem?_eq_getElem hlt
    obtain ⟨b, hb, hh, hg, -⟩ := hwf.onPath h0 _ hid
    have hbid := getBlockMap_id hb
    refine ⟨b, ?_, by rw [hid, hbid], ?_⟩
    · rw [hbid]; exact hev.generated hb hg
    · rw [drop_take_succ _ _ _ hid]
      simp only [blocksOf, List.filterMap_cons, hb, List.filterMap_nil]
      refine .here (onCurrentPath_take_of_le hp3 (by omega) ?_)
      rw [onCurrentPath_iff_getPath, hh, hbid]; exact hid
  | succ j hj ih =>
    intro hlt
    obtain ⟨b, hb3, hbj, hback⟩ := ih (by omega)
    have hid : getPath cs (j + 1) = some cs.path[j + 1] := List.getElem?_eq_getElem hlt
    obtain ⟨b', hb', hh', hg', hpar⟩ := hwf.onPath (j + 1) _ hid
    have hbid' := getBlockMap_id hb'
    have hpar' : getPath cs j = some b'.Parent := by simpa using hpar (by omega)
    have hpeq : b'.Parent = b.ID := by
      rw [hbj] at hpar'; exact (Option.some.inj hpar').symm
    refine ⟨b', ?_, by rw [hid, hbid'], ?_⟩
    · rw [hbid']; exact hev.generated hb' hg'
    · have hlist : (cs.path.take (j + 1 + 1)).drop h0 =
          (cs.path.take (j + 1)).drop h0 ++ [cs.path[j + 1]] := by
        have hid' : cs.path[j + 1]? = some cs.path[j + 1] := hid
        rw [List.take_succ, hid']
        exact List.drop_append_of_le_length (by simp; omega)
      rw [hlist]
      have : blocksOf cs ((cs.path.take (j + 1)).drop h0 ++ [cs.path[j + 1]]) =
          blocksOf cs ((cs.path.take (j + 1)).drop h0) ++ [b'] := by
        simp [blocksOf, List.filterMap_append, hb']
      rw [this]
      refine .step ?_ (by rw [hpeq]; exact hb3) hback
      cases hc : onCurrentPath cs3 b' with
      | false => rfl
      | true =>
        rw [onCurrentPath_iff_getPath] at hc
        unfold getPath at hc
        rw [hp3, List.getElem?_take, hh'] at hc
        rw [if_neg (by omega)] at hc
        cases hc

/-- The backtrack list of the old tip after the recovery revert: the block at
the height of the common parent, followed by the blocks of the old path above it. -/
theorem PathWellFormed.backtrack_oldHead {cs cs3 : ConsensusSet σ D}
    (hwf : PathWellFormed cs) (hev : MapEvolves cs cs3) (h0 : Nat) (hlt : h0 < cs.path.length)
    (hp3 : cs3.path = cs.path.take (h0 + 1)) {oldHead : processedBlock D}
    (hold : currentProcessedBlock cs = some oldHead) :
    ∃ c, Stored cs3 oldHead ∧ getPath cs h0 = some c.ID ∧
      Backtrack cs3 oldHead (c :: blocksOf cs (cs.path.drop (h0 + 1))) := by
  obtain ⟨b0, hb0, hp0, -, hg0⟩ := hwf.tip
  rw [hold] at hb0
  cases hb0
  have hlen : height cs + 1 = cs.path.length := by unfold height; omega
  obtain ⟨b, hb3, hbj, hback⟩ := hwf.backtrack_path hev h0 hp3 (height cs)
    (by unfold height; omega) (by omega)
  have hbeq : b = oldHead := by
    have hid : b.ID = oldHead.ID := by
      rw [hp0] at hbj; exact (Option.some.inj hbj).symm
    obtain ⟨b1, hb1, -, hg1, -⟩ := hwf.onPath _ _ hp0
    have h3 := hev.generated hb1 hg1
    rw [← hid, hb3] at h3
    have h4 : getBlockMap cs b.ID = some b := by rw [← Option.some.inj h3] at hb1; rw [hid]; exact hb1
    have h5 : currentProcessedBlock cs = some b := by
      simp [currentProcessedBlock, currentBlockID, hp0, ← hid, h4]
    rw [hold] at h5
    exact (Option.some.inj h5).symm
  subst hbeq
  have hid0 : getPath cs h0 = some cs.path[h0] := List.getElem?_eq_getElem hlt
  obtain ⟨c, hc, -⟩ := hwf.onPath h0 _ hid0
  have hlist : (cs.path.take (height cs + 1)).drop h0 = cs.path[h0] :: cs.path.drop (h0 + 1) := by
    rw [hlen, List.take_length]
    exact List.drop_eq_getElem_cons hlt
  rw [hlist] at hback
  have hcons : blocksOf cs (cs.path[h0] :: cs.path.drop (h0 + 1)) =
      c :: blocksOf cs (cs.path.drop (h0 + 1)) := by
    simp only [blocksOf, List.filterMap_cons, hc]
  rw [hcons] at hback
  exact ⟨c, hb3, by rw [hid0, getBlockMap_id hc], hback⟩

/-! ## The failure branch of `forkBlockchain` -/

/-- An attempt that ends in an error: a clean run over the blocks `done` of the
branch, then a block that the generator rejects. -/
theorem attempt_error (E : Externals σ D ε H) {cs cs1 cs2 : ConsensusSet σ D}
    {newNode cp : processedBlock D} {branch applied : List (processedBlock D)} {e : Error ε}
    (hb : Backtrack cs newNode (cp :: branch)) (hmap1 : cs1.blockMap = cs.blockMap)
    (htip : currentBlockID cs1 = some cp.ID)
    (happ : applyLoop E branch cs1 [] = .ok (cs2, applied, some e)) :
    ∃ done node rest csk n', branch = done ++ node :: rest ∧ node.DiffsGenerated = false ∧
      applyLoop E done cs1 [] = .ok (csk, applied, none) ∧
      ApplyPost E cs1 csk done applied ∧
      generateAndApplyDiff E csk node = (cs2, n', some e) ∧
      Stored cs cp ∧ (∀ b ∈ done, Stored cs b) ∧
      ((cp :: done).map (fun b => b.ID)).Nodup := by
  obtain ⟨done, node, rest, csk, n', hbr, hclean, hng, hgen⟩ :=
    applyLoop_error E branch cs1 cs2 [] applied e happ
  obtain ⟨cp', branch', heq, -, -, hlink, -⟩ := hb.shape
  cases heq
  obtain ⟨hst, hnd⟩ := hb.dropLast
  have hdl : (cp :: branch).dropLast = (cp :: done) ++ (node :: rest).dropLast := by
    rw [hbr, ← List.cons_append, List.dropLast_append_of_ne_nil _ (by simp)]
  rw [hdl] at hst hnd
  have hst' : ∀ b ∈ cp :: done, Stored cs b := fun b hb' => hst b (List.mem_append_left _ hb')
  have hnd' : ((cp :: done).map (fun b => b.ID)).Nodup := by
    rw [List.map_append] at hnd
    exact (List.nodup_append.mp hnd).1
  have hnd'' : (done.map (fun b => b.ID)).Nodup := by
    simp only [List.map_cons, List.nodup_cons] at hnd'
    exact hnd'.2
  obtain ⟨appl', ha, post⟩ := applyLoop_clean E done cs1 csk [] applied cp.ID hclean htip
    (linked_append_left _ _ _ (hbr ▸ hlink))
    (fun b hb' => by
      unfold Stored
      rw [getBlockMap_congr hmap1]
      exact hst' b (List.mem_cons_of_mem _ hb'))
    hnd''
  simp only [List.nil_append] at ha
  subst ha
  exact ⟨done, node, rest, csk, n', hbr, hng, hclean, post, hgen,
    hst' cp (List.mem_cons_self _ _), fun b hb' => hst' b (List.mem_cons_of_mem _ hb'), hnd'⟩

theorem take_append_length {α : Type} (l₁ l₂ : List α) (n : Nat) (h : l₁.length = n) :
    (l₁ ++ l₂).take n = l₁ := by
  subst h; simp

theorem drop_append_length {α : Type} (l₁ l₂ : List α) (n : Nat) (h : l₁.length = n) :
    (l₁ ++ l₂).drop n = l₂ := by
  subst h; simp

/-- A rejected fork: `forkBlockchain` returns the generator's error with nil
slices, and the path and the state are those before the call. -/
theorem forkBlockchain_failure [DecidableEq H] (E : Externals σ D ε H)
    (hRA : RevertUndoesApply E) (cs : ConsensusSet σ D)
    (hwf : WellFormed E cs) (newNode cp : processedBlock D)
    (branch : List (processedBlock D)) (hb : Backtrack cs newNode (cp :: branch))
    (fuel : Nat) (hf1 : branch.length < fuel) (hf2 : cs.path.length ≤ fuel)
    (cs2 : ConsensusSet σ D) (applied : List (processedBlock D)) (e : Error ε)
    (happ : applyLoop E branch (revertedTo E cs cp.Height) [] = .ok (cs2, applied, some e)) :
    ∃ cs4, forkBlockchain E fuel cs newNode = .ok ⟨cs4, [], [], some e⟩ ∧
      cs4.path = cs.path ∧ cs4.state = cs.state ∧ cs4.blockMap = cs2.blockMap ∧
      cs4.calls = cs2.calls ++ revertCalls (cs2.path.drop (cp.Height + 1)).reverse ++
        applyCalls (blocksOf cs (cs.path.drop (cp.Height + 1))) := by
  obtain ⟨oldHead, hold, -⟩ := hwf.tip
  obtain ⟨cp', branch', heq, hcp, -, -, -⟩ := hb.shape
  cases heq
  obtain ⟨hh, hpcp⟩ := (onCurrentPath_iff cs cp).mp hcp
  have hlt : cp.Height < cs.path.length := (List.getElem?_eq_some_iff.mp hpcp).1
  have hrev := revertToNode_wf E cs hwf.toPathWellFormed cp hcp fuel (by omega)
  have hb1 := hb.after_revert (revertedTo_blockMap E cs cp.Height) (revertedTo_path E cs cp.Height)
  -- the attempt
  obtain ⟨done, node, rest, csk, n', hbr, hng, hclean, post, hgen, hstcp, hstd, hnd⟩ :=
    attempt_error E hb (revertedTo_blockMap E cs cp.Height)
      (revertedTo_currentBlockID E cs cp hcp) happ
  obtain ⟨hmap2, hpath2, hstate2, -⟩ := generateAndApplyDiff_fail hgen
  have hbaselen : (cs.path.take (cp.Height + 1)).length = cp.Height + 1 := by
    rw [List.length_take]; omega
  have hpath2' : cs2.path = cs.path.take (cp.Height + 1) ++ done.map (fun b => b.ID) := by
    rw [hpath2, post.path, revertedTo_path]
  have hdrop2 : cs2.path.drop (cp.Height + 1) = done.map (fun b => b.ID) := by
    rw [hpath2']; exact drop_append_length _ _ _ hbaselen
  have htake2 : cs2.path.take (cp.Height + 1) = cs.path.take (cp.Height + 1) := by
    rw [hpath2']; exact take_append_length _ _ _ hbaselen
  have hev1k : MapEvolves cs csk :=
    (MapEvolves.of_eq (revertedTo_blockMap E cs cp.Height)).trans post.evolves
  have hev2 : MapEvolves cs cs2 := hev1k.trans (MapEvolves.of_eq hmap2)
  -- the recovery revert
  have hon2 : onCurrentPath cs2 cp = true := by
    rw [onCurrentPath_iff_getPath]
    unfold getPath at hpcp ⊢
    rw [hpath2', List.getElem?_append_left (by omega), List.getElem?_take, if_pos (by omega)]
    exact hpcp
  have hrev2 := revertToNode_spec E cs2 cp hon2
    (by
      rw [hdrop2]
      simp only [List.map_cons, List.nodup_cons] at hnd
      exact hnd.1)
    (by
      rw [hdrop2]
      intro id hid
      obtain ⟨b, hbm, hbid⟩ := List.mem_map.mp hid
      obtain ⟨b', hb', -⟩ := hev2.1 b.ID b (hstd b hbm)
      rw [← hbid, hb']; rfl)
    fuel (by
      rw [hpath2', List.length_append, hbaselen, List.length_map]
      have : done.length < branch.length := by rw [hbr]; simp
      omega)
  have hpath3 : (revertedTo E cs2 cp.Height).path = cs.path.take (cp.Height + 1) := by
    rw [revertedTo_path, htake2]
  have hstate3 : (revertedTo E cs2 cp.Height).state = (revertedTo E cs cp.Height).state := by
    show unwind E cs2 (cs2.path.drop (cp.Height + 1)) cs2.state = _
    rw [hdrop2, hstate2, post.state,
      unwind_congr E _ (fun id _ => getBlockMap_congr hmap2 id), unwind_replay E hRA]
  have hev3 : MapEvolves cs (revertedTo E cs2 cp.Height) :=
    hev2.trans (MapEvolves.of_eq (revertedTo_blockMap E cs2 cp.Height))
  -- the reapply
  obtain ⟨c, hst3, hcid, hback3⟩ :=
    hwf.backtrack_oldHead hev3 cp.Height hlt hpath3 hold
  have hcid' : c.ID = cp.ID := by
    rw [hpcp] at hcid; exact (Option.some.inj hcid).symm
  have hlen3 : (blocksOf cs (cs.path.drop (cp.Height + 1))).length < fuel := by
    have : (blocksOf cs (cs.path.drop (cp.Height + 1))).length ≤
        (cs.path.drop (cp.Height + 1)).length := List.length_filterMap_le _ _
    rw [List.length_drop] at this
    omega
  have happ3 := applyUntilNode_eq E hback3 hlen3
  obtain ⟨c', branch3, heq3, -, -, hlink3, -⟩ := hback3.shape
  cases heq3
  have htip3 : currentBlockID (revertedTo E cs2 cp.Height) = some c.ID := by
    rw [hcid']; exact revertedTo_currentBlockID E cs2 cp hon2
  obtain ⟨⟨cs4, appl4, err4⟩, hrun⟩ := applyLoop_total E
    (blocksOf cs (cs.path.drop (cp.Height + 1))) (revertedTo E cs2 cp.Height) [] c.ID htip3 hlink3
  have hgenall : ∀ b ∈ blocksOf cs (cs.path.drop (cp.Height + 1)), b.DiffsGenerated = true := by
    intro b hbm
    obtain ⟨hid, hbs⟩ := mem_blocksOf hbm
    obtain ⟨k, hk⟩ := List.mem_iff_getElem?.mp (List.mem_of_mem_drop hid)
    obtain ⟨b', hb', -, hg', -⟩ := hwf.onPath k _ hk
    rw [hbs] at hb'; cases hb'; exact hg'
  obtain ⟨hmap4, herr4, -⟩ := applyLoop_generated E _ _ cs4 [] appl4 err4 hgenall hrun
  subst herr4
  obtain ⟨appl', -, post4⟩ := applyLoop_clean E _ _ cs4 [] appl4 c.ID hrun htip3 hlink3
    (fun b hbm => hback3.stored hst3 b (List.mem_cons_of_mem _ hbm))
    (by
      have := hback3.nodup hst3
      simp only [List.map_cons, List.nodup_cons] at this
      exact this.2)
  have hids : (blocksOf cs (cs.path.drop (cp.Height + 1))).map (fun b => b.ID) =
      cs.path.drop (cp.Height + 1) := blocksOf_ids cs _ (hwf.path_stored _)
  have hpath4 : cs4.path = cs.path := by
    rw [post4.path, hpath3, hids, List.take_append_drop]
  have hev4 : MapEvolves cs cs4 := hev3.trans post4.evolves
  have hstate4 : cs4.state = cs.state := by
    obtain ⟨s0, hs0⟩ := hwf.agrees
    rw [post4.state, hstate3, hids, revertedTo_state E hRA cs cp.Height s0 hs0,
      replay_congr E _ (fun id hid => hwf.getBlockMap_eq hev4 (List.mem_of_mem_drop hid)),
      ← replay_append, List.take_append_drop, ← hs0]
  refine ⟨cs4, ?_, hpath4, hstate4, by rw [hmap4]; rfl, ?_⟩
  · unfold forkBlockchain
    simp only [hold, backtrack_complete hb (by simpa using hf1), hrev,
      applyUntilNode_eq E hb1 hf1, happ, hrev2, happ3, hrun, consensusSetHash, hstate4]
    simp
  · rw [post4.calls]
    show (cs2.calls ++ _) ++ _ = _
    rfl

/-! ## `forkBlockchain` as a whole -/

theorem forkBlockchain_backtrack [DecidableEq H] (E : Externals σ D ε H) {fuel : Nat}
    {cs : ConsensusSet σ D} {newNode : processedBlock D} {r : ForkResult σ D ε}
    (h : forkBlockchain E fuel cs newNode = .ok r) :
    ∃ cp branch, backtrackToCurrentPath fuel cs newNode = .ok (cp :: branch) := by
  unfold forkBlockchain at h
  cases hc : currentProcessedBlock cs with
  | none => simp [hc] at h
  | some oldHead =>
    simp only [hc] at h
    cases hbt : backtrackToCurrentPath fuel cs newNode with
    | error f => simp [hbt] at h
    | ok l =>
      cases l with
      | nil => simp [hbt] at h
      | cons cp branch => exact ⟨cp, branch, rfl⟩

theorem forkBlockchain_mono [DecidableEq H] (E : Externals σ D ε H) {fuel fuel' : Nat}
    {cs : ConsensusSet σ D} {newNode : processedBlock D} {r : ForkResult σ D ε}
    (hle : fuel ≤ fuel') (h : forkBlockchain E fuel cs newNode = .ok r) :
    forkBlockchain E fuel' cs newNode = .ok r := by
  unfold forkBlockchain at h ⊢
  cases hc : currentProcessedBlock cs with
  | none => simp [hc] at h
  | some oldHead =>
    simp only [hc] at h ⊢
    cases hbt : backtrackToCurrentPath fuel cs newNode with
    | error f => simp [hbt] at h
    | ok l =>
      rw [backtrack_mono hle hbt]
      cases l with
      | nil => simp [hbt] at h
      | cons cp branch =>
        simp only [hbt] at h ⊢
        cases hr : revertToNode E fuel cs cp with
        | error f => simp [hr] at h
        | ok p1 =>
          obtain ⟨cs1, rev⟩ := p1
          rw [revertToNode_mono E hle hr]
          simp only [hr] at h ⊢
          cases ha : applyUntilNode E fuel cs1 newNode with
          | error f => simp [ha] at h
          | ok p2 =>
            obtain ⟨cs2, appl, err⟩ := p2
            rw [applyUntilNode_mono E hle ha]
            cases err with
            | none => simpa [ha] using h
            | some e =>
              simp only [ha] at h ⊢
              cases hr2 : revertToNode E fuel cs2 cp with
              | error f => simp [hr2] at h
              | ok p3 =>
                obtain ⟨cs3, rev3⟩ := p3
                rw [revertToNode_mono E hle hr2]
                simp only [hr2] at h ⊢
                cases ha2 : applyUntilNode E fuel cs3 oldHead with
                | error f => simp [ha2] at h
                | ok p4 =>
                  obtain ⟨cs4, appl4, err4⟩ := p4
                  rw [applyUntilNode_mono E hle ha2]
                  simpa [ha2] using h

/-- What a returning call of `forkBlockchain` did: it reverted to the common
parent `cp` and then either applied the whole branch, or stopped at a rejected
block and restored the path and the state. -/
theorem forkBlockchain_cases [DecidableEq H] (E : Externals σ D ε H)
    (hRA : RevertUndoesApply E) {cs : ConsensusSet σ D} (hwf : WellFormed E cs)
    {newNode : processedBlock D} {fuel : Nat} {r : ForkResult σ D ε}
    (h : forkBlockchain E fuel cs newNode = .ok r) :
    ∃ cp branch, backtrackToCurrentPath fuel cs newNode = .ok (cp :: branch) ∧
      Backtrack cs newNode (cp :: branch) ∧
      ((r.err = none ∧
          r.revertedNodes = blocksOf cs (cs.path.drop (cp.Height + 1)).reverse ∧
          applyLoop E branch (revertedTo E cs cp.Height) [] =
            .ok (r.cs, r.appliedNodes, none)) ∨
       (∃ e cs2 applied, r.err = some e ∧ r.revertedNodes = [] ∧ r.appliedNodes = [] ∧
          applyLoop E branch (revertedTo E cs cp.Height) [] = .ok (cs2, applied, some e) ∧
          r.cs.path = cs.path ∧ r.cs.state = cs.state ∧ r.cs.blockMap = cs2.blockMap ∧
          r.cs.calls = cs2.calls ++ revertCalls (cs2.path.drop (cp.Height + 1)).reverse ++
            applyCalls (blocksOf cs (cs.path.drop (cp.Height + 1))))) := by
  obtain ⟨cp, branch, hbt⟩ := forkBlockchain_backtrack E h
  obtain ⟨hb, hlen⟩ := backtrack_sound hbt
  refine ⟨cp, branch, hbt, hb, ?_⟩
  obtain ⟨cp', branch', heq, hcp, -, hlink, -⟩ := hb.shape
  cases heq
  have h' := forkBlockchain_mono E (le_max_left fuel (max (branch.length + 1) cs.path.length)) h
  have hf1 : branch.length < max fuel (max (branch.length + 1) cs.path.length) := by
    have := le_max_right fuel (max (branch.length + 1) cs.path.length)
    have := le_max_left (branch.length + 1) cs.path.length
    omega
  have hf2 : cs.path.length ≤ max fuel (max (branch.length + 1) cs.path.length) := by
    have := le_max_right fuel (max (branch.length + 1) cs.path.length)
    have := le_max_right (branch.length + 1) cs.path.length
    omega
  obtain ⟨⟨cs2, applied, err⟩, hrun⟩ := applyLoop_total E branch (revertedTo E cs cp.Height) []
    cp.ID (revertedTo_currentBlockID E cs cp hcp) hlink
  cases err with
  | none =>
    have := forkBlockchain_success E cs hwf.toPathWellFormed newNode cp branch hb _ hf1 hf2 cs2 applied hrun
    rw [h'] at this
    cases this
    exact Or.inl ⟨rfl, rfl, hrun⟩
  | some e =>
    obtain ⟨cs4, hfork, h1, h2, h3, h4⟩ :=
      forkBlockchain_failure E hRA cs hwf newNode cp branch hb _ hf1 hf2 cs2 applied e hrun
    rw [h'] at hfork
    cases hfork
    exact Or.inr ⟨e, cs2, applied, rfl, rfl, rfl, hrun, h1, h2, h3, h4⟩

/-! ## Termination -/

theorem ReachesPath.backtrack {cs : ConsensusSet σ D} :
    ∀ (n : Nat) (pb : processedBlock D), ReachesPath cs n pb →
      ∃ l, Backtrack cs pb l ∧ l.length ≤ n + 1 := by
  intro n
  induction n with
  | zero =>
    intro pb h
    obtain ⟨a, ha, hon⟩ := h
    simp only [ancestor, Option.some.injEq] at ha
    subst ha
    exact ⟨[pb], .here hon, by simp⟩
  | succ n ih =>
    intro pb h
    cases hp : onCurrentPath cs pb with
    | true => exact ⟨[pb], .here hp, by simp⟩
    | false =>
      obtain ⟨a, ha, hon⟩ := h
      simp only [ancestor] at ha
      cases hg : getBlockMap cs pb.Parent with
      | none => simp [hg] at ha
      | some p =>
        rw [hg] at ha
        obtain ⟨l, hl, hlen⟩ := ih p ⟨a, ha, hon⟩
        exact ⟨l ++ [pb], .step hp hg hl, by simp; omega⟩

/-- With enough fuel, `forkBlockchain` returns on a well-formed consensus set
for every target whose ancestors reach the current path. -/
theorem forkBlockchain_total [DecidableEq H] (E : Externals σ D ε H)
    (hRA : RevertUndoesApply E) (cs : ConsensusSet σ D) (hwf : WellFormed E cs)
    (newNode : processedBlock D) (n : Nat) (hreach : ReachesPath cs n newNode)
    (fuel : Nat) (hf1 : n < fuel) (hf2 : cs.path.length ≤ fuel) :
    ∃ r, forkBlockchain E fuel cs newNode = .ok r := by
  obtain ⟨l, hl, hlen⟩ := hreach.backtrack n newNode
  obtain ⟨cp, branch, heq, hcp, -, hlink, -⟩ := hl.shape
  subst heq
  simp only [List.length_cons] at hlen
  obtain ⟨⟨cs2, applied, err⟩, hrun⟩ := applyLoop_total E branch (revertedTo E cs cp.Height) []
    cp.ID (revertedTo_currentBlockID E cs cp hcp) hlink
  cases err with
  | none =>
    exact ⟨_, forkBlockchain_success E cs hwf.toPathWellFormed newNode cp branch hl fuel (by omega) hf2
      cs2 applied hrun⟩
  | some e =>
    obtain ⟨cs4, hfork, -⟩ :=
      forkBlockchain_failure E hRA cs hwf newNode cp branch hl fuel (by omega) hf2
        cs2 applied e hrun
    exact ⟨_, hfork⟩

/-! ## Heights along the backtrack list -/

theorem heightsFrom_append_singleton (h : Nat) (xs : List (processedBlock D))
    (y : processedBlock D) :
    HeightsFrom h (xs ++ [y]) ↔ HeightsFrom h xs ∧ y.Height = h + xs.length + 1 := by
  induction xs generalizing h with
  | nil => simp [HeightsFrom]
  | cons a l ih =>
    show (a.Height = h + 1 ∧ HeightsFrom (h + 1) (l ++ [y])) ↔
      (a.Height = h + 1 ∧ HeightsFrom (h + 1) l) ∧ _
    rw [ih, and_assoc]
    simp only [List.length_cons]
    constructor
    · rintro ⟨h1, h2, h3⟩; exact ⟨h1, h2, by omega⟩
    · rintro ⟨h1, h2, h3⟩; exact ⟨h1, h2, by omega⟩

/-- When stored heights are linked, heights increase by one along the
backtrack list of a stored block. -/
theorem Backtrack.heights {cs : ConsensusSet σ D} {pb : processedBlock D}
    {l : List (processedBlock D)} (h : Backtrack cs pb l) (hhl : HeightsLinked cs)
    (hst : Stored cs pb) :
    ∃ cp branch, l = cp :: branch ∧ HeightsFrom cp.Height branch ∧
      pb.Height = cp.Height + branch.length := by
  induction h with
  | here _ => exact ⟨_, [], rfl, trivial, rfl⟩
  | @step pb p l hp hg hl ih =>
    obtain ⟨cp, branch, heq, hh, hlast⟩ := ih (getBlockMap_stored hg)
    have hpb := hhl pb p hst hg
    refine ⟨cp, branch ++ [pb], by simp [heq], ?_, by simp; omega⟩
    rw [heightsFrom_append_singleton]
    exact ⟨hh, by omega⟩

theorem HeightsLinked.evolves {cs cs' : ConsensusSet σ D} (hhl : HeightsLinked cs)
    (hev : MapEvolves cs cs') : HeightsLinked cs' := by
  intro b' p' hb' hp'
  unfold Stored at hb'
  cases hb : getBlockMap cs b'.ID with
  | none => rw [hev.2 _ hb] at hb'; cases hb'
  | some b =>
    obtain ⟨b1, hb1, hpar, hhe, -⟩ := hev.1 _ b hb
    rw [hb'] at hb1
    cases hb1
    cases hp : getBlockMap cs b'.Parent with
    | none => rw [hev.2 _ hp] at hp'; cases hp'
    | some p =>
      obtain ⟨p1, hp1, -, hhe', -⟩ := hev.1 _ p hp
      rw [hp'] at hp1
      cases hp1
      have := hhl b p (getBlockMap_stored hb) (by rw [← hpar]; exact hp)
      omega

/-! ## Well-formedness is preserved -/

theorem PathWellFormed.of_evolves {cs cs' : ConsensusSet σ D}
    (hwf : PathWellFormed cs) (hev : MapEvolves cs cs') (hpath : cs'.path = cs.path) :
    PathWellFormed cs' where
  nonempty := by rw [hpath]; exact hwf.nonempty
  onPath := by
    intro h id hid
    have hid' : getPath cs h = some id := by unfold getPath at hid ⊢; rw [← hpath]; exact hid
    obtain ⟨b, hb, hh, hg, hp⟩ := hwf.onPath h id hid'
    refine ⟨b, hev.generated hb hg, hh, hg, fun h0 => ?_⟩
    unfold getPath; rw [hpath]; exact hp h0

theorem WellFormed.preserved_of_evolves {E : Externals σ D ε H} {cs cs' : ConsensusSet σ D}
    (hwf : WellFormed E cs) (hev : MapEvolves cs cs') (hpath : cs'.path = cs.path)
    (hstate : cs'.state = cs.state) : WellFormed E cs' where
  toPathWellFormed := hwf.toPathWellFormed.of_evolves hev hpath
  agrees := by
    obtain ⟨s0, hs0⟩ := hwf.agrees
    refine ⟨s0, ?_⟩
    rw [hstate, hpath, hs0]
    exact (replay_congr E _ (fun id hid => hwf.getBlockMap_eq hev hid) _).symm

theorem PathWellFormed.reverted {cs : ConsensusSet σ D} (hwf : PathWellFormed cs)
    (E : Externals σ D ε H) (h : Nat) : PathWellFormed (revertedTo E cs h) where
  nonempty := by
    rw [revertedTo_path]
    intro hnil
    have := congrArg List.length hnil
    have hpos : 0 < cs.path.length := List.length_pos.mpr hwf.nonempty
    simp only [List.length_take, List.length_nil] at this
    omega
  onPath := by
    intro k id hid
    have hk : k < h + 1 ∧ getPath cs k = some id := by
      unfold getPath at hid ⊢
      rw [revertedTo_path, List.getElem?_take] at hid
      split at hid
      · exact ⟨by assumption, hid⟩
      · cases hid
    obtain ⟨b, hb, hh, hg, hp⟩ := hwf.onPath k id hk.2
    refine ⟨b, hb, hh, hg, fun h0 => ?_⟩
    unfold getPath
    rw [revertedTo_path, List.getElem?_take, if_pos (by omega)]
    exact hp h0

theorem WellFormed.preserved_reverted {E : Externals σ D ε H} {cs : ConsensusSet σ D}
    (hwf : WellFormed E cs) (hRA : RevertUndoesApply E) (h : Nat) :
    WellFormed E (revertedTo E cs h) where
  toPathWellFormed := hwf.toPathWellFormed.reverted E h
  agrees := by
    obtain ⟨s0, hs0⟩ := hwf.agrees
    exact ⟨s0, by rw [revertedTo_state E hRA cs h s0 hs0]; rfl⟩

/-- Appending a stored block with generated diffs on top of its parent keeps
the path invariants. -/
theorem PathWellFormed.snoc {cs cs' : ConsensusSet σ D}
    (hwf : PathWellFormed cs) (b : processedBlock D)
    (hpath : cs'.path = cs.path ++ [b.ID]) (hst : getBlockMap cs' b.ID = some b)
    (hg : b.DiffsGenerated = true) (hh : b.Height = cs.path.length)
    (hpar : currentBlockID cs = some b.Parent)
    (hmap : ∀ id ∈ cs.path, getBlockMap cs' id = getBlockMap cs id) : PathWellFormed cs' where
  nonempty := by rw [hpath]; simp
  onPath := by
    intro h id hid
    unfold getPath at hid
    rw [hpath] at hid
    rcases Nat.lt_trichotomy h cs.path.length with hlt | heq | hgt
    · rw [List.getElem?_append_left hlt] at hid
      obtain ⟨b0, hb0, hh0, hg0, hp0⟩ := hwf.onPath h id hid
      refine ⟨b0, ?_, hh0, hg0, fun hpos => ?_⟩
      · rw [hmap id (List.mem_iff_getElem?.mpr ⟨h, hid⟩)]; exact hb0
      · unfold getPath
        rw [hpath, List.getElem?_append_left (by omega)]
        exact hp0 hpos
    · subst heq
      rw [List.getElem?_append_right (le_refl _)] at hid
      simp only [Nat.sub_self, List.getElem?_cons_zero, Option.some.injEq] at hid
      subst hid
      refine ⟨b, hst, hh, hg, fun hpos => ?_⟩
      unfold getPath
      rw [hpath, List.getElem?_append_left (by omega)]
      exact hpar
    · rw [List.getElem?_append_right (by omega)] at hid
      have : h - cs.path.length ≠ 0 := by omega
      cases hk : h - cs.path.length with
      | zero => omega
      | succ k => rw [hk] at hid; simp at hid

theorem height_succ_of_tip {cs : ConsensusSet σ D} {t : BlockID}
    (ht : currentBlockID cs = some t) : cs.path.length = height cs + 1 := by
  rw [currentBlockID_eq_getLast?] at ht
  have : cs.path ≠ [] := by
    intro h; rw [h] at ht; cases ht
  have := List.length_pos.mpr this
  unfold height; omega

/-- A clean run of the apply loop over stored, linked blocks of increasing
heights keeps the path invariants. -/
theorem applyLoop_pathWellFormed (E : Externals σ D ε H) :
    ∀ (xs : List (processedBlock D)) (cs cs' : ConsensusSet σ D)
      (acc appl : List (processedBlock D)) (t : BlockID),
      applyLoop E xs cs acc = .ok (cs', appl, none) → PathWellFormed cs →
      currentBlockID cs = some t → Linked t xs → (∀ b ∈ xs, Stored cs b) →
      (xs.map (fun b => b.ID)).Nodup → HeightsFrom (height cs) xs → PathWellFormed cs' := by
  intro xs
  induction xs with
  | nil =>
    intro cs cs' acc appl t h hwf _ _ _ _ _
    simp only [applyLoop, Except.ok.injEq, Prod.mk.injEq, and_true] at h
    rw [← h.1]; exact hwf
  | cons node xs ih =>
    intro cs cs' acc appl t h hwf ht hl hst hnd hhf
    obtain ⟨hp, hl'⟩ := hl
    obtain ⟨hh, hhf'⟩ := hhf
    have hnode : Stored cs node := hst node (List.mem_cons_self _ _)
    have hlen := height_succ_of_tip ht
    have hsucc : ∀ c : ConsensusSet σ D, c.path = cs.path ++ [node.ID] →
        height c = height cs + 1 := by
      intro c hc
      unfold height; rw [hc]; simp; omega
    simp only [List.map_cons, List.nodup_cons] at hnd
    obtain ⟨hnotin, hnd'⟩ := hnd
    by_cases hg : node.DiffsGenerated = true
    · rw [applyLoop_cons_commit E cs node xs acc hg (by rw [ht, hp])] at h
      refine ih _ cs' _ appl node.ID h ?_ (currentBlockID_append _ cs.path node.ID rfl) hl'
        (fun b hb => hst b (List.mem_cons_of_mem _ hb)) hnd' ?_
      · exact hwf.snoc node rfl hnode hg (by omega) (by rw [ht, hp]) (fun _ _ => rfl)
      · rw [hsucc _ rfl]; exact hhf'
    · have hg' : node.DiffsGenerated = false := by simpa using hg
      rw [applyLoop_cons_generate E cs node xs acc hg'] at h
      rcases hgen : generateAndApplyDiff E cs node with ⟨cs1, n1, _ | e1⟩
      · rw [hgen] at h
        simp only at h
        obtain ⟨d, -, hn1, hpar, hmap, hpath, hstate, -⟩ := generateAndApplyDiff_ok hgen
        have hn1id : n1.ID = node.ID := by rw [hn1]
        have key : ∀ id, getBlockMap cs1 id =
            if id = node.ID then (getBlockMap cs id).map (fun _ => n1)
            else getBlockMap cs id := by
          intro id
          rw [getBlockMap_congr hmap, getBlockMap_setBlock, hn1id]
        have hnotpath : node.ID ∉ cs.path := by
          intro hmem
          obtain ⟨k, hk⟩ := List.mem_iff_getElem?.mp hmem
          obtain ⟨b, hb, -, hgb, -⟩ := hwf.onPath k _ hk
          unfold Stored at hnode
          rw [hnode] at hb
          cases hb
          rw [hg'] at hgb; cases hgb
        refine ih cs1 cs' _ appl node.ID h ?_ (currentBlockID_append _ cs.path node.ID hpath) hl'
          (fun b hb => by
            have hne : b.ID ≠ node.ID := fun hh =>
              hnotin (List.mem_map.mpr ⟨b, hb, hh⟩)
            unfold Stored
            rw [key, if_neg hne]
            exact hst b (List.mem_cons_of_mem _ hb)) hnd' ?_
        · refine hwf.snoc n1 (by rw [hpath, hn1id]) ?_ (by rw [hn1]) (by rw [hn1]; show node.Height = _; omega)
            (by rw [hn1]; exact hpar) ?_
          · rw [hn1id, key, if_pos rfl]
            unfold Stored at hnode
            rw [hnode]; rfl
          · intro id hid
            rw [key, if_neg (fun hh : id = node.ID => hnotpath (hh ▸ hid))]
        · rw [hsucc _ hpath]; exact hhf'
      · rw [hgen] at h
        simp at h

/-! ## The success branch, seen from a returning call -/

theorem forkBlockchain_err_of_attempt [DecidableEq H] (E : Externals σ D ε H)
    {cs : ConsensusSet σ D} (hwf : PathWellFormed cs) {newNode cp : processedBlock D}
    {branch : List (processedBlock D)} (hb : Backtrack cs newNode (cp :: branch))
    {fuel : Nat} (hf1 : branch.length < fuel) (hf2 : cs.path.length ≤ fuel)
    {cs2 : ConsensusSet σ D} {applied : List (processedBlock D)} {e : Error ε}
    (hrun : applyLoop E branch (revertedTo E cs cp.Height) [] = .ok (cs2, applied, some e))
    {r : ForkResult σ D ε} (h : forkBlockchain E fuel cs newNode = .ok r) :
    r.err = some e := by
  obtain ⟨oldHead, hold, -⟩ := hwf.tip
  obtain ⟨cp', branch', heq, hcp, -⟩ := hb.shape
  cases heq
  have hrev := revertToNode_wf E cs hwf cp hcp fuel (by omega)
  have hb1 := hb.after_revert (revertedTo_blockMap E cs cp.Height) (revertedTo_path E cs cp.Height)
  unfold forkBlockchain at h
  simp only [hold, backtrack_complete hb (by simpa using hf1), hrev,
    applyUntilNode_eq E hb1 hf1, hrun] at h
  cases hr2 : revertToNode E fuel cs2 cp with
  | error f => simp [hr2] at h
  | ok p3 =>
    obtain ⟨cs3, rev3⟩ := p3
    simp only [hr2] at h
    cases ha2 : applyUntilNode E fuel cs3 oldHead with
    | error f => simp [ha2] at h
    | ok p4 =>
      obtain ⟨cs4, appl4, err4⟩ := p4
      simp only [ha2] at h
      split at h
      · cases h
      · split at h
        · cases h
        · cases h; rfl

/-- A call that returns a nil error reverted to the common parent and applied
the whole branch. -/
theorem forkBlockchain_returns_nil [DecidableEq H] (E : Externals σ D ε H)
    {cs : ConsensusSet σ D} (hwf : PathWellFormed cs) {newNode : processedBlock D}
    {fuel : Nat} {r : ForkResult σ D ε}
    (h : forkBlockchain E fuel cs newNode = .ok r) (hnil : r.err = none) :
    ∃ cp branch, backtrackToCurrentPath fuel cs newNode = .ok (cp :: branch) ∧
      Backtrack cs newNode (cp :: branch) ∧
      r.revertedNodes = blocksOf cs (cs.path.drop (cp.Height + 1)).reverse ∧
      applyLoop E branch (revertedTo E cs cp.Height) [] = .ok (r.cs, r.appliedNodes, none) := by
  obtain ⟨cp, branch, hbt⟩ := forkBlockchain_backtrack E h
  obtain ⟨hb, hlen⟩ := backtrack_sound hbt
  refine ⟨cp, branch, hbt, hb, ?_⟩
  obtain ⟨cp', branch', heq, hcp, -, hlink, -⟩ := hb.shape
  cases heq
  have h' := forkBlockchain_mono E (le_max_left fuel (max (branch.length + 1) cs.path.length)) h
  have hf1 : branch.length < max fuel (max (branch.length + 1) cs.path.length) := by
    have := le_max_right fuel (max (branch.length + 1) cs.path.length)
    have := le_max_left (branch.length + 1) cs.path.length
    omega
  have hf2 : cs.path.length ≤ max fuel (max (branch.length + 1) cs.path.length) := by
    have := le_max_right fuel (max (branch.length + 1) cs.path.length)
    have := le_max_right (branch.length + 1) cs.path.length
    omega
  obtain ⟨⟨cs2, applied, err⟩, hrun⟩ := applyLoop_total E branch (revertedTo E cs cp.Height) []
    cp.ID (revertedTo_currentBlockID E cs cp hcp) hlink
  cases err with
  | none =>
    have := forkBlockchain_success E cs hwf newNode cp branch hb _ hf1 hf2 cs2 applied hrun
    rw [h'] at this
    cases this
    exact ⟨rfl, hrun⟩
  | some e =>
    have := forkBlockchain_err_of_attempt E hwf hb hf1 hf2 hrun h'
    rw [hnil] at this
    cases this

/-- After a clean run over the branch of a stored target. -/
theorem attempt_clean (E : Externals σ D ε H) {cs cs2 : ConsensusSet σ D}
    {newNode cp : processedBlock D} {branch applied : List (processedBlock D)}
    (hst : Stored cs newNode) (hb : Backtrack cs newNode (cp :: branch))
    (hrun : applyLoop E branch (revertedTo E cs cp.Height) [] = .ok (cs2, applied, none)) :
    ApplyPost E (revertedTo E cs cp.Height) cs2 branch applied := by
  obtain ⟨cp', branch', heq, hcp, -, hlink, -⟩ := hb.shape
  cases heq
  have hnd := hb.nodup hst
  simp only [List.map_cons, List.nodup_cons] at hnd
  obtain ⟨appl', ha, post⟩ := applyLoop_clean E branch _ cs2 [] applied cp.ID hrun
    (revertedTo_currentBlockID E cs cp hcp) hlink
    (fun b hb' => hb.stored hst b (List.mem_cons_of_mem _ hb')) hnd.2
  simp only [List.nil_append] at ha
  subst ha
  exact post

theorem height_revertedTo (E : Externals σ D ε H) (cs : ConsensusSet σ D)
    (b : processedBlock D) (hon : onCurrentPath cs b = true) :
    height (revertedTo E cs b.Height) = b.Height := by
  have hlt : b.Height < cs.path.length :=
    (List.getElem?_eq_some_iff.mp ((onCurrentPath_iff cs b).mp hon).2).1
  unfold height
  rw [revertedTo_path, List.length_take]
  omega

/-- The path invariants hold after a clean run over the branch. -/
theorem attempt_clean_pathWellFormed (E : Externals σ D ε H) {cs cs2 : ConsensusSet σ D}
    (hwf : PathWellFormed cs) (hhl : HeightsLinked cs)
    {newNode cp : processedBlock D} {branch applied : List (processedBlock D)}
    (hst : Stored cs newNode) (hb : Backtrack cs newNode (cp :: branch))
    (hrun : applyLoop E branch (revertedTo E cs cp.Height) [] = .ok (cs2, applied, none)) :
    PathWellFormed cs2 := by
  obtain ⟨cp', branch', heq, hcp, -, hlink, -⟩ := hb.shape
  cases heq
  have hnd := hb.nodup hst
  simp only [List.map_cons, List.nodup_cons] at hnd
  obtain ⟨cp', branch', heq, hh, -⟩ := hb.heights hhl hst
  cases heq
  exact applyLoop_pathWellFormed E branch _ cs2 [] applied cp.ID hrun (hwf.reverted E cp.Height)
    (revertedTo_currentBlockID E cs cp hcp) hlink
    (fun b hb' => hb.stored hst b (List.mem_cons_of_mem _ hb')) hnd.2
    (by rw [height_revertedTo E cs cp hcp]; exact hh)

/-! ## Ancestors along a well-formed path -/

theorem ancestor_on_path {cs : ConsensusSet σ D} (hwf : PathWellFormed cs) :
    ∀ (k : Nat) (b : processedBlock D), getPath cs b.Height = some b.ID →
      (0 < b.Height → getPath cs (b.Height - 1) = some b.Parent) → k ≤ b.Height →
      ∃ a, ancestor cs k b = some a ∧ getPath cs (b.Height - k) = some a.ID := by
  intro k
  induction k with
  | zero => intro b hon _ _; exact ⟨b, rfl, hon⟩
  | succ k ih =>
    intro b hon hpar hk
    have hp := hpar (by omega)
    obtain ⟨p, hpm, hph, -, hpp⟩ := hwf.onPath _ _ hp
    have hpid := getBlockMap_id hpm
    obtain ⟨a, ha, hga⟩ := ih p (by rw [hph, hpid]; exact hp)
      (fun h0 => by rw [hph]; exact hpp (by omega)) (by omega)
    refine ⟨a, ?_, ?_⟩
    · simp only [ancestor, hpm, Option.bind_some]; exact ha
    · rw [hph] at hga
      have : b.Height - (k + 1) = b.Height - 1 - k := by omega
      rw [this]; exact hga

theorem heightsLinked_of_forall {cs : ConsensusSet σ D}
    (h : ∀ b ∈ cs.blockMap, ∀ p ∈ cs.blockMap, p.ID = b.Parent → b.Height = p.Height + 1) :
    HeightsLinked cs := by
  intro b p hb hp
  have hb' : b ∈ cs.blockMap := List.mem_of_find?_eq_some hb
  have hp' : p ∈ cs.blockMap := List.mem_of_find?_eq_some hp
  exact h b hb' p hp' (getBlockMap_id hp)

/-! ## The log of generator invocations -/

theorem generatedOnce_cons (c : Call) (rest : List Call) :
    GeneratedOnce (c :: rest) ↔
      (∀ id, c = Call.generate id true → ∀ ok, Call.generate id ok ∉ rest) ∧
        GeneratedOnce rest :=
  Iff.rfl

theorem generatedOnce_append (l₁ l₂ : List Call) :
    GeneratedOnce (l₁ ++ l₂) ↔
      GeneratedOnce l₁ ∧ GeneratedOnce l₂ ∧
        ∀ id, Call.generate id true ∈ l₁ → ∀ ok, Call.generate id ok ∉ l₂ := by
  induction l₁ with
  | nil =>
    simp only [List.nil_append, List.not_mem_nil, false_implies, implies_true, and_true]
    exact ⟨fun h => ⟨trivial, h⟩, fun h => h.2⟩
  | cons c l ih =>
    rw [List.cons_append, generatedOnce_cons, generatedOnce_cons, ih]
    constructor
    · rintro ⟨h1, h2, h3, h4⟩
      refine ⟨⟨fun id hc ok hmem => h1 id hc ok (List.mem_append_left _ hmem), h2⟩, h3, ?_⟩
      intro id hmem ok hmem'
      rcases List.mem_cons.mp hmem with hc | hc
      · exact h1 id hc.symm ok (List.mem_append_right _ hmem')
      · exact h4 id hc ok hmem'
    · rintro ⟨⟨h1, h2⟩, h3, h4⟩
      refine ⟨fun id hc ok hmem => ?_, h2, h3, fun id hc ok => h4 id (List.mem_cons_of_mem _ hc) ok⟩
      rcases List.mem_append.mp hmem with hm | hm
      · exact h1 id hc ok hm
      · exact h4 id (by rw [hc]; exact List.mem_cons_self _ _) ok hm

theorem generatedOnce_of_no_generate (l : List Call)
    (h : ∀ id ok, Call.generate id ok ∉ l) : GeneratedOnce l := by
  induction l with
  | nil => trivial
  | cons c l ih =>
    refine ⟨fun id _ ok hmem => h id ok (List.mem_cons_of_mem _ hmem), ih ?_⟩
    exact fun id ok hmem => h id ok (List.mem_cons_of_mem _ hmem)

/-- The recursive reading of `GeneratedOnce` gives the reading by positions. -/
theorem GeneratedOnce.split {calls : List Call} (h : GeneratedOnce calls) :
    ∀ (l₁ l₂ : List Call) (id : BlockID), calls = l₁ ++ Call.generate id true :: l₂ →
      ∀ ok, Call.generate id ok ∉ l₂ := by
  intro l₁ l₂ id heq
  subst heq
  rw [generatedOnce_append] at h
  exact fun ok => h.2.1.1 id rfl ok

theorem not_generate_mem_revertCalls (ids : List BlockID) (id : BlockID) (ok : Bool) :
    Call.generate id ok ∉ revertCalls ids := by
  simp [revertCalls]

theorem generate_mem_applyCallsOf {b : processedBlock D} {id : BlockID} {ok : Bool} :
    Call.generate id ok ∈ applyCallsOf b ↔
      ok = true ∧ b.ID = id ∧ b.DiffsGenerated = false := by
  unfold applyCallsOf
  by_cases hg : b.DiffsGenerated = true
  · simp [hg]
  · have hg' : b.DiffsGenerated = false := by simpa using hg
    simp only [hg', Bool.false_eq_true, if_false, List.mem_cons, Call.generate.injEq,
      List.mem_singleton, List.not_mem_nil, or_false, and_true]
    constructor
    · rintro (⟨h1, h2⟩ | h)
      · exact ⟨h2, h1.symm⟩
      · cases h
    · rintro ⟨h1, h2⟩
      exact Or.inl ⟨h2.symm, h1⟩

theorem generate_mem_applyCalls {xs : List (processedBlock D)} {id : BlockID} {ok : Bool} :
    Call.generate id ok ∈ applyCalls xs ↔
      ok = true ∧ ∃ b ∈ xs, b.ID = id ∧ b.DiffsGenerated = false := by
  induction xs with
  | nil => simp [applyCalls]
  | cons b xs ih =>
    rw [applyCalls_cons, List.mem_append, ih, generate_mem_applyCallsOf]
    constructor
    · rintro (⟨h1, h2, h3⟩ | ⟨h1, b', hb', h2, h3⟩)
      · exact ⟨h1, b, List.mem_cons_self _ _, h2, h3⟩
      · exact ⟨h1, b', List.mem_cons_of_mem _ hb', h2, h3⟩
    · rintro ⟨h1, b', hb', h2, h3⟩
      rcases List.mem_cons.mp hb' with hb' | hb'
      · subst hb'; exact Or.inl ⟨h1, h2, h3⟩
      · exact Or.inr ⟨h1, b', hb', h2, h3⟩

theorem generatedOnce_applyCallsOf (b : processedBlock D) : GeneratedOnce (applyCallsOf b) := by
  unfold applyCallsOf
  split
  · exact ⟨(fun id h => by cases h), trivial⟩
  · exact ⟨(fun id _ ok hmem => by simp at hmem), (fun id h => by cases h), trivial⟩

theorem generatedOnce_applyCalls (xs : List (processedBlock D))
    (hnd : (xs.map (fun b => b.ID)).Nodup) : GeneratedOnce (applyCalls xs) := by
  induction xs with
  | nil => trivial
  | cons b xs ih =>
    simp only [List.map_cons, List.nodup_cons] at hnd
    rw [applyCalls_cons, generatedOnce_append]
    refine ⟨generatedOnce_applyCallsOf b, ih hnd.2, ?_⟩
    intro id hmem ok hmem'
    obtain ⟨-, hid, -⟩ := generate_mem_applyCallsOf.mp hmem
    obtain ⟨-, b', hb', hid', -⟩ := generate_mem_applyCalls.mp hmem'
    exact hnd.1 (List.mem_map.mpr ⟨b', hb', hid'.trans hid.symm⟩)

/-! ## Well-formedness is preserved by `forkBlockchain` -/

/-- A returning call of `forkBlockchain` on a stored target keeps the consensus
set well-formed and the stored heights linked; the block map only evolves by
generation. -/
theorem forkBlockchain_wellFormed [DecidableEq H] (E : Externals σ D ε H)
    (hRA : RevertUndoesApply E) {cs : ConsensusSet σ D} (hwf : WellFormed E cs)
    (hhl : HeightsLinked cs) {newNode : processedBlock D} (hst : Stored cs newNode)
    {fuel : Nat} {r : ForkResult σ D ε} (h : forkBlockchain E fuel cs newNode = .ok r) :
    WellFormed E r.cs ∧ HeightsLinked r.cs ∧ MapEvolves cs r.cs := by
  obtain ⟨cp, branch, -, hb, hcase⟩ := forkBlockchain_cases E hRA hwf h
  obtain ⟨cp', branch', heq, hcp, -, -, -⟩ := hb.shape
  cases heq
  rcases hcase with ⟨-, -, hrun⟩ | ⟨e, cs2, applied, -, -, -, hrun, hpath, hstate, hmap, -⟩
  · have post := attempt_clean E hst hb hrun
    have hev : MapEvolves cs r.cs :=
      (MapEvolves.of_eq (revertedTo_blockMap E cs cp.Height)).trans post.evolves
    refine ⟨⟨attempt_clean_pathWellFormed E hwf.toPathWellFormed hhl hst hb hrun, ?_⟩,
      hhl.evolves hev, hev⟩
    obtain ⟨s0, hs0⟩ := hwf.agrees
    refine ⟨s0, ?_⟩
    rw [post.state, post.path, replay_append, revertedTo_path,
      revertedTo_state E hRA cs cp.Height s0 hs0]
    congr 1
    exact (replay_congr E _ (fun id hid =>
      hwf.getBlockMap_eq hev (List.mem_of_mem_take hid)) s0).symm
  · obtain ⟨done, node, rest, csk, n', -, -, -, post, hgen, -, -, -⟩ :=
      attempt_error E hb (revertedTo_blockMap E cs cp.Height)
        (revertedTo_currentBlockID E cs cp hcp) hrun
    obtain ⟨hmap2, -, -, -⟩ := generateAndApplyDiff_fail hgen
    have hev : MapEvolves cs r.cs :=
      ((MapEvolves.of_eq (revertedTo_blockMap E cs cp.Height)).trans post.evolves).trans
        (MapEvolves.of_eq (by rw [hmap, hmap2]))
    exact ⟨hwf.preserved_of_evolves hev hpath hstate, hhl.evolves hev, hev⟩

/-- The invocations added to the log by a returning call of `forkBlockchain`
on a stored target: the generator is invoked on blocks whose stored diffs were
not generated before the call, never twice on a block it accepted, and a block
it accepted is stored with its diffs generated after the call. -/
theorem forkBlockchain_calls [DecidableEq H] (E : Externals σ D ε H)
    (hRA : RevertUndoesApply E) {cs : ConsensusSet σ D} (hwf : WellFormed E cs)
    {newNode : processedBlock D} (hst : Stored cs newNode)
    {fuel : Nat} {r : ForkResult σ D ε} (h : forkBlockchain E fuel cs newNode = .ok r) :
    ∃ new, r.cs.calls = cs.calls ++ new ∧ GeneratedOnce new ∧
      (∀ id ok, Call.generate id ok ∈ new →
        ∃ b, getBlockMap cs id = some b ∧ b.DiffsGenerated = false) ∧
      (∀ id, Call.generate id true ∈ new →
        ∃ b, getBlockMap r.cs id = some b ∧ b.DiffsGenerated = true) := by
  obtain ⟨cp, branch, -, hb, hcase⟩ := forkBlockchain_cases E hRA hwf h
  obtain ⟨cp', branch', heq, hcp, -, -, -⟩ := hb.shape
  cases heq
  have hstall := hb.stored hst
  have hndall := hb.nodup hst
  simp only [List.map_cons, List.nodup_cons] at hndall
  rcases hcase with ⟨-, -, hrun⟩ | ⟨e, cs2, applied, -, -, -, hrun, -, -, hmap, hcalls⟩
  · have post := attempt_clean E hst hb hrun
    refine ⟨revertCalls (cs.path.drop (cp.Height + 1)).reverse ++ applyCalls branch, ?_, ?_,
      ?_, ?_⟩
    · rw [post.calls, ← List.append_assoc]; rfl
    · rw [generatedOnce_append]
      exact ⟨generatedOnce_of_no_generate _ (not_generate_mem_revertCalls _),
        generatedOnce_applyCalls branch hndall.2,
        fun id hmem => absurd hmem (not_generate_mem_revertCalls _ _ _)⟩
    · intro id ok hmem
      rcases List.mem_append.mp hmem with hm | hm
      · exact absurd hm (not_generate_mem_revertCalls _ _ _)
      · obtain ⟨-, b, hbm, hid, hg⟩ := generate_mem_applyCalls.mp hm
        exact ⟨b, by rw [← hid]; exact hstall b (List.mem_cons_of_mem _ hbm), hg⟩
    · intro id hmem
      rcases List.mem_append.mp hmem with hm | hm
      · exact absurd hm (not_generate_mem_revertCalls _ _ _)
      · obtain ⟨-, b, hbm, hid, -⟩ := generate_mem_applyCalls.mp hm
        have : id ∈ r.appliedNodes.map (fun b => b.ID) := by
          rw [post.ids]; exact List.mem_map.mpr ⟨b, hbm, hid⟩
        obtain ⟨b', hb', hid'⟩ := List.mem_map.mp this
        obtain ⟨hs', hg'⟩ := post.stored b' hb'
        exact ⟨b', by rw [← hid']; exact hs', hg'⟩
  · obtain ⟨done, node, rest, csk, n', hbr, hng, -, post, hgen, -, -, -⟩ :=
      attempt_error E hb (revertedTo_blockMap E cs cp.Height)
        (revertedTo_currentBlockID E cs cp hcp) hrun
    obtain ⟨hmap2, -, -, l, hcalls2, hl⟩ := generateAndApplyDiff_fail hgen
    have hnd : ((done ++ node :: rest).map (fun b => b.ID)).Nodup := hbr ▸ hndall.2
    rw [List.map_append, List.nodup_append] at hnd
    obtain ⟨hnd1, hnd2, hdisj⟩ := hnd
    have hgenall : ∀ b ∈ blocksOf cs (cs.path.drop (cp.Height + 1)),
        b.DiffsGenerated = true := by
      intro b hbm
      obtain ⟨hid, hbs⟩ := mem_blocksOf hbm
      obtain ⟨k, hk⟩ := List.mem_iff_getElem?.mp (List.mem_of_mem_drop hid)
      obtain ⟨b', hb', -, hg', -⟩ := hwf.onPath k _ hk
      rw [hbs] at hb'; cases hb'; exact hg'
    have hnogen : ∀ id ok, Call.generate id ok ∉
        l ++ revertCalls (cs2.path.drop (cp.Height + 1)).reverse ++
          applyCalls (blocksOf cs (cs.path.drop (cp.Height + 1))) := by
      intro id ok hmem
      rcases List.mem_append.mp hmem with hm | hm
      · rcases List.mem_append.mp hm with hm | hm
        · have := hl _ hm; cases this
        · exact absurd hm (not_generate_mem_revertCalls _ _ _)
      · obtain ⟨-, b, hbm, -, hg⟩ := generate_mem_applyCalls.mp hm
        rw [hgenall b hbm] at hg; cases hg
    refine ⟨revertCalls (cs.path.drop (cp.Height + 1)).reverse ++ (applyCalls done ++
      (Call.generate node.ID false :: (l ++ revertCalls (cs2.path.drop (cp.Height + 1)).reverse ++
        applyCalls (blocksOf cs (cs.path.drop (cp.Height + 1)))))), ?_, ?_, ?_, ?_⟩
    · rw [hcalls, hcalls2, post.calls]
      show (((cs.calls ++ _) ++ _) ++ _) ++ _ ++ _ = _
      simp only [List.append_assoc, List.cons_append]
    · rw [generatedOnce_append, generatedOnce_append]
      refine ⟨generatedOnce_of_no_generate _ (not_generate_mem_revertCalls _),
        ⟨generatedOnce_applyCalls done hnd1, ?_, ?_⟩,
        fun id hmem => absurd hmem (not_generate_mem_revertCalls _ _ _)⟩
      · exact ⟨(fun id hc => by cases hc), generatedOnce_of_no_generate _ hnogen⟩
      · intro id hmem ok hmem'
        obtain ⟨-, b, hbm, hid, -⟩ := generate_mem_applyCalls.mp hmem
        rcases List.mem_cons.mp hmem' with hm | hm
        · cases hm
          exact hdisj (List.mem_map.mpr ⟨b, hbm, hid⟩) (by simp)
        · exact hnogen _ _ hm
    · intro id ok hmem
      rcases List.mem_append.mp hmem with hm | hm
      · exact absurd hm (not_generate_mem_revertCalls _ _ _)
      · rcases List.mem_append.mp hm with hm | hm
        · obtain ⟨-, b, hbm, hid, hg⟩ := generate_mem_applyCalls.mp hm
          exact ⟨b, by rw [← hid]; exact hstall b (by rw [hbr]; simp [hbm]), hg⟩
        · rcases List.mem_cons.mp hm with hm | hm
          · cases hm
            exact ⟨node, hstall node (by rw [hbr]; simp), hng⟩
          · exact absurd hm (hnogen _ _)
    · intro id hmem
      rcases List.mem_append.mp hmem with hm | hm
      · exact absurd hm (not_generate_mem_revertCalls _ _ _)
      · rcases List.mem_append.mp hm with hm | hm
        · obtain ⟨-, b, hbm, hid, -⟩ := generate_mem_applyCalls.mp hm
          have : id ∈ applied.map (fun b => b.ID) := by
            rw [post.ids]; exact List.mem_map.mpr ⟨b, hbm, hid⟩
          obtain ⟨b', hb', hid'⟩ := List.mem_map.mp this
          obtain ⟨hs', hg'⟩ := post.stored b' hb'
          refine ⟨b', ?_, hg'⟩
          rw [getBlockMap_congr (hmap.trans hmap2), ← hid']; exact hs'
        · rcases List.mem_cons.mp hm with hm | hm
          · cases hm
          · exact absurd hm (hnogen _ _)

/-! ## The example instance -/

theorem exampleExternals_revertUndoesApply (debug : Bool) :
    RevertUndoesApply (exampleExternals debug) := by
  intro d s
  simp [exampleExternals]

theorem exampleSet_heightsLinked : HeightsLinked exampleSet :=
  heightsLinked_of_forall (by decide)

theorem exampleSet_wellFormed (debug : Bool) : WellFormed (exampleExternals debug) exampleSet where
  nonempty := by simp [exampleSet]
  onPath := by
    intro h id hh
    match h, hh with
    | 0, hh =>
      cases hh
      exact ⟨exampleBlock 1 0 0 true, rfl, rfl, rfl, by simp⟩
    | 1, hh =>
      cases hh
      exact ⟨exampleBlock 2 1 1 true, rfl, rfl, rfl, fun _ => rfl⟩
    | 2, hh =>
      cases hh
      exact ⟨exampleBlock 3 2 2 true, rfl, rfl, rfl, fun _ => rfl⟩
    | n + 3, hh => simp [getPath, exampleSet] at hh
  agrees := ⟨0, rfl⟩

/-! ## Claims -/

/-- C1 (fork atomicity): on a well-formed consensus set, when Revert undoes
Apply, a call of `forkBlockchain` that returns a non-nil error leaves the
current tip, the whole current path and the consensus state (hence
`consensusSetHash`) equal to their values before the call. -/
theorem forkBlockchain_atomic [DecidableEq H] (E : Externals σ D ε H)
    (hRA : RevertUndoesApply E) (cs : ConsensusSet σ D) (hwf : WellFormed E cs)
    (newNode : processedBlock D) (fuel : Nat) (r : ForkResult σ D ε) (e : Error ε)
    (h : forkBlockchain E fuel cs newNode = .ok r) (he : r.err = some e) :
    currentBlockID r.cs = currentBlockID cs ∧ r.cs.path = cs.path ∧
      r.cs.state = cs.state ∧ consensusSetHash E r.cs = consensusSetHash E cs := by
  obtain ⟨cp, branch, -, -, hcase⟩ := forkBlockchain_cases E hRA hwf h
  rcases hcase with ⟨hnone, -⟩ | ⟨e', cs2, applied, -, -, -, -, hpath, hstate, -⟩
  · rw [hnone] at he; cases he
  · refine ⟨?_, hpath, hstate, ?_⟩
    · rw [currentBlockID_eq_getLast?, currentBlockID_eq_getLast?, hpath]
    · unfold consensusSetHash; rw [hstate]

theorem forkBlockchain_atomic_witness :
    ∃ r, forkBlockchain (exampleExternals true) 10 exampleSet (exampleBlock 100 4 3 false) =
        .ok r ∧ r.err = some (.invalidBlock 7) ∧
      currentBlockID r.cs = some 3 ∧ r.cs.path = [1, 2, 3] ∧ r.cs.state = 6 ∧
      consensusSetHash (exampleExternals true) r.cs = 6 :=
  ⟨_, rfl, rfl,
    forkBlockchain_atomic (exampleExternals true) (exampleExternals_revertUndoesApply true)
      exampleSet (exampleSet_wellFormed true) (exampleBlock 100 4 3 false) 10 _
      (.invalidBlock 7) rfl rfl⟩

/-- C2 (fork success postcondition): on a consensus set that satisfies the path
invariants and the height invariant of the data model, for a stored target
`newNode`, a call of `forkBlockchain` that returns a nil error leaves `newNode`
as the current tip (`currentBlockID` is its id, `height` is its height) and, at
every height `k ≤ newNode.Height`, the current path holds the ancestor of
`newNode` at that height. -/
theorem forkBlockchain_success_tip [DecidableEq H] (E : Externals σ D ε H)
    (cs : ConsensusSet σ D) (hwf : PathWellFormed cs) (hhl : HeightsLinked cs)
    (newNode : processedBlock D) (hst : Stored cs newNode) (fuel : Nat)
    (r : ForkResult σ D ε) (h : forkBlockchain E fuel cs newNode = .ok r)
    (hnil : r.err = none) :
    currentBlockID r.cs = some newNode.ID ∧ height r.cs = newNode.Height ∧
      ∀ k, k ≤ newNode.Height →
        ∃ a, ancestor r.cs (newNode.Height - k) newNode = some a ∧
          getPath r.cs k = some a.ID := by
  obtain ⟨cp, branch, -, hb, -, hrun⟩ := forkBlockchain_returns_nil E hwf h hnil
  have post := attempt_clean E hst hb hrun
  have hwf2 := attempt_clean_pathWellFormed E hwf hhl hst hb hrun
  obtain ⟨cp', branch', heq, hcp, -, -, hlast⟩ := hb.shape
  cases heq
  -- the tip
  have htip : currentBlockID r.cs = some newNode.ID := by
    rcases List.eq_nil_or_concat branch with hnil' | ⟨bs, x, hx⟩
    · subst hnil'
      simp only [List.getLast?_singleton, Option.some.injEq] at hlast
      subst hlast
      rw [currentBlockID_eq_getLast?, post.path]
      simpa using revertedTo_currentBlockID E cs cp hcp ▸ (currentBlockID_eq_getLast? _).symm
    · rw [List.concat_eq_append] at hx
      subst hx
      rw [← List.cons_append, List.getLast?_concat] at hlast
      cases hlast
      refine currentBlockID_append _ ((revertedTo E cs cp.Height).path ++ bs.map (fun b => b.ID))
        _ ?_
      rw [post.path]; simp
  -- its record
  obtain ⟨b', hb', hpb', hhb', -⟩ := hwf2.tip
  have hev : MapEvolves cs r.cs :=
    (MapEvolves.of_eq (revertedTo_blockMap E cs cp.Height)).trans post.evolves
  obtain ⟨b'', hb'', hpar'', hh'', -⟩ := hev.1 _ _ hst
  have hbeq : b' = b'' := by
    have : currentProcessedBlock r.cs = some b'' := by
      simp [currentProcessedBlock, htip, hb'']
    rw [hb'] at this
    exact Option.some.inj this
  subst hbeq
  have hheight : height r.cs = newNode.Height := by rw [← hhb', hh'']
  have hon : getPath r.cs newNode.Height = some newNode.ID := by
    rw [← hheight]; exact htip
  refine ⟨htip, hheight, fun k hk => ?_⟩
  obtain ⟨a, ha, hga⟩ := ancestor_on_path hwf2 (newNode.Height - k) newNode hon
    (fun h0 => by
      obtain ⟨b1, hb1, -, -, hp1⟩ := hwf2.onPath _ _ hon
      rw [hb''] at hb1
      cases hb1
      rw [← hpar'']; exact hp1 h0)
    (by omega)
  refine ⟨a, ha, ?_⟩
  have : newNode.Height - (newNode.Height - k) = k := by omega
  rw [this] at hga
  exact hga

theorem forkBlockchain_success_tip_witness :
    ∃ r, forkBlockchain (exampleExternals true) 10 exampleSet (exampleBlock 5 4 3 false) =
        .ok r ∧ r.err = none ∧ r.cs.path = [1, 2, 4, 5] ∧
      (currentBlockID r.cs = some 5 ∧ height r.cs = 3 ∧
        ∀ k, k ≤ 3 →
          ∃ a, ancestor r.cs (3 - k) (exampleBlock 5 4 3 false) = some a ∧
            getPath r.cs k = some a.ID) :=
  ⟨_, rfl, rfl, rfl,
    forkBlockchain_success_tip (exampleExternals true) exampleSet
      (exampleSet_wellFormed true).toPathWellFormed exampleSet_heightsLinked
      (exampleBlock 5 4 3 false) rfl 10 _ rfl rfl⟩

/-- C3 (returned sequences of a successful fork): when `forkBlockchain` returns
a nil error, `revertedNodes` holds the stored blocks of the old current path
strictly above the common parent, old tip first, and `appliedNodes` holds the
blocks of the branch of `newNode` strictly above the common parent in ascending
order; their lengths are `oldTipHeight - commonParent.Height` and
`newNode.Height - commonParent.Height`. -/
theorem forkBlockchain_returned_sequences [DecidableEq H] (E : Externals σ D ε H)
    (cs : ConsensusSet σ D) (hwf : PathWellFormed cs) (hhl : HeightsLinked cs)
    (newNode : processedBlock D) (hst : Stored cs newNode) (fuel : Nat)
    (r : ForkResult σ D ε) (h : forkBlockchain E fuel cs newNode = .ok r)
    (hnil : r.err = none) :
    ∃ cp branch, backtrackToCurrentPath fuel cs newNode = .ok (cp :: branch) ∧
      r.revertedNodes = blocksOf cs (cs.path.drop (cp.Height + 1)).reverse ∧
      r.revertedNodes.map (fun b => b.ID) = (cs.path.drop (cp.Height + 1)).reverse ∧
      r.appliedNodes.map (fun b => b.ID) = branch.map (fun b => b.ID) ∧
      (cp :: branch).getLast? = some newNode ∧
      r.revertedNodes.length = height cs - cp.Height ∧
      r.appliedNodes.length = newNode.Height - cp.Height := by
  obtain ⟨cp, branch, hbt, hb, hrev, hrun⟩ := forkBlockchain_returns_nil E hwf h hnil
  have post := attempt_clean E hst hb hrun
  obtain ⟨cp', branch', heq, hcp, -, -, hlast⟩ := hb.shape
  cases heq
  obtain ⟨cp', branch', heq, -, hheight⟩ := hb.heights hhl hst
  cases heq
  have hlt : cp.Height < cs.path.length :=
    (List.getElem?_eq_some_iff.mp ((onCurrentPath_iff cs cp).mp hcp).2).1
  have hids : r.revertedNodes.map (fun b => b.ID) = (cs.path.drop (cp.Height + 1)).reverse := by
    rw [hrev]
    exact blocksOf_ids cs _ (fun id hid => hwf.path_stored (cp.Height + 1) id
      (List.mem_reverse.mp hid))
  refine ⟨cp, branch, hbt, hrev, hids, post.ids, hlast, ?_, ?_⟩
  · have := congrArg List.length hids
    simp only [List.length_map, List.length_reverse, List.length_drop] at this
    rw [this]; unfold height; omega
  · have := congrArg List.length post.ids
    simp only [List.length_map] at this
    rw [this, hheight]; omega

theorem forkBlockchain_returned_sequences_witness :
    ∃ r, forkBlockchain (exampleExternals true) 10 exampleSet (exampleBlock 5 4 3 false) =
        .ok r ∧ r.err = none ∧
      r.revertedNodes.map (fun b => b.ID) = [3] ∧
      r.appliedNodes.map (fun b => b.ID) = [4, 5] ∧
      ∃ cp branch, backtrackToCurrentPath 10 exampleSet (exampleBlock 5 4 3 false) =
          .ok (cp :: branch) ∧
        r.revertedNodes = blocksOf exampleSet (exampleSet.path.drop (cp.Height + 1)).reverse ∧
        r.revertedNodes.map (fun b => b.ID) = (exampleSet.path.drop (cp.Height + 1)).reverse ∧
        r.appliedNodes.map (fun b => b.ID) = branch.map (fun b => b.ID) ∧
        (cp :: branch).getLast? = some (exampleBlock 5 4 3 false) ∧
        r.revertedNodes.length = height exampleSet - cp.Height ∧
        r.appliedNodes.length = (exampleBlock 5 4 3 false).Height - cp.Height :=
  ⟨_, rfl, rfl, rfl, rfl,
    forkBlockchain_returned_sequences (exampleExternals true) exampleSet
      (exampleSet_wellFormed true).toPathWellFormed exampleSet_heightsLinked
      (exampleBlock 5 4 3 false) rfl 10 _ rfl rfl⟩

/-- The blocks of a backtrack list in front of a given block of the branch are
stored, have distinct ids and are linked to the common parent. -/
theorem Backtrack.front {cs : ConsensusSet σ D} {pb cp node : processedBlock D}
    {done rest : List (processedBlock D)}
    (hb : Backtrack cs pb (cp :: (done ++ node :: rest))) :
    Stored cs cp ∧ (∀ b ∈ done, Stored cs b) ∧ ((cp :: done).map (fun b => b.ID)).Nodup ∧
      Linked cp.ID done := by
  obtain ⟨cp', branch', heq, -, -, hlink, -⟩ := hb.shape
  cases heq
  obtain ⟨hst, hnd⟩ := hb.dropLast
  have hdl : (cp :: (done ++ node :: rest)).dropLast =
      (cp :: done) ++ (node :: rest).dropLast := by
    rw [← List.cons_append, List.dropLast_append_of_ne_nil _ (by simp)]
  rw [hdl] at hst hnd
  rw [List.map_append] at hnd
  exact ⟨hst cp (by simp), fun b hb' => hst b (by simp [hb']), (List.nodup_append.mp hnd).1,
    linked_append_left _ _ _ hlink⟩

/-- C4 (error exactly on an invalid block): on a well-formed consensus set,
with Revert undoing Apply and enough fuel, `forkBlockchain` returns, and it
returns the error `e` if and only if, processing the branch above the common
parent in ascending order, a clean run over the blocks `done` is followed by a
block on which `generateAndApplyDiff` returns `e`; the returned error is that
error, both returned slices are then nil, and otherwise the error is nil. -/
theorem forkBlockchain_error_iff [DecidableEq H] (E : Externals σ D ε H)
    (hRA : RevertUndoesApply E) (cs : ConsensusSet σ D) (hwf : WellFormed E cs)
    (newNode : processedBlock D) (n : Nat) (hreach : ReachesPath cs n newNode)
    (fuel : Nat) (hf1 : n < fuel) (hf2 : cs.path.length ≤ fuel) :
    ∃ r cp branch, forkBlockchain E fuel cs newNode = .ok r ∧
      backtrackToCurrentPath fuel cs newNode = .ok (cp :: branch) ∧
      (∀ e, r.err = some e ↔
        ∃ done node rest csk applied csf nf, branch = done ++ node :: rest ∧
          applyLoop E done (revertedTo E cs cp.Height) [] = .ok (csk, applied, none) ∧
          node.DiffsGenerated = false ∧
          generateAndApplyDiff E csk node = (csf, nf, some e)) ∧
      (r.err ≠ none → r.revertedNodes = [] ∧ r.appliedNodes = []) := by
  obtain ⟨r, h⟩ := forkBlockchain_total E hRA cs hwf newNode n hreach fuel hf1 hf2
  obtain ⟨cp, branch, hbt, hb, hcase⟩ := forkBlockchain_cases E hRA hwf h
  refine ⟨r, cp, branch, h, hbt, fun e => ⟨fun he => ?_, fun hdec => ?_⟩, fun hne => ?_⟩
  · rcases hcase with ⟨hnone, -⟩ | ⟨e', cs2, applied, he', -, -, hrun, -⟩
    · rw [hnone] at he; cases he
    · rw [he'] at he
      cases he
      obtain ⟨done, node, rest, csk, n', h1, h2, h3, h4⟩ :=
        applyLoop_error E branch _ cs2 [] applied e hrun
      exact ⟨done, node, rest, csk, applied, cs2, n', h1, h2, h3, h4⟩
  · obtain ⟨done, node, rest, csk, applied, csf, nf, h1, h2, h3, h4⟩ := hdec
    have hrun' : applyLoop E branch (revertedTo E cs cp.Height) [] =
        .ok (csf, applied, some e) := by
      rw [h1, applyLoop_append E done (node :: rest) _ csk [] applied h2,
        applyLoop_cons_generate E csk node rest applied h3, h4]
    rcases hcase with ⟨-, -, hrun⟩ | ⟨e', cs2, applied', he', -, -, hrun, -⟩
    · rw [hrun'] at hrun; cases hrun
    · rw [hrun'] at hrun
      cases hrun
      exact he'
  · rcases hcase with ⟨hnone, -⟩ | ⟨e', cs2, applied, -, h1, h2, -⟩
    · exact absurd hnone hne
    · exact ⟨h1, h2⟩

theorem forkBlockchain_error_iff_witness :
    ∃ r cp branch,
      forkBlockchain (exampleExternals true) 10 exampleSet (exampleBlock 100 4 3 false) =
        .ok r ∧
      backtrackToCurrentPath 10 exampleSet (exampleBlock 100 4 3 false) = .ok (cp :: branch) ∧
      (∀ e, r.err = some e ↔
        ∃ done node rest csk applied csf nf, branch = done ++ node :: rest ∧
          applyLoop (exampleExternals true) done
            (revertedTo (exampleExternals true) exampleSet cp.Height) [] =
              .ok (csk, applied, none) ∧
          node.DiffsGenerated = false ∧
          generateAndApplyDiff (exampleExternals true) csk node = (csf, nf, some e)) ∧
      (r.err ≠ none → r.revertedNodes = [] ∧ r.appliedNodes = []) :=
  forkBlockchain_error_iff (exampleExternals true) (exampleExternals_revertUndoesApply true)
    exampleSet (exampleSet_wellFormed true) (exampleBlock 100 4 3 false) 2
    ⟨exampleBlock 2 1 1 true, rfl, rfl⟩ 10 (by decide) (by decide)

/-- C5 (backtrack correctness): for a block whose ancestors are in the block
map down to the current path, `backtrackToCurrentPath` returns a list of
length at least one whose first element lies on the current path, whose last
element is the block itself, and in which every other element has the element
before it as its parent; under the height invariant of the data model, heights
increase by exactly one from each element to the next. -/
theorem backtrackToCurrentPath_correct (cs : ConsensusSet σ D) (pb : processedBlock D)
    (n : Nat) (hreach : ReachesPath cs n pb) (fuel : Nat) (hf : n < fuel) :
    ∃ cp branch, backtrackToCurrentPath fuel cs pb = .ok (cp :: branch) ∧
      1 ≤ (cp :: branch).length ∧
      (cp.Height ≤ height cs ∧ getPath cs cp.Height = some cp.ID) ∧
      (cp :: branch).getLast? = some pb ∧
      Linked cp.ID branch ∧
      (HeightsLinked cs → Stored cs pb → HeightsFrom cp.Height branch) := by
  obtain ⟨l, hl, hlen⟩ := hreach.backtrack n pb
  obtain ⟨cp, branch, heq, hcp, -, hlink, hlast⟩ := hl.shape
  subst heq
  refine ⟨cp, branch, backtrack_complete hl (by omega), by simp,
    (onCurrentPath_iff cs cp).mp hcp, hlast, hlink, fun hhl hst => ?_⟩
  obtain ⟨cp', branch', heq, hh, -⟩ := hl.heights hhl hst
  cases heq
  exact hh

theorem backtrackToCurrentPath_correct_witness :
    backtrackToCurrentPath 10 exampleSet (exampleBlock 5 4 3 false) =
        .ok [exampleBlock 2 1 1 true, exampleBlock 4 2 2 false, exampleBlock 5 4 3 false] ∧
      ∃ cp branch, backtrackToCurrentPath 10 exampleSet (exampleBlock 5 4 3 false) =
          .ok (cp :: branch) ∧
        1 ≤ (cp :: branch).length ∧
        (cp.Height ≤ height exampleSet ∧ getPath exampleSet cp.Height = some cp.ID) ∧
        (cp :: branch).getLast? = some (exampleBlock 5 4 3 false) ∧
        Linked cp.ID branch ∧ HeightsFrom cp.Height branch := by
  refine ⟨rfl, ?_⟩
  obtain ⟨cp, branch, h1, h2, h3, h4, h5, h6⟩ :=
    backtrackToCurrentPath_correct exampleSet (exampleBlock 5 4 3 false) 2
      ⟨exampleBlock 2 1 1 true, rfl, rfl⟩ 10 (by decide)
  exact ⟨cp, branch, h1, h2, h3, h4, h5, h6 exampleSet_heightsLinked rfl⟩

/-! ## The common parent is the deepest shared block -/

/-- Below a stored block of a parent-linked path, every ancestor is lower. -/
theorem ancestor_below_path {cs : ConsensusSet σ D} (hpl : PathLinked cs)
    (hroot : GenesisRoot cs) :
    ∀ (j : Nat) (c a : processedBlock D), Stored cs c → getPath cs c.Height = some c.ID →
      ancestor cs j c = some a → a.Height ≤ c.Height := by
  intro j
  induction j with
  | zero =>
    intro c a _ _ ha
    simp only [ancestor, Option.some.injEq] at ha
    subst ha; exact le_refl _
  | succ j ih =>
    intro c a hst hon ha
    simp only [ancestor] at ha
    cases hg : getBlockMap cs c.Parent with
    | none => simp [hg] at ha
    | some p =>
      rw [hg] at ha
      simp only [Option.some_bind] at ha
      obtain ⟨b, hb, hbh, hbp⟩ := hpl _ _ hon
      unfold Stored at hst
      rw [hst] at hb
      cases hb
      rcases Nat.eq_zero_or_pos c.Height with h0 | hpos
      · rw [h0] at hon
        rw [hroot _ _ hon hst] at hg
        cases hg
      · have hpp := hbp hpos
        obtain ⟨p', hp', hph, -⟩ := hpl _ _ hpp
        rw [hg] at hp'
        cases hp'
        have hpid := getBlockMap_id hg
        have := ih p a (getBlockMap_stored hg) (by rw [hph, hpid]; exact hpp) ha
        omega

/-- No ancestor-or-self of the target that lies on the current path is higher
than the head of the backtrack list. -/
theorem Backtrack.deepest {cs : ConsensusSet σ D} (hpl : PathLinked cs)
    (hroot : GenesisRoot cs) {pb : processedBlock D} {l : List (processedBlock D)}
    (h : Backtrack cs pb l) (hst : Stored cs pb) :
    ∀ cp, l.head? = some cp → ∀ k a, ancestor cs k pb = some a →
      onCurrentPath cs a = true → a.Height ≤ cp.Height := by
  induction h with
  | here hp =>
    intro cp hcp k a ha _
    simp only [List.head?_cons, Option.some.injEq] at hcp
    subst hcp
    exact ancestor_below_path hpl hroot k _ a hst ((onCurrentPath_iff cs _).mp hp).2 ha
  | @step pb p l hp hg hl ih =>
    intro cp hcp k a ha hon
    have hcp' : l.head? = some cp := by
      cases l with
      | nil => exact absurd rfl hl.ne_nil
      | cons x xs => simpa using hcp
    cases k with
    | zero =>
      simp only [ancestor, Option.some.injEq] at ha
      subst ha
      rw [hp] at hon; cases hon
    | succ k =>
      simp only [ancestor, hg, Option.some_bind] at ha
      exact ih (getBlockMap_stored hg) cp hcp' k a ha hon

/-- The head of the backtrack list is an ancestor-or-self of the target. -/
theorem Backtrack.head_ancestor {cs : ConsensusSet σ D} {pb : processedBlock D}
    {l : List (processedBlock D)} (h : Backtrack cs pb l) :
    ∀ cp, l.head? = some cp → ancestor cs (l.length - 1) pb = some cp := by
  induction h with
  | here _ =>
    intro cp hcp
    simp only [List.head?_cons, Option.some.injEq] at hcp
    subst hcp; rfl
  | @step pb p l hp hg hl ih =>
    intro cp hcp
    have hne := hl.ne_nil
    have hcp' : l.head? = some cp := by
      cases l with
      | nil => exact absurd rfl hne
      | cons x xs => simpa using hcp
    have hlen : (l ++ [pb]).length - 1 = (l.length - 1) + 1 := by
      have := List.length_pos.mpr hne
      simp; omega
    rw [hlen]
    simp only [ancestor, hg, Option.some_bind]
    exact ih cp hcp'

/-- C6 (the common parent is the deepest shared block): no element of the list
returned by `backtrackToCurrentPath` other than the first lies on the current
path; and when the current path is parent-linked (in a block tree rooted at
genesis, for a stored target) the first element lies on the current path, is
an ancestor-or-self of the target, and no ancestor-or-self of the target that
lies on the current path is higher. -/
theorem backtrack_commonParent_deepest (cs : ConsensusSet σ D) (pb cp : processedBlock D)
    (branch : List (processedBlock D)) (fuel : Nat)
    (h : backtrackToCurrentPath fuel cs pb = .ok (cp :: branch)) :
    (∀ b ∈ branch, onCurrentPath cs b = false) ∧
      (PathLinked cs → GenesisRoot cs → Stored cs pb →
        onCurrentPath cs cp = true ∧ ancestor cs branch.length pb = some cp ∧
        ∀ k a, ancestor cs k pb = some a → onCurrentPath cs a = true →
          a.Height ≤ cp.Height) := by
  obtain ⟨hb, -⟩ := backtrack_sound h
  obtain ⟨cp', branch', heq, hcp, hoff, -, -⟩ := hb.shape
  cases heq
  refine ⟨hoff, fun hpl hroot hst => ⟨hcp, ?_, hb.deepest hpl hroot hst cp rfl⟩⟩
  simpa using hb.head_ancestor cp rfl

theorem exampleSet_genesisRoot : GenesisRoot exampleSet := by
  intro id g hid hg
  cases hid
  cases hg
  rfl

theorem backtrack_commonParent_deepest_witness :
    backtrackToCurrentPath 10 exampleSet (exampleBlock 5 4 3 false) =
        .ok [exampleBlock 2 1 1 true, exampleBlock 4 2 2 false, exampleBlock 5 4 3 false] ∧
      (∀ b ∈ [exampleBlock 4 2 2 false, exampleBlock 5 4 3 false],
        onCurrentPath exampleSet b = false) ∧
      onCurrentPath exampleSet (exampleBlock 2 1 1 true) = true ∧
      ancestor exampleSet 2 (exampleBlock 5 4 3 false) = some (exampleBlock 2 1 1 true) ∧
      ∀ k a, ancestor exampleSet k (exampleBlock 5 4 3 false) = some a →
        onCurrentPath exampleSet a = true → a.Height ≤ 1 :=
  have key := backtrack_commonParent_deepest exampleSet (exampleBlock 5 4 3 false)
    (exampleBlock 2 1 1 true) [exampleBlock 4 2 2 false, exampleBlock 5 4 3 false] 10 rfl
  ⟨rfl, key.1,
    key.2 (exampleSet_wellFormed true).toPathWellFormed.linked exampleSet_genesisRoot rfl⟩

/-! ## `revertToNode` -/

/-- C7 (`revertToNode` postcondition): on a parent-linked path, for a block
`pb` of the current path, `revertToNode` terminates with `pb` as the current
tip, never reverts `pb` itself, leaves the path entries at heights up to
`pb.Height` unchanged, and returns the blocks that were on the current path
above `pb.Height`, highest first, in the order in which it reverted them. -/
theorem revertToNode_post (E : Externals σ D ε H) (cs : ConsensusSet σ D)
    (hpl : PathLinked cs) (pb : processedBlock D) (hon : onCurrentPath cs pb = true)
    (fuel : Nat) (hf : cs.path.length - pb.Height ≤ fuel) :
    ∃ cs' rev, revertToNode E fuel cs pb = .ok (cs', rev) ∧
      currentBlockID cs' = some pb.ID ∧ height cs' = pb.Height ∧
      (∀ h, h ≤ pb.Height → getPath cs' h = getPath cs h) ∧
      rev = blocksOf cs (cs.path.drop (pb.Height + 1)).reverse ∧
      rev.map (fun b => b.ID) = (cs.path.drop (pb.Height + 1)).reverse ∧
      (∀ b ∈ rev, b.ID ≠ pb.ID) ∧
      cs'.calls = cs.calls ++ revertCalls (rev.map (fun b => b.ID)) := by
  have hids : (blocksOf cs (cs.path.drop (pb.Height + 1)).reverse).map (fun b => b.ID) =
      (cs.path.drop (pb.Height + 1)).reverse :=
    blocksOf_ids cs _ (fun id hid => hpl.stored_drop (pb.Height + 1) id (List.mem_reverse.mp hid))
  refine ⟨_, _, revertToNode_linked E cs hpl pb hon fuel hf,
    revertedTo_currentBlockID E cs pb hon, height_revertedTo E cs pb hon, ?_, rfl, hids, ?_, ?_⟩
  · intro h hh
    unfold getPath
    rw [revertedTo_path, List.getElem?_take, if_pos (by omega)]
  · intro b hb hid
    have hmem : b.ID ∈ (cs.path.drop (pb.Height + 1)).reverse := by
      rw [← hids]; exact List.mem_map.mpr ⟨b, hb, rfl⟩
    rw [hid] at hmem
    exact hpl.not_mem_drop ((onCurrentPath_iff cs pb).mp hon).2 (List.mem_reverse.mp hmem)
  · rw [hids]; rfl

theorem revertToNode_post_witness :
    ∃ cs' rev, revertToNode (exampleExternals true) 10 exampleSet (exampleBlock 1 0 0 true) =
        .ok (cs', rev) ∧ cs'.path = [1] ∧ rev.map (fun b => b.ID) = [3, 2] ∧
      currentBlockID cs' = some 1 ∧ height cs' = 0 ∧
      (∀ h, h ≤ 0 → getPath cs' h = getPath exampleSet h) ∧
      rev = blocksOf exampleSet (exampleSet.path.drop 1).reverse ∧
      rev.map (fun b => b.ID) = (exampleSet.path.drop 1).reverse ∧
      (∀ b ∈ rev, b.ID ≠ 1) ∧
      cs'.calls = exampleSet.calls ++ revertCalls (rev.map (fun b => b.ID)) := by
  obtain ⟨cs', rev, h1, h2⟩ := revertToNode_post (exampleExternals true) exampleSet
    (exampleSet_wellFormed true).toPathWellFormed.linked (exampleBlock 1 0 0 true) rfl 10
    (by decide)
  have h3 : revertToNode (exampleExternals true) 10 exampleSet (exampleBlock 1 0 0 true) =
      .ok (revertedTo (exampleExternals true) exampleSet 0,
        blocksOf exampleSet (exampleSet.path.drop 1).reverse) := rfl
  rw [h3] at h1
  cases h1
  exact ⟨_, _, h3, rfl, rfl, h2⟩

/-! ## `applyUntilNode` on an invalid block -/

/-- C8 (`applyUntilNode` on an invalid block): when the blocks `done` in front
of the `k`-th block `node` of `backtrackToCurrentPath(pb)[1:]` are applied
cleanly and `generateAndApplyDiff` fails on `node`, `applyUntilNode` stops
there: it returns the blocks applied so far with the error of the generator,
the failing call changes neither the block map nor the path nor the state and
no later block is touched; when the tip was the common parent, the applied
blocks are exactly `done`, they stay committed on the path, and the tip is the
last of them (the common parent when `done` is empty). -/
theorem applyUntilNode_invalid (E : Externals σ D ε H) (cs : ConsensusSet σ D)
    (pb cp node : processedBlock D) (done rest : List (processedBlock D)) (fuel : Nat)
    (hbt : backtrackToCurrentPath fuel cs pb = .ok (cp :: (done ++ node :: rest)))
    (csk : ConsensusSet σ D) (applied : List (processedBlock D))
    (hclean : applyLoop E done cs [] = .ok (csk, applied, none))
    (hng : node.DiffsGenerated = false)
    (csf : ConsensusSet σ D) (nf : processedBlock D) (e : Error ε)
    (hgen : generateAndApplyDiff E csk node = (csf, nf, some e)) :
    applyUntilNode E fuel cs pb = .ok (csf, applied, some e) ∧
      csf.blockMap = csk.blockMap ∧ csf.path = csk.path ∧ csf.state = csk.state ∧
      (∃ l, csf.calls = csk.calls ++ Call.generate node.ID false :: l ∧
        ∀ c ∈ l, c = Call.commit node.ID .DiffApply false) ∧
      (currentBlockID cs = some cp.ID →
        applied.map (fun b => b.ID) = done.map (fun b => b.ID) ∧
        csf.path = cs.path ++ done.map (fun b => b.ID) ∧
        currentBlockID csf = ((cp :: done).getLast?).map (fun b => b.ID) ∧
        csk.calls = cs.calls ++ applyCalls done) := by
  obtain ⟨hb, -⟩ := backtrack_sound hbt
  obtain ⟨hmapf, hpathf, hstatef, hcallsf⟩ := generateAndApplyDiff_fail hgen
  refine ⟨?_, hmapf, hpathf, hstatef, hcallsf, fun htip => ?_⟩
  · unfold applyUntilNode
    rw [hbt]
    show applyLoop E (done ++ node :: rest) cs [] = _
    rw [applyLoop_append E done (node :: rest) cs csk [] applied hclean,
      applyLoop_cons_generate E csk node rest applied hng, hgen]
  · obtain ⟨hstcp, hstd, hnd, hlink⟩ := hb.front
    simp only [List.map_cons, List.nodup_cons] at hnd
    obtain ⟨appl', ha, post⟩ := applyLoop_clean E done cs csk [] applied cp.ID hclean htip
      hlink hstd hnd.2
    simp only [List.nil_append] at ha
    subst ha
    refine ⟨post.ids, by rw [hpathf, post.path], ?_, post.calls⟩
    rw [currentBlockID_eq_getLast?, hpathf, post.path]
    rcases List.eq_nil_or_concat done with hnil | ⟨bs, x, hx⟩
    · subst hnil
      rw [currentBlockID_eq_getLast?] at htip
      simpa using htip
    · rw [List.concat_eq_append] at hx
      subst hx
      rw [← List.cons_append, List.getLast?_concat, List.map_append, ← List.append_assoc]
      simp

theorem applyUntilNode_invalid_witness :
    ∃ csf applied,
      applyUntilNode (exampleExternals true) 10
          (revertedTo (exampleExternals true) exampleSet 1) (exampleBlock 100 4 3 false) =
        .ok (csf, applied, some (.invalidBlock 7)) ∧
      applied.map (fun b => b.ID) = [4] ∧ csf.path = [1, 2, 4] ∧
      currentBlockID csf = some 4 := by
  have key := applyUntilNode_invalid (exampleExternals true)
    (revertedTo (exampleExternals true) exampleSet 1) (exampleBlock 100 4 3 false)
    (exampleBlock 2 1 1 true) (exampleBlock 100 4 3 false) [exampleBlock 4 2 2 false] [] 10
    rfl _ _ rfl rfl _ _ (.invalidBlock 7) rfl
  exact ⟨_, _, key.1, rfl, rfl, rfl⟩

/-! ## The ExternalRevert check -/

/-- C9, as stated, fails in a build without `build.DEBUG`: for block 4, which
is not on the current path `[1, 2, 3]`, `revertToNode` does not stop with
`errExternalRevert`; it reverts the whole path and then fails on the lookup of
the tip of the empty path. -/
theorem revertToNode_externalRevert_counterexample :
    onCurrentPath exampleSet (exampleBlock 4 2 2 false) = false ∧
      revertToNode (exampleExternals false) 10 exampleSet (exampleBlock 4 2 2 false) ≠
        .error errExternalRevert ∧
      revertToNode (exampleExternals false) 10 exampleSet (exampleBlock 4 2 2 false) =
        .error .unknownBlock := by
  refine ⟨rfl, ?_, rfl⟩
  intro h
  have h' : revertToNode (exampleExternals false) 10 exampleSet (exampleBlock 4 2 2 false) =
      .error .unknownBlock := rfl
  rw [h'] at h
  cases h

/-- The loop `revertLoopRun` returns what `revertLoop` returns, and keeps the
consensus set when the loop stops on a fault. -/
theorem revertLoop_eq_run (E : Externals σ D ε H) (pb : processedBlock D) :
    ∀ (fuel : Nat) (cs : ConsensusSet σ D) (acc : List (processedBlock D)),
      revertLoop E pb fuel cs acc =
        (revertLoopRun E pb fuel cs acc).2.map
          (fun l => ((revertLoopRun E pb fuel cs acc).1, l)) := by
  intro fuel
  induction fuel with
  | zero => intro cs acc; rfl
  | succ n ih =>
    intro cs acc
    unfold revertLoop revertLoopRun
    by_cases htip : currentBlockID cs = some pb.ID
    · simp only [htip, if_true]
      rfl
    · simp only [htip, if_false]
      cases hnode : currentProcessedBlock cs with
      | none => rfl
      | some node =>
        simp only
        by_cases hfail : E.DEBUG = true ∧
            (commitDiffSet E cs node .DiffRevert).2.isSome = true
        · simp only [hfail, and_self, if_true]
          rfl
        · simp only [hfail, if_false]
          exact ih _ _

theorem revertToNode_eq_run (E : Externals σ D ε H) (fuel : Nat) (cs : ConsensusSet σ D)
    (pb : processedBlock D) :
    revertToNode E fuel cs pb =
      (revertToNodeRun E fuel cs pb).2.map (fun l => ((revertToNodeRun E fuel cs pb).1, l)) := by
  unfold revertToNode revertToNodeRun
  split
  · rfl
  · exact revertLoop_eq_run E pb fuel cs []

/-- C9 (ExternalRevert check, amended): in a build with `build.DEBUG`, for
every block `pb` that does not lie on the current path (`pb.Height` is above
the tip height, or `path[pb.Height]` differs from the id of `pb`),
`revertToNode` panics with `errExternalRevert` and reverts no block: the
consensus set it leaves behind is the one it was given, with the same path, the
same state and no committer invocation added to the log. -/
theorem revertToNode_externalRevert (E : Externals σ D ε H) (hdebug : E.DEBUG = true)
    (cs : ConsensusSet σ D) (pb : processedBlock D)
    (hoff : height cs < pb.Height ∨ getPath cs pb.Height ≠ some pb.ID) (fuel : Nat) :
    revertToNode E fuel cs pb = .error errExternalRevert ∧
      revertToNodeRun E fuel cs pb = (cs, .error errExternalRevert) := by
  constructor
  · unfold revertToNode
    rw [if_pos ⟨hdebug, hoff⟩]
  · unfold revertToNodeRun
    rw [if_pos ⟨hdebug, hoff⟩]

theorem revertToNode_externalRevert_witness :
    (height exampleSet < (exampleBlock 4 2 2 false).Height ∨
        getPath exampleSet (exampleBlock 4 2 2 false).Height ≠
          some (exampleBlock 4 2 2 false).ID) ∧
      (revertToNodeRun (exampleExternals false) 10 exampleSet (exampleBlock 4 2 2 false)).1.path =
        [] ∧
      (revertToNode (exampleExternals true) 10 exampleSet (exampleBlock 4 2 2 false) =
          .error errExternalRevert ∧
        revertToNodeRun (exampleExternals true) 10 exampleSet (exampleBlock 4 2 2 false) =
          (exampleSet, .error errExternalRevert)) :=
  ⟨Or.inr (by decide), rfl,
    revertToNode_externalRevert (exampleExternals true) rfl exampleSet
      (exampleBlock 4 2 2 false) (Or.inr (by decide)) 10⟩

/-! ## Diff generation over a sequence of forks -/

/-- Over a sequence of `forkBlockchain` calls the consensus set stays
well-formed and the log keeps the property that the generator is never invoked
again on a block it accepted. -/
theorem forkAll_invariant [DecidableEq H] (E : Externals σ D ε H)
    (hRA : RevertUndoesApply E) (fuel : Nat) :
    ∀ (ids : List BlockID) (cs cs' : ConsensusSet σ D),
      WellFormed E cs → HeightsLinked cs → GeneratedOnce cs.calls →
      (∀ id, Call.generate id true ∈ cs.calls →
        ∃ b, getBlockMap cs id = some b ∧ b.DiffsGenerated = true) →
      forkAll E fuel cs ids = .ok cs' →
      WellFormed E cs' ∧ HeightsLinked cs' ∧ GeneratedOnce cs'.calls ∧
        (∀ id, Call.generate id true ∈ cs'.calls →
          ∃ b, getBlockMap cs' id = some b ∧ b.DiffsGenerated = true) := by
  intro ids
  induction ids with
  | nil =>
    intro cs cs' hwf hhl hgo hgen h
    simp only [forkAll, Except.ok.injEq] at h
    subst h
    exact ⟨hwf, hhl, hgo, hgen⟩
  | cons id rest ih =>
    intro cs cs' hwf hhl hgo hgen h
    unfold forkAll at h
    cases hn : getBlockMap cs id with
    | none => simp [hn] at h
    | some newNode =>
      simp only [hn] at h
      cases hf : forkBlockchain E fuel cs newNode with
      | error f => simp [hf] at h
      | ok r =>
        simp only [hf] at h
        have hst := getBlockMap_stored hn
        obtain ⟨hwf', hhl', hev⟩ := forkBlockchain_wellFormed E hRA hwf hhl hst hf
        obtain ⟨new, hcalls, hnew, hbefore, hafter⟩ := forkBlockchain_calls E hRA hwf hst hf
        refine ih r.cs cs' hwf' hhl' ?_ ?_ h
        · rw [hcalls, generatedOnce_append]
          refine ⟨hgo, hnew, fun i hmem ok hmem' => ?_⟩
          obtain ⟨b, hb, hg⟩ := hgen i hmem
          obtain ⟨b', hb', hg'⟩ := hbefore i ok hmem'
          rw [hb] at hb'
          cases hb'
          rw [hg] at hg'
          cases hg'
        · intro i hmem
          rw [hcalls] at hmem
          rcases List.mem_append.mp hmem with hm | hm
          · obtain ⟨b, hb, hg⟩ := hgen i hm
            exact ⟨b, hev.generated hb hg, hg⟩
          · exact hafter i hm

/-- C10, as stated, fails: two calls of `forkBlockchain` on the stored block
100, which the generator rejects, invoke `generateAndApplyDiff` on it twice. -/
theorem forkAll_generate_twice_counterexample :
    ∃ cs', forkAll (exampleExternals true) 10 exampleSet [100, 100] = .ok cs' ∧
      exampleSet.calls = [] ∧ generateCount 100 cs'.calls = 2 ∧
      ¬ generateCount 100 cs'.calls ≤ 1 :=
  ⟨_, rfl, rfl, rfl, by decide⟩

/-- C10 (diff generation uniqueness, amended): over every sequence of
`forkBlockchain` calls on stored blocks, starting from a well-formed consensus
set with an empty log, once `generateAndApplyDiff` has succeeded on a block it
is never invoked on that block again (only a block it rejected can be offered
to it again): every later application of the block goes through
`commitDiffSet` with the stored diffs. -/
theorem forkAll_generate_once [DecidableEq H] (E : Externals σ D ε H)
    (hRA : RevertUndoesApply E) (cs : ConsensusSet σ D) (hwf : WellFormed E cs)
    (hhl : HeightsLinked cs) (hlog : cs.calls = []) (fuel : Nat) (ids : List BlockID)
    (cs' : ConsensusSet σ D) (h : forkAll E fuel cs ids = .ok cs') :
    ∀ (l₁ l₂ : List Call) (id : BlockID) (ok : Bool),
      cs'.calls = l₁ ++ Call.generate id true :: l₂ → Call.generate id ok ∉ l₂ := by
  obtain ⟨-, -, hgo, -⟩ := forkAll_invariant E hRA fuel ids cs cs' hwf hhl
    (by rw [hlog]; trivial) (by rw [hlog]; intro id hmem; cases hmem) h
  exact fun l₁ l₂ id ok heq => hgo.split l₁ l₂ id heq ok

theorem forkAll_generate_once_witness :
    ∃ cs', forkAll (exampleExternals true) 10 exampleSet [5, 100, 3, 5] = .ok cs' ∧
      cs'.path = [1, 2, 4, 5] ∧ generateCount 4 cs'.calls = 1 ∧
      generateCount 5 cs'.calls = 1 ∧
      ∀ (l₁ l₂ : List Call) (id : BlockID) (ok : Bool),
        cs'.calls = l₁ ++ Call.generate id true :: l₂ → Call.generate id ok ∉ l₂ :=
  ⟨_, rfl, rfl, rfl, rfl,
    forkAll_generate_once (exampleExternals true) (exampleExternals_revertUndoesApply true)
      exampleSet (exampleSet_wellFormed true) exampleSet_heightsLinked rfl 10 [5, 100, 3, 5]
      _ rfl⟩

/-! ## The recovery branch, without assumptions on the diffs -/

/-- A failing generator call that was made on top of the parent of its block
was rejected by the state transition itself. -/
theorem generateAndApplyDiff_fail_child {E : Externals σ D ε H} {cs cs' : ConsensusSet σ D}
    {pb pb' : processedBlock D} {e : Error ε}
    (h : generateAndApplyDiff E cs pb = (cs', pb', some e))
    (ht : currentBlockID cs = some pb.Parent) :
    cs'.calls = cs.calls ++ [Call.generate pb.ID false] ∧
      ∃ reason, E.generate cs pb = .error reason ∧ e = .invalidBlock reason := by
  unfold generateAndApplyDiff at h
  split at h
  · rename_i reason hgen
    simp only [Prod.mk.injEq, Option.some.injEq] at h
    obtain ⟨h1, -, h3⟩ := h
    subst h1
    exact ⟨rfl, reason, hgen, h3.symm⟩
  · rename_i d hd
    simp only at h
    have hc := commitDiffSet_apply_child E
      (setBlock cs { pb with DiffsGenerated := true, DiffSet := d })
      { pb with DiffsGenerated := true, DiffSet := d } ht rfl
    rw [hc] at h
    simp at h

/-- The recovery after a failed attempt on a consensus set that satisfies the
path invariants: the blocks applied in the attempt are reverted, then the
blocks of the old path are applied again by the committer alone, without
error, and the old tip is the tip again. -/
theorem recovery_run (E : Externals σ D ε H) {cs : ConsensusSet σ D}
    (hwf : PathWellFormed cs) {newNode cp : processedBlock D}
    {branch : List (processedBlock D)} (hb : Backtrack cs newNode (cp :: branch))
    {fuel : Nat} (hf1 : branch.length < fuel) (hf2 : cs.path.length ≤ fuel)
    {cs2 : ConsensusSet σ D} {applied : List (processedBlock D)} {e : Error ε}
    (happ : applyLoop E branch (revertedTo E cs cp.Height) [] = .ok (cs2, applied, some e))
    {oldHead : processedBlock D} (hold : currentProcessedBlock cs = some oldHead) :
    ∃ cs4, revertToNode E fuel cs2 cp =
        .ok (revertedTo E cs2 cp.Height, blocksOf cs2 (cs2.path.drop (cp.Height + 1)).reverse) ∧
      applyUntilNode E fuel (revertedTo E cs2 cp.Height) oldHead =
        .ok (cs4, blocksOf cs (cs.path.drop (cp.Height + 1)), none) ∧
      cs4.path = cs.path ∧ cs4.blockMap = cs2.blockMap ∧ MapEvolves cs cs4 ∧
      cs4.calls = cs2.calls ++ revertCalls (cs2.path.drop (cp.Height + 1)).reverse ++
        applyCalls (blocksOf cs (cs.path.drop (cp.Height + 1))) ∧
      cs4.state = replay E cs4 (revertedTo E cs2 cp.Height).state
        (cs.path.drop (cp.Height + 1)) ∧
      (∀ b ∈ blocksOf cs (cs.path.drop (cp.Height + 1)), b.DiffsGenerated = true) ∧
      currentBlockID cs4 = some oldHead.ID := by
  obtain ⟨cp', branch', heq, hcp, -, -, -⟩ := hb.shape
  cases heq
  obtain ⟨hh, hpcp⟩ := (onCurrentPath_iff cs cp).mp hcp
  have hlt : cp.Height < cs.path.length := (List.getElem?_eq_some_iff.mp hpcp).1
  obtain ⟨done, node, rest, csk, n', hbr, hng, hclean, post, hgen, hstcp, hstd, hnd⟩ :=
    attempt_error E hb (revertedTo_blockMap E cs cp.Height)
      (revertedTo_currentBlockID E cs cp hcp) happ
  obtain ⟨hmap2, hpath2, hstate2, -⟩ := generateAndApplyDiff_fail hgen
  have hbaselen : (cs.path.take (cp.Height + 1)).length = cp.Height + 1 := by
    rw [List.length_take]; omega
  have hpath2' : cs2.path = cs.path.take (cp.Height + 1) ++ done.map (fun b => b.ID) := by
    rw [hpath2, post.path, revertedTo_path]
  have hdrop2 : cs2.path.drop (cp.Height + 1) = done.map (fun b => b.ID) := by
    rw [hpath2']; exact drop_append_length _ _ _ hbaselen
  have htake2 : cs2.path.take (cp.Height + 1) = cs.path.take (cp.Height + 1) := by
    rw [hpath2']; exact take_append_length _ _ _ hbaselen
  have hev2 : MapEvolves cs cs2 :=
    ((MapEvolves.of_eq (revertedTo_blockMap E cs cp.Height)).trans post.evolves).trans
      (MapEvolves.of_eq hmap2)
  have hon2 : onCurrentPath cs2 cp = true := by
    rw [onCurrentPath_iff_getPath]
    unfold getPath at hpcp ⊢
    rw [hpath2', List.getElem?_append_left (by omega), List.getElem?_take, if_pos (by omega)]
    exact hpcp
  have hrev2 := revertToNode_spec E cs2 cp hon2
    (by
      rw [hdrop2]
      simp only [List.map_cons, List.nodup_cons] at hnd
      exact hnd.1)
    (by
      rw [hdrop2]
      intro id hid
      obtain ⟨b, hbm, hbid⟩ := List.mem_map.mp hid
      obtain ⟨b', hb', -⟩ := hev2.1 b.ID b (hstd b hbm)
      rw [← hbid, hb']; rfl)
    fuel (by
      rw [hpath2', List.length_append, hbaselen, List.length_map]
      have : done.length < branch.length := by rw [hbr]; simp
      omega)
  have hpath3 : (revertedTo E cs2 cp.Height).path = cs.path.take (cp.Height + 1) := by
    rw [revertedTo_path, htake2]
  have hev3 : MapEvolves cs (revertedTo E cs2 cp.Height) :=
    hev2.trans (MapEvolves.of_eq (revertedTo_blockMap E cs2 cp.Height))
  obtain ⟨c, hst3, hcid, hback3⟩ :=
    hwf.backtrack_oldHead hev3 cp.Height hlt hpath3 hold
  have hcid' : c.ID = cp.ID := by
    rw [hpcp] at hcid; exact (Option.some.inj hcid).symm
  have hlen3 : (blocksOf cs (cs.path.drop (cp.Height + 1))).length < fuel := by
    have : (blocksOf cs (cs.path.drop (cp.Height + 1))).length ≤
        (cs.path.drop (cp.Height + 1)).length := List.length_filterMap_le _ _
    rw [List.length_drop] at this
    omega
  have happ3 := applyUntilNode_eq E hback3 hlen3
  obtain ⟨c', branch3, heq3, -, -, hlink3, -⟩ := hback3.shape
  cases heq3
  have htip3 : currentBlockID (revertedTo E cs2 cp.Height) = some c.ID := by
    rw [hcid']; exact revertedTo_currentBlockID E cs2 cp hon2
  obtain ⟨⟨cs4, appl4, err4⟩, hrun⟩ := applyLoop_total E
    (blocksOf cs (cs.path.drop (cp.Height + 1))) (revertedTo E cs2 cp.Height) [] c.ID htip3 hlink3
  have hgenall : ∀ b ∈ blocksOf cs (cs.path.drop (cp.Height + 1)), b.DiffsGenerated = true := by
    intro b hbm
    obtain ⟨hid, hbs⟩ := mem_blocksOf hbm
    obtain ⟨k, hk⟩ := List.mem_iff_getElem?.mp (List.mem_of_mem_drop hid)
    obtain ⟨b', hb', -, hg', -⟩ := hwf.onPath k _ hk
    rw [hbs] at hb'; cases hb'; exact hg'
  obtain ⟨hmap4, herr4, happl4⟩ := applyLoop_generated E _ _ cs4 [] appl4 err4 hgenall hrun
  subst herr4
  simp only [List.nil_append] at happl4
  subst happl4
  obtain ⟨appl', -, post4⟩ := applyLoop_clean E _ _ cs4 []
    (blocksOf cs (cs.path.drop (cp.Height + 1))) c.ID hrun htip3 hlink3
    (fun b hbm => hback3.stored hst3 b (List.mem_cons_of_mem _ hbm))
    (by
      have := hback3.nodup hst3
      simp only [List.map_cons, List.nodup_cons] at this
      exact this.2)
  have hids : (blocksOf cs (cs.path.drop (cp.Height + 1))).map (fun b => b.ID) =
      cs.path.drop (cp.Height + 1) := blocksOf_ids cs _ (hwf.path_stored _)
  have hpath4 : cs4.path = cs.path := by
    rw [post4.path, hpath3, hids, List.take_append_drop]
  obtain ⟨b0, hb0, hp0, -⟩ := hwf.tip
  rw [hold] at hb0
  cases hb0
  refine ⟨cs4, hrev2, by rw [happ3, hrun], hpath4, by rw [hmap4]; rfl,
    hev3.trans post4.evolves, ?_, by rw [post4.state, hids], hgenall, ?_⟩
  · rw [post4.calls]
    show (cs2.calls ++ _) ++ _ = _
    rfl
  · have hp0' := hp0
    unfold getPath height at hp0'
    unfold currentBlockID getPath height
    rw [hpath4]
    exact hp0'

/-- What a returning call of `forkBlockchain` did, for a consensus set that
satisfies the path invariants (nothing is assumed on the diffs): either it
applied the whole branch, or it stopped at a rejected block and the recovery
put the old path back. -/
theorem forkBlockchain_cases_path [DecidableEq H] (E : Externals σ D ε H)
    {cs : ConsensusSet σ D} (hwf : PathWellFormed cs)
    {newNode : processedBlock D} {fuel : Nat} {r : ForkResult σ D ε}
    (h : forkBlockchain E fuel cs newNode = .ok r) :
    ∃ cp branch, backtrackToCurrentPath fuel cs newNode = .ok (cp :: branch) ∧
      Backtrack cs newNode (cp :: branch) ∧
      ((r.err = none ∧
          r.revertedNodes = blocksOf cs (cs.path.drop (cp.Height + 1)).reverse ∧
          applyLoop E branch (revertedTo E cs cp.Height) [] =
            .ok (r.cs, r.appliedNodes, none)) ∨
       (∃ e cs2 applied, r.err = some e ∧ r.revertedNodes = [] ∧ r.appliedNodes = [] ∧
          applyLoop E branch (revertedTo E cs cp.Height) [] = .ok (cs2, applied, some e) ∧
          r.cs.path = cs.path ∧ r.cs.blockMap = cs2.blockMap ∧ MapEvolves cs r.cs ∧
          r.cs.calls = cs2.calls ++ revertCalls (cs2.path.drop (cp.Height + 1)).reverse ++
            applyCalls (blocksOf cs (cs.path.drop (cp.Height + 1))))) := by
  obtain ⟨cp, branch, hbt⟩ := forkBlockchain_backtrack E h
  obtain ⟨hb, hlen⟩ := backtrack_sound hbt
  refine ⟨cp, branch, hbt, hb, ?_⟩
  obtain ⟨cp', branch', heq, hcp, -, hlink, -⟩ := hb.shape
  cases heq
  have h' := forkBlockchain_mono E (le_max_left fuel (max (branch.length + 1) cs.path.length)) h
  have hf1 : branch.length < max fuel (max (branch.length + 1) cs.path.length) := by
    have := le_max_right fuel (max (branch.length + 1) cs.path.length)
    have := le_max_left (branch.length + 1) cs.path.length
    omega
  have hf2 : cs.path.length ≤ max fuel (max (branch.length + 1) cs.path.length) := by
    have := le_max_right fuel (max (branch.length + 1) cs.path.length)
    have := le_max_right (branch.length + 1) cs.path.length
    omega
  obtain ⟨⟨cs2, applied, err⟩, hrun⟩ := applyLoop_total E branch (revertedTo E cs cp.Height) []
    cp.ID (revertedTo_currentBlockID E cs cp hcp) hlink
  cases err with
  | none =>
    have := forkBlockchain_success E cs hwf newNode cp branch hb _ hf1 hf2 cs2 applied hrun
    rw [h'] at this
    cases this
    exact Or.inl ⟨rfl, rfl, hrun⟩
  | some e =>
    obtain ⟨oldHead, hold, -⟩ := hwf.tip
    obtain ⟨cs4, hrev2, happ3, hpath4, hmap4, hev4, hcalls4, -, -, -⟩ :=
      recovery_run E hwf hb hf1 hf2 hrun hold
    have hrev := revertToNode_wf E cs hwf cp hcp
      (max fuel (max (branch.length + 1) cs.path.length)) (by omega)
    have hb1 := hb.after_revert (revertedTo_blockMap E cs cp.Height)
      (revertedTo_path E cs cp.Height)
    have hbt' : backtrackToCurrentPath (max fuel (max (branch.length + 1) cs.path.length))
        cs newNode = .ok (cp :: branch) :=
      backtrack_complete hb (by simp only [List.length_cons]; omega)
    unfold forkBlockchain at h'
    simp only [hold, hbt', hrev, applyUntilNode_eq E hb1 hf1, hrun, hrev2, happ3] at h'
    split at h'
    · cases h'
    · split at h'
      · cases h'
      · cases h'
        exact Or.inr ⟨e, cs2, applied, rfl, rfl, rfl, hrun, hpath4, hmap4, hev4, hcalls4⟩

/-! ## The phases of a returning call -/

/-- The phases of a call of `forkBlockchain` that returns: the backtrack, the
revert, the attempt, and after a rejected block the two phases of the
recovery. -/
theorem forkBlockchain_phases [DecidableEq H] (E : Externals σ D ε H) {fuel : Nat}
    {cs : ConsensusSet σ D} {newNode : processedBlock D} {r : ForkResult σ D ε}
    (h : forkBlockchain E fuel cs newNode = .ok r) :
    ∃ oldHead cp branch cs1 rev,
      currentProcessedBlock cs = some oldHead ∧
      backtrackToCurrentPath fuel cs newNode = .ok (cp :: branch) ∧
      revertToNode E fuel cs cp = .ok (cs1, rev) ∧
      ((∃ appl, applyUntilNode E fuel cs1 newNode = .ok (r.cs, appl, none) ∧
          r.revertedNodes = rev ∧ r.appliedNodes = appl ∧ r.err = none) ∨
       (∃ cs2 appl e cs3 rev3 appl4 err4,
          applyUntilNode E fuel cs1 newNode = .ok (cs2, appl, some e) ∧
          revertToNode E fuel cs2 cp = .ok (cs3, rev3) ∧
          applyUntilNode E fuel cs3 oldHead = .ok (r.cs, appl4, err4) ∧
          r.revertedNodes = [] ∧ r.appliedNodes = [] ∧ r.err = some e ∧
          (E.DEBUG = true → err4 = none))) := by
  unfold forkBlockchain at h
  cases hc : currentProcessedBlock cs with
  | none => simp [hc] at h
  | some oldHead =>
    simp only [hc] at h
    cases hbt : backtrackToCurrentPath fuel cs newNode with
    | error f => simp [hbt] at h
    | ok l =>
      cases l with
      | nil => simp [hbt] at h
      | cons cp branch =>
        simp only [hbt] at h
        cases hr : revertToNode E fuel cs cp with
        | error f => simp [hr] at h
        | ok p1 =>
          obtain ⟨cs1, rev⟩ := p1
          simp only [hr] at h
          cases ha : applyUntilNode E fuel cs1 newNode with
          | error f => simp [ha] at h
          | ok p2 =>
            obtain ⟨cs2, appl, err⟩ := p2
            cases err with
            | none =>
              simp only [ha, Except.ok.injEq] at h
              subst h
              exact ⟨oldHead, cp, branch, cs1, rev, rfl, rfl, hr,
                Or.inl ⟨appl, ha, rfl, rfl, rfl⟩⟩
            | some e =>
              simp only [ha] at h
              cases hr2 : revertToNode E fuel cs2 cp with
              | error f => simp [hr2] at h
              | ok p3 =>
                obtain ⟨cs3, rev3⟩ := p3
                simp only [hr2] at h
                cases ha2 : applyUntilNode E fuel cs3 oldHead with
                | error f => simp [ha2] at h
                | ok p4 =>
                  obtain ⟨cs4, appl4, err4⟩ := p4
                  simp only [ha2] at h
                  split at h
                  · cases h
                  · rename_i hdbg
                    split at h
                    · cases h
                    · simp only [Except.ok.injEq] at h
                      subst h
                      refine ⟨oldHead, cp, branch, cs1, rev, rfl, rfl, hr,
                        Or.inr ⟨cs2, appl, e, cs3, rev3, appl4, err4, ha, hr2, ha2,
                          rfl, rfl, rfl, ?_⟩⟩
                      intro hd
                      cases err4 with
                      | none => rfl
                      | some e4 => exact absurd ⟨hd, rfl⟩ hdbg

/-! ## Invariants kept by every step -/

theorem MapGrows.id_grows (cs : ConsensusSet σ D) : MapGrows cs cs :=
  fun _ b h => ⟨b, h, rfl, fun x => x⟩

theorem MapGrows.of_blockMap_eq {cs cs' : ConsensusSet σ D} (h : cs'.blockMap = cs.blockMap) :
    MapGrows cs cs' :=
  fun id b hb => ⟨b, by rw [getBlockMap_congr h]; exact hb, rfl, fun x => x⟩

theorem MapGrows.then_grows {cs cs' cs'' : ConsensusSet σ D} (h1 : MapGrows cs cs')
    (h2 : MapGrows cs' cs'') : MapGrows cs cs'' := by
  intro id b hb
  obtain ⟨b', hb', hp', hg'⟩ := h1 id b hb
  obtain ⟨b'', hb'', hp'', hg''⟩ := h2 id b' hb'
  exact ⟨b'', hb'', hp''.trans hp', fun x => hg'' (hg' x)⟩

theorem Known.still_known {cs cs' : ConsensusSet σ D} {pb : processedBlock D} (hk : Known cs pb)
    (hg : MapGrows cs cs') : Known cs' pb := by
  obtain ⟨b, hb, hp, hd⟩ := hk
  obtain ⟨b', hb', hp', hd'⟩ := hg _ b hb
  exact ⟨b', hb', hp'.trans hp, fun x => hd' (hd x)⟩

theorem Known.of_getBlockMap {cs : ConsensusSet σ D} {id : BlockID} {b : processedBlock D}
    (h : getBlockMap cs id = some b) : Known cs b :=
  ⟨b, getBlockMap_stored h, rfl, fun x => x⟩

theorem Backtrack.known {cs : ConsensusSet σ D} {pb : processedBlock D}
    {l : List (processedBlock D)} (h : Backtrack cs pb l) (hk : Known cs pb) :
    ∀ b ∈ l, Known cs b := by
  induction h with
  | here _ =>
    intro b hb
    simp only [List.mem_singleton] at hb
    subst hb
    exact hk
  | step _ hp _ ih =>
    intro b hb
    rcases List.mem_append.mp hb with hb | hb
    · exact ih (Known.of_getBlockMap hp) b hb
    · simp only [List.mem_singleton] at hb
      subst hb
      exact hk

theorem getPath_isSome_iff {cs : ConsensusSet σ D} (hne : cs.path ≠ []) (h : Nat) :
    (getPath cs h).isSome = true ↔ h ≤ height cs := by
  have hpos : 0 < cs.path.length := List.length_pos.mpr hne
  unfold getPath height
  rw [Option.isSome_iff_exists]
  constructor
  · rintro ⟨a, ha⟩
    have := (List.getElem?_eq_some_iff.mp ha).1
    omega
  · intro hle
    exact ⟨_, List.getElem?_eq_getElem (by omega)⟩

theorem Contiguous.path_ne_nil {cs : ConsensusSet σ D} (hc : Contiguous cs) : cs.path ≠ [] := by
  intro hnil
  have := (hc.1 0).mpr (Nat.zero_le _)
  unfold getPath at this
  rw [hnil] at this
  simp at this

theorem Contiguous.same_path {cs cs' : ConsensusSet σ D} (hc : Contiguous cs)
    (hg : MapGrows cs cs') (hp : cs'.path = cs.path) : Contiguous cs' := by
  refine ⟨getPath_isSome_iff (by rw [hp]; exact hc.path_ne_nil), ?_⟩
  intro h id hpos hid
  have hid' : getPath cs h = some id := by unfold getPath at hid ⊢; rw [← hp]; exact hid
  obtain ⟨b, hb, hpar⟩ := hc.2 h id hpos hid'
  obtain ⟨b', hb', hp', -⟩ := hg id b hb
  refine ⟨b', hb', ?_⟩
  unfold getPath at hpar ⊢
  rw [hp, hp']
  exact hpar

theorem Contiguous.take {cs cs' : ConsensusSet σ D} (hc : Contiguous cs)
    (hmap : cs'.blockMap = cs.blockMap) (n : Nat) (hp : cs'.path = cs.path.take n)
    (hne : cs'.path ≠ []) : Contiguous cs' := by
  refine ⟨getPath_isSome_iff hne, ?_⟩
  intro h id hpos hid
  unfold getPath at hid
  rw [hp, List.getElem?_take] at hid
  split at hid
  · rename_i hlt
    obtain ⟨b, hb, hpar⟩ := hc.2 h id hpos hid
    refine ⟨b, by rw [getBlockMap_congr hmap]; exact hb, ?_⟩
    unfold getPath at hpar ⊢
    rw [hp, List.getElem?_take, if_pos (by omega)]
    exact hpar
  · cases hid

theorem Contiguous.append_child {cs cs' : ConsensusSet σ D} (hc : Contiguous cs)
    (hg : MapGrows cs cs') {node : processedBlock D} (hk : Known cs' node)
    (ht : currentBlockID cs = some node.Parent) (hp : cs'.path = cs.path ++ [node.ID]) :
    Contiguous cs' := by
  refine ⟨getPath_isSome_iff (by rw [hp]; simp), ?_⟩
  intro h id hpos hid
  have hne := hc.path_ne_nil
  have hlen : 0 < cs.path.length := List.length_pos.mpr hne
  unfold getPath at hid
  rw [hp] at hid
  by_cases hlt : h < cs.path.length
  · rw [List.getElem?_append_left hlt] at hid
    obtain ⟨b, hb, hpar⟩ := hc.2 h id hpos hid
    obtain ⟨b', hb', hp', -⟩ := hg id b hb
    refine ⟨b', hb', ?_⟩
    unfold getPath at hpar ⊢
    rw [hp, List.getElem?_append_left (by omega), hp']
    exact hpar
  · have hh : h = cs.path.length := by
      have := (List.getElem?_eq_some_iff.mp hid).1
      simp only [List.length_append, List.length_singleton] at this
      omega
    subst hh
    rw [List.getElem?_append_right (le_refl _)] at hid
    simp only [Nat.sub_self, List.getElem?_cons_zero, Option.some.injEq] at hid
    subst hid
    obtain ⟨b, hb, hpb, -⟩ := hk
    refine ⟨b, hb, ?_⟩
    unfold currentBlockID getPath height at ht
    unfold getPath
    rw [hp, List.getElem?_append_left (by omega), hpb]
    exact ht

theorem PathGenerated.sub_path {cs cs' : ConsensusSet σ D} (hc : PathGenerated cs)
    (hg : MapGrows cs cs') (hp : ∀ id, id ∈ cs'.path → id ∈ cs.path) : PathGenerated cs' := by
  intro id hid
  obtain ⟨b, hb, hd⟩ := hc id (hp id hid)
  obtain ⟨b', hb', -, hd'⟩ := hg id b hb
  exact ⟨b', hb', hd' hd⟩

theorem PathGenerated.append_generated {cs cs' : ConsensusSet σ D} (hc : PathGenerated cs)
    (hg : MapGrows cs cs') {node : processedBlock D}
    (hk : ∃ b, getBlockMap cs' node.ID = some b ∧ b.DiffsGenerated = true)
    (hp : cs'.path = cs.path ++ [node.ID]) : PathGenerated cs' := by
  intro id hid
  rw [hp] at hid
  rcases List.mem_append.mp hid with hid | hid
  · obtain ⟨b, hb, hd⟩ := hc id hid
    obtain ⟨b', hb', -, hd'⟩ := hg id b hb
    exact ⟨b', hb', hd' hd⟩
  · simp only [List.mem_singleton] at hid
    subst hid
    exact hk

theorem Keeps.id_keeps (cs : ConsensusSet σ D) : Keeps cs cs :=
  ⟨MapGrows.id_grows cs, fun h => h, fun h => h⟩

theorem Keeps.then_keeps {cs cs' cs'' : ConsensusSet σ D} (h1 : Keeps cs cs') (h2 : Keeps cs' cs'') :
    Keeps cs cs'' :=
  ⟨h1.map.then_grows h2.map, fun h => h2.contiguous (h1.contiguous h),
    fun h => h2.generated (h1.generated h)⟩

theorem Keeps.of_same {cs cs' : ConsensusSet σ D} (hmap : cs'.blockMap = cs.blockMap)
    (hp : cs'.path = cs.path) : Keeps cs cs' :=
  ⟨MapGrows.of_blockMap_eq hmap,
    fun h => h.same_path (MapGrows.of_blockMap_eq hmap) hp,
    fun h => h.sub_path (MapGrows.of_blockMap_eq hmap) (fun id hid => by rw [← hp]; exact hid)⟩

/-- The committer in Apply direction keeps the invariants, whether its
precondition holds or not. -/
theorem commitDiffSet_apply_keeps (E : Externals σ D ε H) (cs : ConsensusSet σ D)
    {node : processedBlock D} (hk : Known cs node) (hg : node.DiffsGenerated = true) :
    Keeps cs (commitDiffSet E cs node .DiffApply).1 := by
  by_cases hpre : currentBlockID cs = some node.Parent
  · rw [commitDiffSet_apply_child E cs node hpre hg]
    have hgrow : MapGrows cs
        { cs with state := E.applyDiffs node.DiffSet cs.state,
                  path := cs.path ++ [node.ID],
                  calls := cs.calls ++ [.commit node.ID .DiffApply true] } :=
      MapGrows.of_blockMap_eq rfl
    refine ⟨hgrow, fun h => h.append_child hgrow (hk.still_known hgrow) hpre rfl, fun h => ?_⟩
    obtain ⟨b, hb, -, hd⟩ := hk
    exact h.append_generated hgrow ⟨b, hb, hd hg⟩ rfl
  · have : commitDiffSet E cs node .DiffApply =
        ({ cs with calls := cs.calls ++ [.commit node.ID .DiffApply false] },
          some .inconsistent) := by
      simp [commitDiffSet, hpre]
    rw [this]
    exact Keeps.of_same rfl rfl

/-- The generator keeps the invariants, whether it rejects the block or not. -/
theorem generateAndApplyDiff_keeps (E : Externals σ D ε H) (cs : ConsensusSet σ D)
    {node : processedBlock D} (hk : Known cs node) :
    Keeps cs (generateAndApplyDiff E cs node).1 := by
  rcases hgen : generateAndApplyDiff E cs node with ⟨cs1, n1, _ | e⟩
  · obtain ⟨d, -, hn1, htip, hmap, hpath, -, -⟩ := generateAndApplyDiff_ok hgen
    obtain ⟨b0, hb0, hp0, -⟩ := hk
    have hget : ∀ id, getBlockMap cs1 id =
        if id = node.ID then (getBlockMap cs id).map (fun _ => n1) else getBlockMap cs id := by
      intro id
      rw [getBlockMap_congr hmap, getBlockMap_setBlock]
      rw [hn1]
    have hgrow : MapGrows cs cs1 := by
      intro id b hb
      rw [hget id]
      by_cases hid : id = node.ID
      · subst hid
        rw [if_pos rfl, hb]
        rw [hb0] at hb
        cases hb
        refine ⟨n1, rfl, ?_, fun _ => ?_⟩
        · rw [hn1]; exact hp0.symm
        · rw [hn1]
      · rw [if_neg hid]
        exact ⟨b, hb, rfl, fun x => x⟩
    have hn1' : getBlockMap cs1 node.ID = some n1 := by
      rw [hget, if_pos rfl, hb0]; rfl
    have hpar : n1.Parent = node.Parent := by rw [hn1]
    have hdg : n1.DiffsGenerated = true := by rw [hn1]
    exact ⟨hgrow, fun h => h.append_child hgrow ⟨n1, hn1', hpar, fun _ => hdg⟩ htip hpath,
      fun h => h.append_generated hgrow ⟨n1, hn1', hdg⟩ hpath⟩
  · obtain ⟨hmap, hpath, -, -⟩ := generateAndApplyDiff_fail hgen
    exact Keeps.of_same hmap hpath

/-- The apply loop keeps the invariants, however it ends. -/
theorem applyLoop_keeps (E : Externals σ D ε H) :
    ∀ (xs : List (processedBlock D)) (cs cs' : ConsensusSet σ D)
      (acc appl : List (processedBlock D)) (err : Option (Error ε)),
      (∀ b ∈ xs, Known cs b) → applyLoop E xs cs acc = .ok (cs', appl, err) →
      Keeps cs cs' := by
  intro xs
  induction xs with
  | nil =>
    intro cs cs' acc appl err _ h
    simp only [applyLoop, Except.ok.injEq, Prod.mk.injEq] at h
    rw [← h.1]
    exact Keeps.id_keeps cs
  | cons node rest ih =>
    intro cs cs' acc appl err hk h
    have hkn := hk node (List.mem_cons_self _ _)
    by_cases hg : node.DiffsGenerated = true
    · rw [applyLoop_cons_stored E cs node rest acc hg] at h
      split at h
      · cases h
      · have hstep := commitDiffSet_apply_keeps E cs hkn hg
        exact hstep.then_keeps (ih _ cs' _ appl err
          (fun b hb => (hk b (List.mem_cons_of_mem _ hb)).still_known hstep.map) h)
    · have hg' : node.DiffsGenerated = false := by simpa using hg
      rw [applyLoop_cons_generate E cs node rest acc hg'] at h
      have hstep := generateAndApplyDiff_keeps E cs hkn
      rcases hgen : generateAndApplyDiff E cs node with ⟨cs1, n1, _ | e⟩
      · rw [hgen] at h hstep
        simp only at h
        exact hstep.then_keeps (ih _ cs' _ appl err
          (fun b hb => (hk b (List.mem_cons_of_mem _ hb)).still_known hstep.map) h)
      · rw [hgen] at h hstep
        simp only [Except.ok.injEq, Prod.mk.injEq] at h
        rw [← h.1]
        exact hstep

theorem applyUntilNode_keeps (E : Externals σ D ε H) {fuel : Nat} {cs cs' : ConsensusSet σ D}
    {pb : processedBlock D} {appl : List (processedBlock D)} {err : Option (Error ε)}
    (hk : Known cs pb) (h : applyUntilNode E fuel cs pb = .ok (cs', appl, err)) :
    Keeps cs cs' := by
  unfold applyUntilNode at h
  cases hbt : backtrackToCurrentPath fuel cs pb with
  | error f => simp [hbt] at h
  | ok l =>
    simp only [hbt] at h
    have hall := (backtrack_sound hbt).1.known hk
    exact applyLoop_keeps E l.tail cs cs' [] appl err
      (fun b hb => hall b (List.mem_of_mem_tail hb)) h

/-- The revert loop leaves the block map alone and cuts the path down to a
prefix that ends with the block it was given. -/
theorem revertLoop_shape (E : Externals σ D ε H) (pb : processedBlock D) :
    ∀ (fuel : Nat) (cs cs' : ConsensusSet σ D) (acc rev : List (processedBlock D)),
      revertLoop E pb fuel cs acc = .ok (cs', rev) →
      cs'.blockMap = cs.blockMap ∧ (∃ n, cs'.path = cs.path.take n) ∧
        currentBlockID cs' = some pb.ID := by
  intro fuel
  induction fuel with
  | zero =>
    intro cs cs' acc rev h
    simp [revertLoop] at h
  | succ n ih =>
    intro cs cs' acc rev h
    unfold revertLoop at h
    split at h
    · rename_i htip
      simp only [Except.ok.injEq, Prod.mk.injEq] at h
      rw [← h.1]
      exact ⟨rfl, ⟨cs.path.length, (List.take_length _).symm⟩, htip⟩
    · split at h
      · cases h
      · rename_i node hnode
        split at h
        rename_i c1 err hcommit
        split at h
        · cases h
        · obtain ⟨hmap, ⟨k, hk⟩, htip⟩ := ih c1 cs' _ rev h
          have hc1 : c1 = (commitDiffSet E cs node .DiffRevert).1 := by rw [hcommit]
          have hmap1 : c1.blockMap = cs.blockMap := by
            rw [hc1]; exact commitDiffSet_blockMap E cs node _
          have hpath1 : ∃ m, c1.path = cs.path.take m := by
            rw [hc1]
            unfold commitDiffSet
            simp only
            split
            · exact ⟨cs.path.length - 1, List.dropLast_eq_take _⟩
            · exact ⟨cs.path.length, (List.take_length _).symm⟩
          obtain ⟨m, hm⟩ := hpath1
          refine ⟨hmap.trans hmap1, ⟨min k m, ?_⟩, htip⟩
          rw [hk, hm, List.take_take]

theorem revertToNode_keeps (E : Externals σ D ε H) {fuel : Nat} {cs cs' : ConsensusSet σ D}
    {pb : processedBlock D} {rev : List (processedBlock D)}
    (h : revertToNode E fuel cs pb = .ok (cs', rev)) :
    Keeps cs cs' ∧ cs'.blockMap = cs.blockMap ∧ currentBlockID cs' = some pb.ID := by
  unfold revertToNode at h
  split at h
  · cases h
  · obtain ⟨hmap, ⟨n, hn⟩, htip⟩ := revertLoop_shape E pb fuel cs cs' [] rev h
    have hne : cs'.path ≠ [] := by
      intro hnil
      rw [currentBlockID_eq_getLast?, hnil] at htip
      cases htip
    refine ⟨⟨MapGrows.of_blockMap_eq hmap, fun hc => hc.take hmap n hn hne, fun hg => ?_⟩,
      hmap, htip⟩
    exact hg.sub_path (MapGrows.of_blockMap_eq hmap)
      (fun id hid => by rw [hn] at hid; exact List.mem_of_mem_take hid)

/-- A returning call of `forkBlockchain` on a block of the block map keeps the
records of the block map, the contiguity of the current path and the
generated flags along it. -/
theorem forkBlockchain_keeps [DecidableEq H] (E : Externals σ D ε H) {fuel : Nat}
    {cs : ConsensusSet σ D} {newNode : processedBlock D} (hst : Stored cs newNode)
    {r : ForkResult σ D ε} (h : forkBlockchain E fuel cs newNode = .ok r) :
    Keeps cs r.cs := by
  obtain ⟨oldHead, cp, branch, cs1, rev, hold, -, hrev, hcase⟩ := forkBlockchain_phases E h
  have hk : Known cs newNode := Known.of_getBlockMap hst
  obtain ⟨hk1, -, -⟩ := revertToNode_keeps E hrev
  rcases hcase with ⟨appl, happ, -, -, -⟩ | ⟨cs2, appl, e, cs3, rev3, appl4, err4, happ, hrev3,
    happ4, -, -, -, -⟩
  · exact hk1.then_keeps (applyUntilNode_keeps E (hk.still_known hk1.map) happ)
  · have hk2 := applyUntilNode_keeps E (hk.still_known hk1.map) happ
    obtain ⟨hk3, -, -⟩ := revertToNode_keeps E hrev3
    have hkold : Known cs oldHead := by
      unfold currentProcessedBlock at hold
      cases hc : currentBlockID cs with
      | none => simp [hc] at hold
      | some t =>
        simp only [hc, Option.some_bind] at hold
        exact Known.of_getBlockMap hold
    have h13 := (hk1.then_keeps hk2).then_keeps hk3
    exact h13.then_keeps (applyUntilNode_keeps E (hkold.still_known h13.map) happ4)

theorem PathWellFormed.contiguous {cs : ConsensusSet σ D} (hwf : PathWellFormed cs) :
    Contiguous cs := by
  refine ⟨getPath_isSome_iff hwf.nonempty, ?_⟩
  intro h id hpos hid
  obtain ⟨b, hb, -, -, hpar⟩ := hwf.onPath h id hid
  exact ⟨b, hb, hpar hpos⟩

theorem PathWellFormed.pathGenerated {cs : ConsensusSet σ D} (hwf : PathWellFormed cs) :
    PathGenerated cs := by
  intro id hid
  obtain ⟨k, hk⟩ := List.mem_iff_getElem?.mp hid
  obtain ⟨b, hb, -, hg, -⟩ := hwf.onPath k id hk
  exact ⟨b, hb, hg⟩

/-! ## A returning call, phase by phase -/

/-- The run of a returning call of `forkBlockchain` on a consensus set that
satisfies the path invariants, with the results of its phases at the fuel of
the call: the revert to the common parent, the backtrack recomputed after it,
the attempt, and after a rejected block the recovery. -/
theorem forkBlockchain_run [DecidableEq H] (E : Externals σ D ε H)
    {cs : ConsensusSet σ D} (hwf : PathWellFormed cs)
    {newNode : processedBlock D} {fuel : Nat} {r : ForkResult σ D ε}
    (h : forkBlockchain E fuel cs newNode = .ok r) :
    ∃ oldHead cp branch, currentProcessedBlock cs = some oldHead ∧
      backtrackToCurrentPath fuel cs newNode = .ok (cp :: branch) ∧
      Backtrack cs newNode (cp :: branch) ∧
      revertToNode E fuel cs cp =
        .ok (revertedTo E cs cp.Height, blocksOf cs (cs.path.drop (cp.Height + 1)).reverse) ∧
      backtrackToCurrentPath fuel (revertedTo E cs cp.Height) newNode = .ok (cp :: branch) ∧
      applyUntilNode E fuel (revertedTo E cs cp.Height) newNode =
        applyLoop E branch (revertedTo E cs cp.Height) [] ∧
      ((r.err = none ∧
          r.revertedNodes = blocksOf cs (cs.path.drop (cp.Height + 1)).reverse ∧
          applyLoop E branch (revertedTo E cs cp.Height) [] =
            .ok (r.cs, r.appliedNodes, none)) ∨
       (∃ e cs2 applied, r.err = some e ∧ r.revertedNodes = [] ∧ r.appliedNodes = [] ∧
          applyLoop E branch (revertedTo E cs cp.Height) [] = .ok (cs2, applied, some e) ∧
          revertToNode E fuel cs2 cp =
            .ok (revertedTo E cs2 cp.Height,
              blocksOf cs2 (cs2.path.drop (cp.Height + 1)).reverse) ∧
          applyUntilNode E fuel (revertedTo E cs2 cp.Height) oldHead =
            .ok (r.cs, blocksOf cs (cs.path.drop (cp.Height + 1)), none) ∧
          r.cs.path = cs.path ∧ r.cs.blockMap = cs2.blockMap ∧ MapEvolves cs r.cs ∧
          r.cs.calls = cs2.calls ++ revertCalls (cs2.path.drop (cp.Height + 1)).reverse ++
            applyCalls (blocksOf cs (cs.path.drop (cp.Height + 1))) ∧
          (∀ b ∈ blocksOf cs (cs.path.drop (cp.Height + 1)), b.DiffsGenerated = true) ∧
          currentBlockID r.cs = some oldHead.ID)) := by
  obtain ⟨oldHead, cp, branch, cs1, rev, hold, hbt, hrev, hcase⟩ := forkBlockchain_phases E h
  obtain ⟨hb, hlen⟩ := backtrack_sound hbt
  obtain ⟨cp', branch', heq, hcp, -, hlink, -⟩ := hb.shape
  cases heq
  simp only [List.length_cons] at hlen
  have hle : fuel ≤ max fuel (max (branch.length + 1) cs.path.length) := le_max_left _ _
  have hf1 : branch.length < max fuel (max (branch.length + 1) cs.path.length) := by
    have := le_max_right fuel (max (branch.length + 1) cs.path.length)
    have := le_max_left (branch.length + 1) cs.path.length
    omega
  have hf2 : cs.path.length ≤ max fuel (max (branch.length + 1) cs.path.length) := by
    have := le_max_right fuel (max (branch.length + 1) cs.path.length)
    have := le_max_right (branch.length + 1) cs.path.length
    omega
  have hrevF := revertToNode_wf E cs hwf cp hcp
    (max fuel (max (branch.length + 1) cs.path.length)) (by omega)
  rw [revertToNode_mono E hle hrev] at hrevF
  simp only [Except.ok.injEq, Prod.mk.injEq] at hrevF
  obtain ⟨hcs1, hrevd⟩ := hrevF
  subst hcs1
  subst hrevd
  have hb1 := hb.after_revert (revertedTo_blockMap E cs cp.Height)
    (revertedTo_path E cs cp.Height)
  have hau := applyUntilNode_eq E hb1 (show branch.length < fuel by omega)
  refine ⟨oldHead, cp, branch, hold, hbt, hb, hrev,
    backtrack_complete hb1 (by simp only [List.length_cons]; omega), hau, ?_⟩
  rcases hcase with ⟨appl, happ, hr1, hr2, hr3⟩ | ⟨cs2, appl, e, cs3, rev3, appl4, err4, happ,
    hrev3, happ4, hr1, hr2, hr3, -⟩
  · rw [hau] at happ
    subst hr2
    exact Or.inl ⟨hr3, hr1, happ⟩
  · rw [hau] at happ
    obtain ⟨cs4, hrev2, happ3, hpath4, hmap4, hev4, hcalls4, -, hgen, htip4⟩ :=
      recovery_run E hwf hb hf1 hf2 happ hold
    rw [revertToNode_mono E hle hrev3] at hrev2
    simp only [Except.ok.injEq, Prod.mk.injEq] at hrev2
    obtain ⟨hcs3, hrev3'⟩ := hrev2
    subst hcs3
    subst hrev3'
    rw [applyUntilNode_mono E hle happ4] at happ3
    simp only [Except.ok.injEq, Prod.mk.injEq] at happ3
    obtain ⟨hcs4, happl4, herr4⟩ := happ3
    subst hcs4
    subst happl4
    subst herr4
    exact Or.inr ⟨e, cs2, appl, hr3, hr1, hr2, happ, hrev3, happ4, hpath4, hmap4, hev4,
      hcalls4, hgen, htip4⟩

/-! ## The log of a returning call -/

theorem linked_split (t : BlockID) (xs : List (processedBlock D)) (node : processedBlock D)
    (rest : List (processedBlock D)) (h : Linked t (xs ++ node :: rest)) :
    (t :: xs.map (fun b => b.ID)).getLast? = some node.Parent := by
  induction xs generalizing t with
  | nil =>
    simp only [List.nil_append, Linked] at h
    simp [h.1]
  | cons a l ih =>
    have := ih a.ID h.2
    simp only [List.map_cons]
    rw [List.getLast?_cons_cons]
    exact this

theorem getLast?_append_of_getLast? {p : List BlockID} {t : BlockID}
    (hp : p.getLast? = some t) (ids : List BlockID) :
    (p ++ ids).getLast? = (t :: ids).getLast? := by
  rw [show t :: ids = [t] ++ ids from rfl, List.getLast?_append, List.getLast?_append, hp]
  rfl

/-- The log of a returning call of `forkBlockchain`: the reverts of the old
path above the common parent and the applies of the branch, and after a
rejected block the reverts of what the attempt applied and the applies of the
old path. -/
theorem forkBlockchain_log [DecidableEq H] (E : Externals σ D ε H)
    {cs : ConsensusSet σ D} (hwf : PathWellFormed cs)
    {newNode : processedBlock D} (hst : Stored cs newNode) {fuel : Nat}
    {r : ForkResult σ D ε} (h : forkBlockchain E fuel cs newNode = .ok r) :
    ∃ cp branch, backtrackToCurrentPath fuel cs newNode = .ok (cp :: branch) ∧
      Backtrack cs newNode (cp :: branch) ∧
      ((r.err = none ∧
          r.cs.path = cs.path.take (cp.Height + 1) ++ branch.map (fun b => b.ID) ∧
          r.cs.calls = cs.calls ++ (revertCalls (cs.path.drop (cp.Height + 1)).reverse ++
            applyCalls branch)) ∨
       (∃ e done node rest, r.err = some e ∧ branch = done ++ node :: rest ∧
          r.cs.path = cs.path ∧
          r.cs.calls = cs.calls ++
            ((revertCalls (cs.path.drop (cp.Height + 1)).reverse ++ applyCalls done ++
                [Call.generate node.ID false]) ++
              (revertCalls (done.map (fun b => b.ID)).reverse ++
                applyCalls (blocksOf cs (cs.path.drop (cp.Height + 1))))))) := by
  obtain ⟨oldHead, cp, branch, hold, hbt, hb, -, -, -, hcase⟩ := forkBlockchain_run E hwf h
  refine ⟨cp, branch, hbt, hb, ?_⟩
  obtain ⟨cp', branch', heq, hcp, -, hlink, -⟩ := hb.shape
  cases heq
  have hlt : cp.Height < cs.path.length :=
    (List.getElem?_eq_some_iff.mp ((onCurrentPath_iff cs cp).mp hcp).2).1
  rcases hcase with ⟨hnil, -, hrun⟩ | ⟨e, cs2, applied, he, -, -, hrun, -, -, hpath, -, -,
    hcalls, -, -⟩
  · have post := attempt_clean E hst hb hrun
    refine Or.inl ⟨hnil, by rw [post.path, revertedTo_path], ?_⟩
    rw [post.calls]
    show (cs.calls ++ _) ++ _ = _
    rw [List.append_assoc]
  · obtain ⟨done, node, rest, csk, n', hbr, -, -, post, hgen, -, -, -⟩ :=
      attempt_error E hb (revertedTo_blockMap E cs cp.Height)
        (revertedTo_currentBlockID E cs cp hcp) hrun
    have htip1 := revertedTo_currentBlockID E cs cp hcp
    rw [currentBlockID_eq_getLast?] at htip1
    have htipk : currentBlockID csk = some node.Parent := by
      rw [currentBlockID_eq_getLast?, post.path, getLast?_append_of_getLast? htip1]
      rw [hbr] at hlink
      exact linked_split cp.ID done node rest hlink
    obtain ⟨hcalls2, -⟩ := generateAndApplyDiff_fail_child hgen htipk
    obtain ⟨-, hpath2, -, -⟩ := generateAndApplyDiff_fail hgen
    have hbaselen : (cs.path.take (cp.Height + 1)).length = cp.Height + 1 := by
      rw [List.length_take]; omega
    have hdrop2 : cs2.path.drop (cp.Height + 1) = done.map (fun b => b.ID) := by
      rw [hpath2, post.path, revertedTo_path]
      exact drop_append_length _ _ _ hbaselen
    refine Or.inr ⟨e, done, node, rest, he, hbr, hpath, ?_⟩
    rw [hcalls, hcalls2, post.calls, hdrop2]
    show ((((cs.calls ++ _) ++ _) ++ _) ++ _) ++ _ = _
    simp only [List.append_assoc]

/-! ## Reverts before applies -/

theorem isRevert_revertCalls (ids : List BlockID) :
    ∀ c ∈ revertCalls ids, isRevert c = true := by
  intro c hc
  obtain ⟨id, -, rfl⟩ := List.mem_map.mp hc
  rfl

theorem isRevert_applyCalls (xs : List (processedBlock D)) :
    ∀ c ∈ applyCalls xs, isRevert c = false := by
  intro c hc
  obtain ⟨b, -, hcb⟩ := List.mem_flatMap.mp hc
  unfold applyCallsOf at hcb
  split at hcb
  · simp only [List.mem_singleton] at hcb
    subst hcb; rfl
  · simp only [List.mem_cons, List.mem_singleton, List.not_mem_nil, or_false] at hcb
    rcases hcb with rfl | rfl <;> rfl

theorem revertsFirst_append (l1 l2 : List Call) (h1 : ∀ c ∈ l1, isRevert c = true)
    (h2 : ∀ c ∈ l2, isRevert c = false) : revertsFirst (l1 ++ l2) = true := by
  induction l1 with
  | nil =>
    unfold revertsFirst
    rw [List.all_eq_true]
    intro c hc
    have := h2 c ((List.dropWhile_sublist _).subset hc)
    simp [this]
  | cons c l ih =>
    have hc := h1 c (List.mem_cons_self _ _)
    have := ih (fun x hx => h1 x (List.mem_cons_of_mem _ hx))
    unfold revertsFirst at this ⊢
    rw [List.cons_append, List.dropWhile_cons_of_pos hc]
    exact this

/-! ## The preconditions of the callees, checked along the log -/

theorem checkCalls_append (cs : ConsensusSet σ D) :
    ∀ (l1 l2 : List Call) (p : List BlockID),
      checkCalls cs p (l1 ++ l2) = (checkCalls cs p l1).bind (fun q => checkCalls cs q l2) := by
  intro l1
  induction l1 with
  | nil => intro l2 p; simp [checkCalls]
  | cons c l ih =>
    intro l2 p
    cases c with
    | commit id dir ok =>
      cases dir with
      | DiffApply =>
        simp only [List.cons_append, checkCalls]
        cases getBlockMap cs id with
        | none => rfl
        | some b =>
          simp only
          split
          · exact ih _ _
          · rfl
      | DiffRevert =>
        simp only [List.cons_append, checkCalls]
        split
        · exact ih _ _
        · rfl
    | generate id ok =>
      simp only [List.cons_append, checkCalls]
      cases getBlockMap cs id with
      | none => rfl
      | some b =>
        simp only
        split
        · exact ih _ _
        · rfl

theorem checkCalls_revertCalls (cs : ConsensusSet σ D) (base : List BlockID) :
    ∀ top : List BlockID, checkCalls cs (base ++ top) (revertCalls top.reverse) = some base := by
  intro top
  induction top using List.reverseRecOn with
  | nil => simp [revertCalls, checkCalls]
  | append_singleton l x ih =>
    have hrc : revertCalls (l ++ [x]).reverse =
        Call.commit x .DiffRevert true :: revertCalls l.reverse := by
      simp [revertCalls]
    have hlast : (base ++ (l ++ [x])).getLast? = some x := by
      rw [← List.append_assoc]; simp
    have hdrop : (base ++ (l ++ [x])).dropLast = base ++ l := by
      rw [← List.append_assoc]; simp
    rw [hrc]
    simp only [checkCalls, hlast, if_true, hdrop]
    exact ih

theorem checkCalls_applyCalls (cs : ConsensusSet σ D) :
    ∀ (xs : List (processedBlock D)) (base : List BlockID) (t : BlockID),
      base.getLast? = some t → Linked t xs →
      (∀ b ∈ xs, ∃ b0, getBlockMap cs b.ID = some b0 ∧ b0.Parent = b.Parent) →
      checkCalls cs base (applyCalls xs) = some (base ++ xs.map (fun b => b.ID)) := by
  intro xs
  induction xs with
  | nil => intro base t _ _ _; simp [applyCalls, checkCalls]
  | cons b rest ih =>
    intro base t hbase hlink hpar
    obtain ⟨b0, hb0, hp0⟩ := hpar b (List.mem_cons_self _ _)
    have hlast : base.getLast? = some b0.Parent := by rw [hp0, hlink.1]; exact hbase
    have hnext := ih (base ++ [b.ID]) b.ID (by simp) hlink.2
      (fun x hx => hpar x (List.mem_cons_of_mem _ hx))
    have hcommit : checkCalls cs base (Call.commit b.ID .DiffApply true :: applyCalls rest) =
        some (base ++ (b :: rest).map (fun b => b.ID)) := by
      simp only [checkCalls, hb0, hlast, if_true]
      rw [hnext]
      simp
    rw [applyCalls_cons]
    unfold applyCallsOf
    split
    · exact hcommit
    · show checkCalls cs base (Call.generate b.ID true ::
        Call.commit b.ID .DiffApply true :: applyCalls rest) = _
      rw [checkCalls]
      simp only [hb0, hlast, if_true]
      exact hcommit

theorem checkCalls_generate (cs : ConsensusSet σ D) (p : List BlockID)
    {node b0 : processedBlock D} (ok : Bool) (hb0 : getBlockMap cs node.ID = some b0)
    (hp0 : b0.Parent = node.Parent) (hlast : p.getLast? = some node.Parent) :
    checkCalls cs p [Call.generate node.ID ok] = some p := by
  simp [checkCalls, hb0, hp0, hlast]

theorem PathWellFormed.linked_top {cs : ConsensusSet σ D} (hwf : PathWellFormed cs)
    {h : Nat} {id : BlockID} (hid : getPath cs h = some id) :
    Linked id (blocksOf cs (cs.path.drop (h + 1))) := by
  have hlt : h < cs.path.length := (List.getElem?_eq_some_iff.mp hid).1
  obtain ⟨oldHead, hold, -⟩ := hwf.tip
  have hev : MapEvolves cs { cs with path := cs.path.take (h + 1) } := MapEvolves.of_eq rfl
  obtain ⟨c, -, hcid, hback⟩ := hwf.backtrack_oldHead hev h hlt rfl hold
  obtain ⟨c', branch, heq, -, -, hlink, -⟩ := hback.shape
  cases heq
  rw [hid] at hcid
  cases hcid
  exact hlink

/-- Along the log of a returning call every callee finds its precondition:
replaying the log from the path before the call passes every check and ends at
the path after the call, and no committer invocation fails. -/
theorem forkBlockchain_checkCalls [DecidableEq H] (E : Externals σ D ε H)
    {cs : ConsensusSet σ D} (hwf : PathWellFormed cs)
    {newNode : processedBlock D} (hst : Stored cs newNode) {fuel : Nat}
    {r : ForkResult σ D ε} (h : forkBlockchain E fuel cs newNode = .ok r) :
    ∃ new, r.cs.calls = cs.calls ++ new ∧ checkCalls cs cs.path new = some r.cs.path ∧
      ∀ id dir, Call.commit id dir false ∉ new := by
  obtain ⟨cp, branch, -, hb, hcase⟩ := forkBlockchain_log E hwf hst h
  obtain ⟨cp', branch', heq, hcp, -, hlink, -⟩ := hb.shape
  cases heq
  have hgp := ((onCurrentPath_iff cs cp).mp hcp).2
  have hbase : (cs.path.take (cp.Height + 1)).getLast? = some cp.ID :=
    getLast?_take_succ _ _ _ hgp
  have hsplit : cs.path = cs.path.take (cp.Height + 1) ++ cs.path.drop (cp.Height + 1) :=
    (List.take_append_drop _ _).symm
  have hrevert : checkCalls cs cs.path (revertCalls (cs.path.drop (cp.Height + 1)).reverse) =
      some (cs.path.take (cp.Height + 1)) := by
    have := checkCalls_revertCalls cs (cs.path.take (cp.Height + 1))
      (cs.path.drop (cp.Height + 1))
    rw [← hsplit] at this
    exact this
  have hstored := hb.stored hst
  have hparent : ∀ b ∈ branch, ∃ b0, getBlockMap cs b.ID = some b0 ∧ b0.Parent = b.Parent :=
    fun b hbm => ⟨b, hstored b (List.mem_cons_of_mem _ hbm), rfl⟩
  have hnr : ∀ ids id dir, Call.commit id dir false ∉ revertCalls ids := by
    intro ids id dir hc
    obtain ⟨x, -, hx⟩ := List.mem_map.mp hc
    cases hx
  have hna : ∀ (xs : List (processedBlock D)) id dir,
      Call.commit id dir false ∉ applyCalls xs := by
    intro xs id dir hc
    obtain ⟨b, -, hcb⟩ := List.mem_flatMap.mp hc
    unfold applyCallsOf at hcb
    split at hcb
    · simp only [List.mem_singleton] at hcb
      cases hcb
    · simp only [List.mem_cons, List.mem_singleton, List.not_mem_nil, or_false] at hcb
      rcases hcb with hcb | hcb <;> cases hcb
  rcases hcase with ⟨-, hpath, hcalls⟩ | ⟨e, done, node, rest, -, hbr, hpath, hcalls⟩
  · refine ⟨_, hcalls, ?_, ?_⟩
    · rw [checkCalls_append, hrevert, Option.some_bind,
        checkCalls_applyCalls cs branch _ cp.ID hbase hlink hparent, hpath]
    · intro id dir hc
      rcases List.mem_append.mp hc with hc | hc
      · exact hnr _ _ _ hc
      · exact hna _ _ _ hc
  · subst hbr
    have hlinkd : Linked cp.ID done := linked_append_left _ _ _ hlink
    have hpard : ∀ b ∈ done, ∃ b0, getBlockMap cs b.ID = some b0 ∧ b0.Parent = b.Parent :=
      fun b hbm => hparent b (List.mem_append_left _ hbm)
    have hnode : Stored cs node :=
      hstored node (List.mem_cons_of_mem _ (List.mem_append_right _ (List.mem_cons_self _ _)))
    have hlastk : (cs.path.take (cp.Height + 1) ++ done.map (fun b => b.ID)).getLast? =
        some node.Parent := by
      rw [getLast?_append_of_getLast? hbase]
      exact linked_split cp.ID done node rest hlink
    have hlinkt := hwf.linked_top hgp
    have hpart : ∀ b ∈ blocksOf cs (cs.path.drop (cp.Height + 1)),
        ∃ b0, getBlockMap cs b.ID = some b0 ∧ b0.Parent = b.Parent :=
      fun b hbm => ⟨b, (mem_blocksOf hbm).2, rfl⟩
    have hids : (blocksOf cs (cs.path.drop (cp.Height + 1))).map (fun b => b.ID) =
        cs.path.drop (cp.Height + 1) := blocksOf_ids cs _ (hwf.path_stored _)
    refine ⟨_, hcalls, ?_, ?_⟩
    · rw [checkCalls_append, checkCalls_append, checkCalls_append, hrevert, Option.some_bind,
        checkCalls_applyCalls cs done _ cp.ID hbase hlinkd hpard, Option.some_bind,
        checkCalls_generate cs _ false hnode rfl hlastk, Option.some_bind,
        checkCalls_append, checkCalls_revertCalls, Option.some_bind,
        checkCalls_applyCalls cs _ _ cp.ID hbase hlinkt hpart, hids, hpath, ← hsplit]
    · intro id dir hc
      simp only [List.mem_append, List.mem_singleton] at hc
      rcases hc with ((hc | hc) | hc) | hc | hc
      · exact hnr _ _ _ hc
      · exact hna _ _ _ hc
      · cases hc
      · exact hnr _ _ _ hc
      · exact hna _ _ _ hc

/-! ## Forking back to the old tip -/

theorem heightsFrom_getElem? :
    ∀ (xs : List (processedBlock D)) (h j : Nat) (x : processedBlock D),
      HeightsFrom h xs → xs[j]? = some x → x.Height = h + 1 + j := by
  intro xs
  induction xs with
  | nil => intro h j x _ hx; simp at hx
  | cons a l ih =>
    intro h j x hh hx
    cases j with
    | zero =>
      simp only [List.getElem?_cons_zero, Option.some.injEq] at hx
      subst hx
      exact hh.1
    | succ n =>
      simp only [List.getElem?_cons_succ] at hx
      have := ih (h + 1) n x hh.2 hx
      omega

theorem blocksOf_map_of_stored (cs : ConsensusSet σ D) (l : List (processedBlock D))
    (h : ∀ b ∈ l, Stored cs b) : blocksOf cs (l.map (fun b => b.ID)) = l := by
  induction l with
  | nil => rfl
  | cons a l ih =>
    have ha : getBlockMap cs a.ID = some a := h a (List.mem_cons_self _ _)
    unfold blocksOf at ih ⊢
    rw [List.map_cons, List.filterMap_cons, ha]
    simp only
    rw [ih (fun b hb => h b (List.mem_cons_of_mem _ hb))]

theorem blocksOf_reverse (cs : ConsensusSet σ D) (ids : List BlockID) :
    blocksOf cs ids.reverse = (blocksOf cs ids).reverse :=
  List.filterMap_reverse _ _

/-- After a fork that applied `branch` on top of the common parent, the walk
from the old tip meets the new path at the common parent and passes the blocks
of the old path above it. -/
theorem PathWellFormed.backtrack_return {cs cs' : ConsensusSet σ D}
    (hwf : PathWellFormed cs) (hev : MapEvolves cs cs') {cp : processedBlock D}
    {branch : List (processedBlock D)} (hcp : onCurrentPath cs cp = true)
    (hoff : ∀ b ∈ branch, onCurrentPath cs b = false) (hh : HeightsFrom cp.Height branch)
    (hpath : cs'.path = cs.path.take (cp.Height + 1) ++ branch.map (fun b => b.ID))
    {T : processedBlock D} (hT : currentProcessedBlock cs = some T) :
    ∃ c, Stored cs' T ∧ getPath cs cp.Height = some c.ID ∧
      Backtrack cs' T (c :: blocksOf cs (cs.path.drop (cp.Height + 1))) := by
  have hgp := ((onCurrentPath_iff cs cp).mp hcp).2
  have hlt : cp.Height < cs.path.length := (List.getElem?_eq_some_iff.mp hgp).1
  have hbaselen : (cs.path.take (cp.Height + 1)).length = cp.Height + 1 := by
    rw [List.length_take]; omega
  have hev3 : MapEvolves cs { cs' with path := cs.path.take (cp.Height + 1) } :=
    hev.trans (MapEvolves.of_eq rfl)
  obtain ⟨c, hst3, hcid, hback3⟩ := hwf.backtrack_oldHead hev3 cp.Height hlt rfl hT
  obtain ⟨c', tail, heq, hc3, htail3, -, -⟩ := hback3.shape
  cases heq
  refine ⟨c, hst3, hcid, hback3.congr (fun _ => rfl) ?_⟩
  intro b hb
  rcases List.mem_cons.mp hb with rfl | hb
  · rw [hc3]
    have h3 := (onCurrentPath_iff_getPath _ b).mp hc3
    rw [onCurrentPath_iff_getPath]
    unfold getPath at h3 ⊢
    have hlt3 : b.Height < (cs.path.take (cp.Height + 1)).length :=
      (List.getElem?_eq_some_iff.mp h3).1
    rw [hpath, List.getElem?_append_left hlt3]
    exact h3
  · rw [htail3 b hb]
    obtain ⟨hid, hbs⟩ := mem_blocksOf hb
    obtain ⟨j, hj⟩ := List.mem_iff_getElem?.mp hid
    rw [List.getElem?_drop] at hj
    obtain ⟨b', hb', hheight, -, -⟩ := hwf.onPath _ _ hj
    rw [hbs] at hb'
    cases hb'
    by_contra hon
    have hon' : onCurrentPath cs' b = true := by simpa using hon
    rw [onCurrentPath_iff_getPath] at hon'
    unfold getPath at hon'
    rw [hpath, hheight, List.getElem?_append_right (by omega), hbaselen,
      show cp.Height + 1 + j - (cp.Height + 1) = j by omega, List.getElem?_map] at hon'
    cases hx : branch[j]? with
    | none => simp [hx] at hon'
    | some x =>
      simp only [hx, Option.map_some', Option.some.injEq] at hon'
      have hxh := heightsFrom_getElem? branch cp.Height j x hh hx
      have hxoff := hoff x (List.mem_iff_getElem?.mpr ⟨j, hx⟩)
      have hxon : onCurrentPath cs x = true := by
        rw [onCurrentPath_iff_getPath, hxh, hon']
        exact hj
      rw [hxon] at hxoff
      cases hxoff

/-- C11, counterexample: the fork of the example set to block 100, which the
generator rejects after block 4 was applied, makes the invocations Revert 3,
generate 4, Apply 4, generate 100, Revert 4, Apply 3: the Revert of block 4
comes after the Apply of block 4. -/
theorem forkBlockchain_reverts_first_counterexample :
    ∃ r, forkBlockchain (exampleExternals true) 10 exampleSet (exampleBlock 100 4 3 false) =
        .ok r ∧
      r.cs.calls = [Call.commit 3 .DiffRevert true, Call.generate 4 true,
        Call.commit 4 .DiffApply true, Call.generate 100 false,
        Call.commit 4 .DiffRevert true, Call.commit 3 .DiffApply true] ∧
      revertsFirst r.cs.calls = false :=
  ⟨_, rfl, rfl, rfl⟩

/-- C11 (ordering of operations, amended): the invocations made by a returning
call of `forkBlockchain` are those of the attempt followed by those of the
recovery, and in each of the two every Revert precedes every Apply and every
invocation of the generator.  The attempt reverts the old path above the common
parent, tip first, and applies the blocks of the branch in order, whose heights
ascend by one from the common parent; when the call returns nil there is no
recovery; when it returns an error the attempt ends with the rejected
invocation of the generator, and the recovery reverts the blocks the attempt
applied and applies the blocks of the old path in path order. -/
theorem forkBlockchain_call_order [DecidableEq H] (E : Externals σ D ε H) (fuel : Nat)
    (cs : ConsensusSet σ D) (hwf : PathWellFormed cs) (hhl : HeightsLinked cs)
    (newNode : processedBlock D) (hst : Stored cs newNode) (r : ForkResult σ D ε)
    (h : forkBlockchain E fuel cs newNode = .ok r) :
    ∃ cp branch attempt recovery,
      backtrackToCurrentPath fuel cs newNode = .ok (cp :: branch) ∧
      HeightsFrom cp.Height branch ∧
      r.cs.calls = cs.calls ++ (attempt ++ recovery) ∧
      revertsFirst attempt = true ∧ revertsFirst recovery = true ∧
      (r.err = none → recovery = [] ∧
        attempt = revertCalls (cs.path.drop (cp.Height + 1)).reverse ++ applyCalls branch) ∧
      (∀ e, r.err = some e → ∃ done node rest, branch = done ++ node :: rest ∧
        attempt = revertCalls (cs.path.drop (cp.Height + 1)).reverse ++ applyCalls done ++
          [Call.generate node.ID false] ∧
        recovery = revertCalls (done.map (fun b => b.ID)).reverse ++
          applyCalls (blocksOf cs (cs.path.drop (cp.Height + 1)))) := by
  obtain ⟨cp, branch, hbt, hb, hcase⟩ := forkBlockchain_log E hwf hst h
  obtain ⟨cp', branch', heq, hheights, -⟩ := hb.heights hhl hst
  cases heq
  rcases hcase with ⟨hnil, -, hcalls⟩ | ⟨e, done, node, rest, he, hbr, -, hcalls⟩
  · refine ⟨cp, branch, _, [], hbt, hheights, by rw [List.append_nil]; exact hcalls,
      revertsFirst_append _ _ (isRevert_revertCalls _) (isRevert_applyCalls _), rfl,
      fun _ => ⟨rfl, rfl⟩, ?_⟩
    intro e he
    rw [hnil] at he
    cases he
  · refine ⟨cp, branch, _, _, hbt, hheights, hcalls, ?_,
      revertsFirst_append _ _ (isRevert_revertCalls _) (isRevert_applyCalls _), ?_, ?_⟩
    · rw [List.append_assoc]
      refine revertsFirst_append _ _ (isRevert_revertCalls _) ?_
      intro c hc
      rcases List.mem_append.mp hc with hc | hc
      · exact isRevert_applyCalls _ c hc
      · simp only [List.mem_singleton] at hc
        subst hc; rfl
    · intro hnil
      rw [he] at hnil
      cases hnil
    · intro e' _
      exact ⟨done, node, rest, hbr, rfl, rfl⟩

theorem forkBlockchain_call_order_witness :
    ∃ r, forkBlockchain (exampleExternals true) 10 exampleSet (exampleBlock 100 4 3 false) =
        .ok r ∧ r.err = some (.invalidBlock 7) ∧
      ∃ cp branch attempt recovery,
        backtrackToCurrentPath 10 exampleSet (exampleBlock 100 4 3 false) =
          .ok (cp :: branch) ∧
        HeightsFrom cp.Height branch ∧
        r.cs.calls = exampleSet.calls ++ (attempt ++ recovery) ∧
        revertsFirst attempt = true ∧ revertsFirst recovery = true ∧
        (r.err = none → recovery = [] ∧
          attempt = revertCalls (exampleSet.path.drop (cp.Height + 1)).reverse ++
            applyCalls branch) ∧
        (∀ e, r.err = some e → ∃ done node rest, branch = done ++ node :: rest ∧
          attempt = revertCalls (exampleSet.path.drop (cp.Height + 1)).reverse ++
            applyCalls done ++ [Call.generate node.ID false] ∧
          recovery = revertCalls (done.map (fun b => b.ID)).reverse ++
            applyCalls (blocksOf exampleSet (exampleSet.path.drop (cp.Height + 1)))) := by
  have h : forkBlockchain (exampleExternals true) 10 exampleSet (exampleBlock 100 4 3 false) =
      .ok _ := rfl
  exact ⟨_, h, rfl,
    forkBlockchain_call_order (exampleExternals true) 10 exampleSet
      (exampleSet_wellFormed true).toPathWellFormed exampleSet_heightsLinked
      (exampleBlock 100 4 3 false) rfl _ h⟩

/-- C12 (path contiguity is preserved): if before a call of `forkBlockchain` on
a block of the block map the current path is defined exactly on the heights
from 0 to the tip height and the stored record of every entry above genesis
has the entry one below as its parent, then the same holds after the call,
whether it returns nil or an error. -/
theorem forkBlockchain_contiguous [DecidableEq H] (E : Externals σ D ε H) (fuel : Nat)
    (cs : ConsensusSet σ D) (newNode : processedBlock D) (hst : Stored cs newNode)
    (hc : Contiguous cs) (r : ForkResult σ D ε)
    (h : forkBlockchain E fuel cs newNode = .ok r) :
    Contiguous r.cs :=
  (forkBlockchain_keeps E hst h).contiguous hc

theorem forkBlockchain_contiguous_witness :
    (∃ r, forkBlockchain (exampleExternals true) 10 exampleSet (exampleBlock 5 4 3 false) =
        .ok r ∧ r.err = none ∧ r.cs.path = [1, 2, 4, 5] ∧ Contiguous r.cs) ∧
    (∃ r, forkBlockchain (exampleExternals true) 10 exampleSet (exampleBlock 100 4 3 false) =
        .ok r ∧ r.err = some (.invalidBlock 7) ∧ r.cs.path = [1, 2, 3] ∧ Contiguous r.cs) :=
  ⟨⟨_, rfl, rfl, rfl,
      forkBlockchain_contiguous (exampleExternals true) 10 exampleSet
        (exampleBlock 5 4 3 false) rfl
        (exampleSet_wellFormed true).toPathWellFormed.contiguous _ rfl⟩,
    ⟨_, rfl, rfl, rfl,
      forkBlockchain_contiguous (exampleExternals true) 10 exampleSet
        (exampleBlock 100 4 3 false) rfl
        (exampleSet_wellFormed true).toPathWellFormed.contiguous _ rfl⟩⟩

/-- C13 (fork round trip): on a well-formed consensus set with tip `T` that
satisfies the height invariant, when Revert undoes Apply and `forkBlockchain`
on a stored target returns nil, a following `forkBlockchain` on `T` returns nil
as well, puts the current path and the consensus state (hence
`consensusSetHash`) back to their values before the first call, returns as
reverted the blocks the first call applied, in reverse order, and as applied
the blocks the first call reverted, in reverse order. -/
theorem forkBlockchain_round_trip [DecidableEq H] (E : Externals σ D ε H)
    (hRA : RevertUndoesApply E) (cs : ConsensusSet σ D) (hwf : WellFormed E cs)
    (hhl : HeightsLinked cs) (T newNode : processedBlock D)
    (hT : currentProcessedBlock cs = some T) (hst : Stored cs newNode) (fuel : Nat)
    (r1 : ForkResult σ D ε) (h1 : forkBlockchain E fuel cs newNode = .ok r1)
    (hnil : r1.err = none) (fuel2 : Nat) (hf : cs.path.length ≤ fuel2)
    (hf' : r1.cs.path.length ≤ fuel2) :
    ∃ r2, forkBlockchain E fuel2 r1.cs T = .ok r2 ∧ r2.err = none ∧
      r2.cs.path = cs.path ∧ r2.cs.state = cs.state ∧
      consensusSetHash E r2.cs = consensusSetHash E cs ∧
      r2.revertedNodes = r1.appliedNodes.reverse ∧
      r2.appliedNodes = r1.revertedNodes.reverse := by
  have hpwf := hwf.toPathWellFormed
  obtain ⟨oldHead, cp, branch, -, -, hb, -, -, -, hcase⟩ := forkBlockchain_run E hpwf h1
  rcases hcase with ⟨-, hrev1, hrun⟩ | ⟨e, cs2, applied, he, -⟩
  swap
  · rw [hnil] at he; cases he
  obtain ⟨cp', branch', heq, hcp, hoff, hlink, -⟩ := hb.shape
  cases heq
  obtain ⟨cp', branch', heq, hheights, -⟩ := hb.heights hhl hst
  cases heq
  have hgp := ((onCurrentPath_iff cs cp).mp hcp).2
  have hlt : cp.Height < cs.path.length := (List.getElem?_eq_some_iff.mp hgp).1
  have hbaselen : (cs.path.take (cp.Height + 1)).length = cp.Height + 1 := by
    rw [List.length_take]; omega
  have post := attempt_clean E hst hb hrun
  obtain ⟨hwf1, -, hev1⟩ := forkBlockchain_wellFormed E hRA hwf hhl hst h1
  have hpwf1 := hwf1.toPathWellFormed
  have hpath1 : r1.cs.path = cs.path.take (cp.Height + 1) ++ branch.map (fun b => b.ID) := by
    rw [post.path, revertedTo_path]
  obtain ⟨c, hstT, hcid, hb2⟩ := hpwf.backtrack_return hev1 hcp hoff hheights hpath1 hT
  -- the common parent of the second call lies at the height of the first
  have hcst : Stored r1.cs c := (hb2.stored hstT) c (List.mem_cons_self _ _)
  have hch : c.Height = cp.Height := by
    have h1' : getPath r1.cs cp.Height = some c.ID := by
      unfold getPath at hcid ⊢
      rw [hpath1, List.getElem?_append_left (by omega), List.getElem?_take, if_pos (by omega)]
      exact hcid
    obtain ⟨b, hb', hbh, -, -⟩ := hpwf1.onPath _ _ h1'
    rw [hcst] at hb'
    cases hb'
    exact hbh
  have hdrop1 : r1.cs.path.drop (cp.Height + 1) = branch.map (fun b => b.ID) := by
    rw [hpath1]; exact drop_append_length _ _ _ hbaselen
  have htake1 : r1.cs.path.take (cp.Height + 1) = cs.path.take (cp.Height + 1) := by
    rw [hpath1]; exact take_append_length _ _ _ hbaselen
  obtain ⟨c', tail, heq, hc2, -, hlink2, -⟩ := hb2.shape
  cases heq
  have htip2 : currentBlockID (revertedTo E r1.cs c.Height) = some c.ID :=
    revertedTo_currentBlockID E r1.cs c hc2
  obtain ⟨⟨cs4, appl4, err4⟩, hrun2⟩ := applyLoop_total E
    (blocksOf cs (cs.path.drop (cp.Height + 1))) (revertedTo E r1.cs c.Height) [] c.ID
    htip2 hlink2
  have hgenall : ∀ b ∈ blocksOf cs (cs.path.drop (cp.Height + 1)),
      b.DiffsGenerated = true := by
    intro b hbm
    obtain ⟨hid, hbs⟩ := mem_blocksOf hbm
    obtain ⟨k, hk⟩ := List.mem_iff_getElem?.mp (List.mem_of_mem_drop hid)
    obtain ⟨b', hb', -, hg', -⟩ := hpwf.onPath k _ hk
    rw [hbs] at hb'; cases hb'; exact hg'
  obtain ⟨-, herr4, happl4⟩ := applyLoop_generated E _ _ cs4 [] appl4 err4 hgenall hrun2
  subst herr4
  simp only [List.nil_append] at happl4
  subst happl4
  obtain ⟨appl', -, post2⟩ := applyLoop_clean E _ _ cs4 []
    (blocksOf cs (cs.path.drop (cp.Height + 1))) c.ID hrun2 htip2 hlink2
    (fun b hbm => hb2.stored hstT b (List.mem_cons_of_mem _ hbm))
    (by
      have := hb2.nodup hstT
      simp only [List.map_cons, List.nodup_cons] at this
      exact this.2)
  have hlen2 : (blocksOf cs (cs.path.drop (cp.Height + 1))).length < fuel2 := by
    have : (blocksOf cs (cs.path.drop (cp.Height + 1))).length ≤
        (cs.path.drop (cp.Height + 1)).length := List.length_filterMap_le _ _
    rw [List.length_drop] at this
    omega
  have hfork2 := forkBlockchain_success E r1.cs hpwf1 T c _ hb2 fuel2 hlen2 hf' cs4 _ hrun2
  have hids : (blocksOf cs (cs.path.drop (cp.Height + 1))).map (fun b => b.ID) =
      cs.path.drop (cp.Height + 1) := blocksOf_ids cs _ (hpwf.path_stored _)
  have hpath4 : cs4.path = cs.path := by
    rw [post2.path, revertedTo_path, hch, htake1, hids, List.take_append_drop]
  have hev4 : MapEvolves cs cs4 :=
    (hev1.trans (MapEvolves.of_eq (revertedTo_blockMap E r1.cs c.Height))).trans post2.evolves
  have hstate4 : cs4.state = cs.state := by
    obtain ⟨s0, hs0⟩ := hwf.agrees
    have hs1 : (revertedTo E r1.cs c.Height).state =
        replay E cs s0 (cs.path.take (cp.Height + 1)) := by
      show unwind E r1.cs (r1.cs.path.drop (c.Height + 1)) r1.cs.state = _
      rw [hch, hdrop1, post.state, unwind_replay E hRA,
        revertedTo_state E hRA cs cp.Height s0 hs0]
    rw [post2.state, hs1, hids,
      replay_congr E _ (fun id hid => hpwf.getBlockMap_eq hev4 (List.mem_of_mem_drop hid)),
      ← replay_append, List.take_append_drop, ← hs0]
  refine ⟨_, hfork2, rfl, hpath4, hstate4, ?_, ?_, ?_⟩
  · unfold consensusSetHash; rw [hstate4]
  · show blocksOf r1.cs (r1.cs.path.drop (c.Height + 1)).reverse = _
    rw [hch, hdrop1, blocksOf_reverse, ← post.ids,
      blocksOf_map_of_stored r1.cs _ (fun b hbm => (post.stored b hbm).1)]
  · show blocksOf cs (cs.path.drop (cp.Height + 1)) = _
    rw [hrev1, blocksOf_reverse, List.reverse_reverse]

theorem forkBlockchain_round_trip_witness :
    ∃ r1 r2, forkBlockchain (exampleExternals true) 10 exampleSet (exampleBlock 5 4 3 false) =
        .ok r1 ∧ r1.cs.path = [1, 2, 4, 5] ∧ r1.cs.state = 12 ∧
      r1.revertedNodes.map (fun b => b.ID) = [3] ∧
      r1.appliedNodes.map (fun b => b.ID) = [4, 5] ∧
      forkBlockchain (exampleExternals true) 10 r1.cs (exampleBlock 3 2 2 true) = .ok r2 ∧
      r2.err = none ∧ r2.cs.path = exampleSet.path ∧ r2.cs.state = exampleSet.state ∧
      consensusSetHash (exampleExternals true) r2.cs =
        consensusSetHash (exampleExternals true) exampleSet ∧
      r2.revertedNodes = r1.appliedNodes.reverse ∧
      r2.appliedNodes = r1.revertedNodes.reverse := by
  have h : forkBlockchain (exampleExternals true) 10 exampleSet (exampleBlock 5 4 3 false) =
      .ok _ := rfl
  obtain ⟨r2, h2⟩ := forkBlockchain_round_trip (exampleExternals true)
    (exampleExternals_revertUndoesApply true) exampleSet (exampleSet_wellFormed true)
    exampleSet_heightsLinked (exampleBlock 3 2 2 true) (exampleBlock 5 4 3 false) rfl rfl 10
    _ h rfl 10 (by decide) (by decide)
  exact ⟨_, r2, h, rfl, rfl, rfl, rfl, h2⟩

/-- C14 (recovery purity): after a call of `forkBlockchain` that returns an
error, on a consensus set that satisfies the path invariants, every block that
was on the current path before the call is stored unchanged (so with its diff
set as before the call) and still has `DiffsGenerated` true. -/
theorem forkBlockchain_recovery_purity [DecidableEq H] (E : Externals σ D ε H) (fuel : Nat)
    (cs : ConsensusSet σ D) (hwf : PathWellFormed cs) (newNode : processedBlock D)
    (r : ForkResult σ D ε) (h : forkBlockchain E fuel cs newNode = .ok r)
    (e : Error ε) (herr : r.err = some e) :
    ∀ id, id ∈ cs.path →
      ∃ b, getBlockMap cs id = some b ∧ getBlockMap r.cs id = some b ∧
        b.DiffsGenerated = true := by
  intro id hid
  obtain ⟨oldHead, cp, branch, -, -, -, -, -, -, hcase⟩ := forkBlockchain_run E hwf h
  rcases hcase with ⟨hnil, -, -⟩ | ⟨e', cs2, applied, -, -, -, -, -, -, -, -, hev, -, -, -⟩
  · rw [hnil] at herr; cases herr
  · obtain ⟨k, hk⟩ := List.mem_iff_getElem?.mp hid
    obtain ⟨b, hb, -, hg, -⟩ := hwf.onPath k id hk
    exact ⟨b, hb, by rw [hwf.getBlockMap_eq hev hid]; exact hb, hg⟩

theorem forkBlockchain_recovery_purity_witness :
    ∃ r, forkBlockchain (exampleExternals true) 10 exampleSet (exampleBlock 100 4 3 false) =
        .ok r ∧ r.err = some (.invalidBlock 7) ∧
      getBlockMap r.cs 4 = some (exampleBlock 4 2 2 true) ∧
      ∀ id, id ∈ exampleSet.path →
        ∃ b, getBlockMap exampleSet id = some b ∧ getBlockMap r.cs id = some b ∧
          b.DiffsGenerated = true :=
  ⟨_, rfl, rfl, rfl,
    forkBlockchain_recovery_purity (exampleExternals true) 10 exampleSet
      (exampleSet_wellFormed true).toPathWellFormed (exampleBlock 100 4 3 false) _ rfl
      (.invalidBlock 7) rfl⟩

/-- C15 (no-op fork): when `newNode` is the stored record of the current tip,
at the tip height, `backtrackToCurrentPath` returns the one-element list
`[newNode]`, and `forkBlockchain` returns empty reverted and applied sequences
with a nil error and leaves the consensus set as it was: path and state are
unchanged and the log of committer and generator invocations has no new
entry. -/
theorem forkBlockchain_noop [DecidableEq H] (E : Externals σ D ε H) (fuel : Nat)
    (hf : 0 < fuel) (cs : ConsensusSet σ D) (newNode : processedBlock D)
    (htip : currentProcessedBlock cs = some newNode) (hh : newNode.Height = height cs) :
    backtrackToCurrentPath fuel cs newNode = .ok [newNode] ∧
      forkBlockchain E fuel cs newNode = .ok ⟨cs, [], [], none⟩ := by
  have hid : currentBlockID cs = some newNode.ID := by
    unfold currentProcessedBlock at htip
    cases hc : currentBlockID cs with
    | none => simp [hc] at htip
    | some t =>
      simp only [hc, Option.some_bind] at htip
      rw [getBlockMap_id htip]
  have hgp : getPath cs newNode.Height = some newNode.ID := by
    rw [hh]; exact hid
  have hon : onCurrentPath cs newNode = true :=
    (onCurrentPath_iff cs newNode).mpr ⟨by omega, hgp⟩
  have hbt : backtrackToCurrentPath fuel cs newNode = .ok [newNode] :=
    backtrack_complete (Backtrack.here hon) (by simpa using hf)
  have hrev : revertToNode E fuel cs newNode = .ok (cs, []) := by
    unfold revertToNode
    rw [if_neg (by
      rintro ⟨-, hlt | hne⟩
      · omega
      · exact hne hgp)]
    obtain ⟨n, rfl⟩ : ∃ n, fuel = n + 1 := ⟨fuel - 1, by omega⟩
    simp [revertLoop, hid]
  have happ : applyUntilNode E fuel cs newNode = .ok (cs, [], none) := by
    unfold applyUntilNode
    rw [hbt]
    rfl
  refine ⟨hbt, ?_⟩
  unfold forkBlockchain
  simp only [htip, hbt, hrev, happ]

theorem forkBlockchain_noop_witness :
    currentProcessedBlock exampleSet = some (exampleBlock 3 2 2 true) ∧
    (backtrackToCurrentPath 1 exampleSet (exampleBlock 3 2 2 true) =
        .ok [exampleBlock 3 2 2 true] ∧
      forkBlockchain (exampleExternals true) 1 exampleSet (exampleBlock 3 2 2 true) =
        .ok ⟨exampleSet, [], [], none⟩) :=
  ⟨rfl, forkBlockchain_noop (exampleExternals true) 1 (by decide) exampleSet
    (exampleBlock 3 2 2 true) rfl rfl⟩

/-- C16 (backtrack terminates): in a block map where every stored block above
height 0 has its parent stored one lower and the stored blocks of height 0 are
on the current path, the walk of `backtrackToCurrentPath` from a stored block
`pb` ends within `pb.Height + 1` iterations: with that much fuel, or more, it
returns a list, of at most `pb.Height + 1` blocks. -/
theorem backtrackToCurrentPath_terminates (cs : ConsensusSet σ D) (hpar : ParentsStored cs)
    (hgen : GenesisOnPath cs) (pb : processedBlock D) (hst : Stored cs pb) (fuel : Nat)
    (hf : pb.Height + 1 ≤ fuel) :
    ∃ l, backtrackToCurrentPath fuel cs pb = .ok l ∧ l.length ≤ pb.Height + 1 := by
  have key : ∀ (n : Nat) (b : processedBlock D) (acc : List (processedBlock D)),
      Stored cs b → b.Height = n →
      ∃ l, backtrackLoop cs (n + 1) b acc = .ok l ∧ l.length ≤ acc.length + n := by
    intro n
    induction n with
    | zero =>
      intro b acc hb h0
      refine ⟨acc, ?_, by omega⟩
      simp [backtrackLoop, hgen b hb h0]
    | succ n ih =>
      intro b acc hb hn
      by_cases hon : onCurrentPath cs b = true
      · refine ⟨acc, ?_, by omega⟩
        simp [backtrackLoop, hon]
      · obtain ⟨p, hp, hph⟩ := hpar b hb (by omega)
        obtain ⟨l, hl, hlen⟩ := ih p (p :: acc) (getBlockMap_stored hp) (by omega)
        refine ⟨l, ?_, by simp only [List.length_cons] at hlen; omega⟩
        rw [backtrackLoop]
        simp only [hon, hp]
        exact hl
  obtain ⟨l, hl, hlen⟩ := key pb.Height pb [pb] hst rfl
  refine ⟨l, backtrack_mono hf hl, by simp only [List.length_singleton] at hlen; omega⟩

theorem backtrackToCurrentPath_terminates_witness :
    ∃ l, backtrackToCurrentPath 4 exampleSet (exampleBlock 5 4 3 false) = .ok l ∧
      l.length ≤ (exampleBlock 5 4 3 false).Height + 1 :=
  backtrackToCurrentPath_terminates exampleSet
    (by
      intro b hb hpos
      have hmem : b ∈ exampleSet.blockMap := by
        unfold Stored getBlockMap at hb
        exact List.mem_of_find?_eq_some hb
      simp only [exampleSet, List.mem_cons, List.mem_singleton, List.not_mem_nil,
        or_false] at hmem
      rcases hmem with rfl | rfl | rfl | rfl | rfl | rfl
      · exact absurd hpos (by decide)
      · exact ⟨_, rfl, rfl⟩
      · exact ⟨_, rfl, rfl⟩
      · exact ⟨_, rfl, rfl⟩
      · exact ⟨_, rfl, rfl⟩
      · exact ⟨_, rfl, rfl⟩)
    (by
      intro b hb h0
      have hmem : b ∈ exampleSet.blockMap := by
        unfold Stored getBlockMap at hb
        exact List.mem_of_find?_eq_some hb
      simp only [exampleSet, List.mem_cons, List.mem_singleton, List.not_mem_nil,
        or_false] at hmem
      rcases hmem with rfl | rfl | rfl | rfl | rfl | rfl
      · rfl
      · exact absurd h0 (by decide)
      · exact absurd h0 (by decide)
      · exact absurd h0 (by decide)
      · exact absurd h0 (by decide)
      · exact absurd h0 (by decide))
    (exampleBlock 5 4 3 false) rfl 4 (by decide)

/-- C17 (recovery cannot fail): on a consensus set that satisfies the path
invariants (every block on the current path has `DiffsGenerated` true), once
`forkBlockchain` has reached its recovery branch (the backtrack, the revert
and the attempt have returned, the attempt with an error), and with fuel for
the length of the path, the recovery returns: `revertToNode(commonParent)`
returns, `applyUntilNode(oldHead)` returns a nil error, every invocation it
makes is one of the committer in Apply direction (it does not invoke the
generator), and the tip is `oldHead` afterwards; so `forkBlockchain` does not
panic on `errReapply`: it returns the error of the attempt unless the debug
check of the hash stops it. -/
theorem forkBlockchain_recovery_reapply [DecidableEq H] (E : Externals σ D ε H) (fuel : Nat)
    (cs : ConsensusSet σ D) (hwf : PathWellFormed cs) (newNode oldHead cp : processedBlock D)
    (branch : List (processedBlock D)) (cs1 : ConsensusSet σ D)
    (rev : List (processedBlock D)) (cs2 : ConsensusSet σ D)
    (applied : List (processedBlock D)) (e : Error ε)
    (hold : currentProcessedBlock cs = some oldHead)
    (hbt : backtrackToCurrentPath fuel cs newNode = .ok (cp :: branch))
    (hrev : revertToNode E fuel cs cp = .ok (cs1, rev))
    (happ : applyUntilNode E fuel cs1 newNode = .ok (cs2, applied, some e))
    (hf : cs.path.length ≤ fuel) :
    ∃ cs3 rev3 cs4 reapplied new,
      revertToNode E fuel cs2 cp = .ok (cs3, rev3) ∧
      applyUntilNode E fuel cs3 oldHead = .ok (cs4, reapplied, none) ∧
      cs4.calls = cs3.calls ++ new ∧
      (∀ c ∈ new, ∃ id, c = Call.commit id .DiffApply true) ∧
      currentBlockID cs4 = some oldHead.ID ∧
      forkBlockchain E fuel cs newNode =
        if E.DEBUG = true ∧ consensusSetHash E cs4 ≠ consensusSetHash E cs then
          .error .hashChanged
        else .ok ⟨cs4, [], [], some e⟩ := by
  obtain ⟨hb, hlen⟩ := backtrack_sound hbt
  simp only [List.length_cons] at hlen
  obtain ⟨cp', branch', heq, hcp, -, -, -⟩ := hb.shape
  cases heq
  have hf1 : branch.length < fuel := by omega
  have hrev' := revertToNode_wf E cs hwf cp hcp fuel (by omega)
  rw [hrev] at hrev'
  simp only [Except.ok.injEq, Prod.mk.injEq] at hrev'
  obtain ⟨hcs1, hrevd⟩ := hrev'
  subst hcs1
  subst hrevd
  have hb1 := hb.after_revert (revertedTo_blockMap E cs cp.Height)
    (revertedTo_path E cs cp.Height)
  have hrun := happ
  rw [applyUntilNode_eq E hb1 hf1] at hrun
  obtain ⟨cs4, hrev2, happ3, -, -, -, hcalls, -, hgen, htip⟩ :=
    recovery_run E hwf hb hf1 hf hrun hold
  refine ⟨_, _, cs4, _, applyCalls (blocksOf cs (cs.path.drop (cp.Height + 1))), hrev2, happ3,
    hcalls, ?_, htip, ?_⟩
  · intro c hc
    unfold applyCalls at hc
    obtain ⟨b, hb', hcb⟩ := List.mem_flatMap.mp hc
    unfold applyCallsOf at hcb
    rw [if_pos (hgen b hb')] at hcb
    simp only [List.mem_singleton] at hcb
    exact ⟨b.ID, hcb⟩
  · unfold forkBlockchain
    simp only [hold, hbt, hrev, happ, hrev2, happ3]
    simp

theorem forkBlockchain_recovery_reapply_witness :
    ∃ cs2 applied,
      currentProcessedBlock exampleSet = some (exampleBlock 3 2 2 true) ∧
      backtrackToCurrentPath 10 exampleSet (exampleBlock 100 4 3 false) =
        .ok [exampleBlock 2 1 1 true, exampleBlock 4 2 2 false, exampleBlock 100 4 3 false] ∧
      revertToNode (exampleExternals true) 10 exampleSet (exampleBlock 2 1 1 true) =
        .ok (revertedTo (exampleExternals true) exampleSet 1, [exampleBlock 3 2 2 true]) ∧
      applyUntilNode (exampleExternals true) 10 (revertedTo (exampleExternals true) exampleSet 1)
          (exampleBlock 100 4 3 false) = .ok (cs2, applied, some (.invalidBlock 7)) ∧
      ∃ cs3 rev3 cs4 reapplied new,
        revertToNode (exampleExternals true) 10 cs2 (exampleBlock 2 1 1 true) =
          .ok (cs3, rev3) ∧
        applyUntilNode (exampleExternals true) 10 cs3 (exampleBlock 3 2 2 true) =
          .ok (cs4, reapplied, none) ∧
        cs4.calls = cs3.calls ++ new ∧
        (∀ c ∈ new, ∃ id, c = Call.commit id .DiffApply true) ∧
        currentBlockID cs4 = some (exampleBlock 3 2 2 true).ID ∧
        forkBlockchain (exampleExternals true) 10 exampleSet (exampleBlock 100 4 3 false) =
          if (exampleExternals true).DEBUG = true ∧
              consensusSetHash (exampleExternals true) cs4 ≠
                consensusSetHash (exampleExternals true) exampleSet then
            .error .hashChanged
          else .ok ⟨cs4, [], [], some (.invalidBlock 7)⟩ := by
  have hrev : revertToNode (exampleExternals true) 10 exampleSet (exampleBlock 2 1 1 true) =
      .ok (revertedTo (exampleExternals true) exampleSet 1, [exampleBlock 3 2 2 true]) := rfl
  have happ : applyUntilNode (exampleExternals true) 10
      (revertedTo (exampleExternals true) exampleSet 1) (exampleBlock 100 4 3 false) =
      .ok (_, _, some (.invalidBlock 7)) := rfl
  exact ⟨_, _, rfl, rfl, hrev, happ,
    forkBlockchain_recovery_reapply (exampleExternals true) 10 exampleSet
      (exampleSet_wellFormed true).toPathWellFormed (exampleBlock 100 4 3 false)
      (exampleBlock 3 2 2 true) (exampleBlock 2 1 1 true) _ _ _ _ _ _ rfl rfl hrev happ
      (by decide)⟩

/-- C18 (committer and generator preconditions inside `forkBlockchain`): on a
consensus set that satisfies the path invariants, for a stored target, replaying
the invocations made by a returning call from the path before the call passes
every check (a block handed to the committer in Revert direction is the tip at
that moment, a block handed to the committer in Apply direction or to the
generator has the tip at that moment as its parent) and ends at the path after
the call; no committer invocation returns an error; and the list that
`backtrackToCurrentPath` computes inside `applyUntilNode`, after the revert, is
the list computed before the revert. -/
theorem forkBlockchain_preconditions [DecidableEq H] (E : Externals σ D ε H) (fuel : Nat)
    (cs : ConsensusSet σ D) (hwf : PathWellFormed cs) (newNode : processedBlock D)
    (hst : Stored cs newNode) (r : ForkResult σ D ε)
    (h : forkBlockchain E fuel cs newNode = .ok r) :
    (∃ new, r.cs.calls = cs.calls ++ new ∧ checkCalls cs cs.path new = some r.cs.path ∧
      ∀ id dir, Call.commit id dir false ∉ new) ∧
    ∃ cp branch cs1 rev, backtrackToCurrentPath fuel cs newNode = .ok (cp :: branch) ∧
      revertToNode E fuel cs cp = .ok (cs1, rev) ∧
      backtrackToCurrentPath fuel cs1 newNode = .ok (cp :: branch) := by
  refine ⟨forkBlockchain_checkCalls E hwf hst h, ?_⟩
  obtain ⟨oldHead, cp, branch, -, hbt, -, hrev, hbt1, -, -⟩ := forkBlockchain_run E hwf h
  exact ⟨cp, branch, _, _, hbt, hrev, hbt1⟩

theorem forkBlockchain_preconditions_witness :
    ∃ r, forkBlockchain (exampleExternals true) 10 exampleSet (exampleBlock 100 4 3 false) =
        .ok r ∧ r.err = some (.invalidBlock 7) ∧
      checkCalls exampleSet exampleSet.path r.cs.calls = some [1, 2, 3] ∧
      ((∃ new, r.cs.calls = exampleSet.calls ++ new ∧
          checkCalls exampleSet exampleSet.path new = some r.cs.path ∧
          ∀ id dir, Call.commit id dir false ∉ new) ∧
        ∃ cp branch cs1 rev,
          backtrackToCurrentPath 10 exampleSet (exampleBlock 100 4 3 false) =
            .ok (cp :: branch) ∧
          revertToNode (exampleExternals true) 10 exampleSet cp = .ok (cs1, rev) ∧
          backtrackToCurrentPath 10 cs1 (exampleBlock 100 4 3 false) = .ok (cp :: branch)) := by
  have h : forkBlockchain (exampleExternals true) 10 exampleSet (exampleBlock 100 4 3 false) =
      .ok _ := rfl
  exact ⟨_, h, rfl, rfl,
    forkBlockchain_preconditions (exampleExternals true) 10 exampleSet
      (exampleSet_wellFormed true).toPathWellFormed (exampleBlock 100 4 3 false) rfl _ h⟩

/-- C19 (diffs-generated invariant of the current path): if every block on the
current path has `DiffsGenerated` true before a call of `forkBlockchain` on a
block of the block map, then every block on the current path has
`DiffsGenerated` true after the call, whether it returns nil or an error (the
generator sets the flag on the record of the block it applies). -/
theorem forkBlockchain_pathGenerated [DecidableEq H] (E : Externals σ D ε H) (fuel : Nat)
    (cs : ConsensusSet σ D) (newNode : processedBlock D) (hst : Stored cs newNode)
    (hg : PathGenerated cs) (r : ForkResult σ D ε)
    (h : forkBlockchain E fuel cs newNode = .ok r) :
    PathGenerated r.cs :=
  (forkBlockchain_keeps E hst h).generated hg

theorem forkBlockchain_pathGenerated_witness :
    (∃ r, forkBlockchain (exampleExternals true) 10 exampleSet (exampleBlock 5 4 3 false) =
        .ok r ∧ r.err = none ∧ r.cs.path = [1, 2, 4, 5] ∧ PathGenerated r.cs) ∧
    (∃ r, forkBlockchain (exampleExternals true) 10 exampleSet (exampleBlock 100 4 3 false) =
        .ok r ∧ r.err = some (.invalidBlock 7) ∧ r.cs.path = [1, 2, 3] ∧ PathGenerated r.cs) :=
  ⟨⟨_, rfl, rfl, rfl,
      forkBlockchain_pathGenerated (exampleExternals true) 10 exampleSet
        (exampleBlock 5 4 3 false) rfl
        (exampleSet_wellFormed true).toPathWellFormed.pathGenerated _ rfl⟩,
    ⟨_, rfl, rfl, rfl,
      forkBlockchain_pathGenerated (exampleExternals true) 10 exampleSet
        (exampleBlock 100 4 3 false) rfl
        (exampleSet_wellFormed true).toPathWellFormed.pathGenerated _ rfl⟩⟩

end consensus
